import Mathlib

/-!
# zang — `examples/example_draw.c`

A shallow embedding of the two functions of `example_draw.c`:

* `plot`, which pushes one `(min, max)` sample into the static ring buffer
  `drawbuf[640][2]` at the static cursor `drawindex`;
* `draw`, which paints the ring buffer as a 640-column waveform strip and
  then overlays the status text with the built-in bitmap font.

Modelling conventions.

* `float` is IEEE-754 binary32 evaluated in single precision with
  round-to-nearest-even (`FLT_EVAL_METHOD == 0`, the x86-64 and AArch64
  default).  A finite value is the rational number it denotes, the sign of
  zero is not kept (the program never divides by zero, prints or bit-casts
  a float, so it cannot observe it).
* `int` is `Int`.  The conversion `(int) f` is undefined behaviour in C when
  `f` is a NaN, an infinity or out of the range of `int`; such a step makes
  the embedded function return `none`.  So does the out-of-bounds write of
  `plot` and an out-of-bounds read of the font.
* The pixel memory behind `screen->pixels` is a total map from the element
  index (an `Int`) to the 32-bit pixel value: the code never consults the
  height of the surface, so a store outside the surface is a store to the
  index it computes.  Index arithmetic `y * pitch + x` is done in `Int`.
-/

namespace Zang

/-! ## binary32 -/

/-- A binary32 value: NaN, a signed infinity, or a finite value given by the
rational number it denotes. -/
inductive F32 where
  | nan : F32
  | inf (neg : Bool) : F32
  | fin (q : ℚ) : F32
deriving DecidableEq

namespace F32

/-- Round a rational to the nearest integer, ties to the even one. -/
def roundHalfEven (x : ℚ) : ℤ :=
  if x - ⌊x⌋ < 1 / 2 then ⌊x⌋
  else if 1 / 2 < x - ⌊x⌋ then ⌊x⌋ + 1
  else if ⌊x⌋ % 2 = 0 then ⌊x⌋ else ⌊x⌋ + 1

/-- Exponent of the unit in the last place of the binary32 format at `x`:
24 significant bits, smallest exponent `-149` (subnormal range). -/
def ulpExp (x : ℚ) : ℤ := max (Int.log 2 |x| - 23) (-149)

/-- Rounding of an exact result to binary32, round-to-nearest-even, with
overflow to infinity. -/
def round (x : ℚ) : F32 :=
  let y : ℚ := roundHalfEven (x / 2 ^ ulpExp x) * 2 ^ ulpExp x
  if (2 : ℚ) ^ (128 : ℕ) ≤ |y| then inf (decide (y < 0)) else fin y

/-- Unary minus. -/
def neg : F32 → F32
  | nan => nan
  | inf b => inf (!b)
  | fin q => fin (-q)

/-- Single-precision multiplication. -/
def mul : F32 → F32 → F32
  | nan, _ => nan
  | _, nan => nan
  | inf a, inf b => inf (a != b)
  | inf a, fin q => if q = 0 then nan else inf (a != decide (q < 0))
  | fin p, inf b => if p = 0 then nan else inf (decide (p < 0) != b)
  | fin p, fin q => round (p * q)

/-- Single-precision division. -/
def div : F32 → F32 → F32
  | nan, _ => nan
  | _, nan => nan
  | inf _, inf _ => nan
  | inf a, fin q => inf (a != decide (q < 0))
  | fin _, inf _ => fin 0
  | fin p, fin q =>
    if q = 0 then (if p = 0 then nan else inf (decide (p < 0))) else round (p / q)

/-- The comparison `a < b`; false as soon as one side is a NaN. -/
def lt : F32 → F32 → Bool
  | nan, _ => false
  | _, nan => false
  | inf a, inf b => a && !b
  | inf a, fin _ => a
  | fin _, inf b => !b
  | fin p, fin q => decide (p < q)

/-- Conversion `int → float`. -/
def ofInt (n : Int) : F32 := round n

/-- Conversion `(int) f`: truncation toward zero; `none` where C leaves the
conversion undefined (NaN, infinity, or a truncated value outside `int`). -/
def toInt : F32 → Option Int
  | fin q =>
    if -2 ^ 31 ≤ Int.tdiv q.num q.den ∧ Int.tdiv q.num q.den < 2 ^ 31 then
      some (Int.tdiv q.num q.den)
    else none
  | _ => none

/-- The finite binary32 values: `m * 2 ^ e` with a 24-bit significand and an
exponent in the binary32 range. -/
def IsFinite32 (q : ℚ) : Prop :=
  ∃ m e : ℤ, |m| < 2 ^ 24 ∧ -149 ≤ e ∧ e ≤ 104 ∧ q = m * 2 ^ e

/-- Every value a `float` variable can hold: NaN, an infinity, or a finite
binary32 value. -/
def IsBinary32 : F32 → Prop
  | fin q => IsFinite32 q
  | _ => True

end F32

/-! ## The ring buffer: `drawbuf`, `drawindex`, `plot` -/

/-- The two file-scope statics: `static float drawbuf[640][2]` (a slot is the
pair `(drawbuf[i][0], drawbuf[i][1]) = (min, max)`) and `static int drawindex`. -/
structure Ring where
  drawbuf : Fin 640 → F32 × F32
  drawindex : Int

/-- The statics as the C runtime initialises them: all zero. -/
def Ring.init : Ring := ⟨fun _ => (F32.fin 0, F32.fin 0), 0⟩

/-- The function `void plot(float min, float max)`; `none` when `drawindex` is not a valid
index of `drawbuf` (the store would be out of bounds). -/
def plot (g : Ring) (min max : F32) : Option Ring :=
  if h : 0 ≤ g.drawindex ∧ g.drawindex < 640 then
    some
      { drawbuf := Function.update g.drawbuf ⟨g.drawindex.toNat, by omega⟩ (min, max)
        drawindex := if g.drawindex + 1 = 640 then 0 else g.drawindex + 1 }
  else none

/-- A sequence of `plot` calls, one per sample of the list, in order. -/
def plotAll : Ring → List (F32 × F32) → Option Ring
  | g, [] => some g
  | g, s :: rest => (plot g s.1 s.2).bind (fun g' => plotAll g' rest)

/-! ## The pixel surface -/

/-- The fields of `SDL_Surface` that `draw` uses: `pitch`, the length of a
row in bytes, and `pixels`, here the memory behind the pointer, indexed in
32-bit elements (`unsigned int *pixels`). -/
structure Surface where
  pitch : Int
  pixels : Int → Nat

/-- The loop `for (y = lo; n times; y++) pixels[y * pitch + x] = v;`
unrolled on the number `n` of iterations left. -/
def fillFrom (pitch x : Int) (v : Nat) : Nat → Int → (Int → Nat) → (Int → Nat)
  | 0, _, pixels => pixels
  | n + 1, y, pixels =>
    fillFrom pitch x v n (y + 1) (Function.update pixels (y * pitch + x) v)

/-- The loop `for (y = lo; y < hi; y++) pixels[y * pitch + x] = v;`. -/
def fillRows (pitch x : Int) (v : Nat) (lo hi : Int) (pixels : Int → Nat) : Int → Nat :=
  fillFrom pitch x v (hi - lo).toNat lo pixels

/-! ## `draw`: the waveform pass (lines 33-67) -/

/-- The local `int h = 80;`. -/
def h : Int := 80

/-- The local `int cy = 480 - h / 2 - 10;` (all operands are non-negative, so `/` is
the C division). -/
def cy : Int := 480 - h / 2 - 10

/-- What the loop body computes for one slot before it paints: the two
clamp flags and the two row bounds. -/
structure Span where
  y0limit : Bool
  y1limit : Bool
  y0 : Int
  y1 : Int
deriving DecidableEq

/-- The sum `cy + (int) f`: `none` when the conversion is undefined or the
sum leaves the range of `int`. -/
def rowOf (f : F32) : Option Int :=
  (F32.toInt f).bind fun t => if cy + t < 2 ^ 31 then some (cy + t) else none

/-- Lines 37-45 of the loop body for the slot `(min, max)`:
`y0sample = -max * 0.25f`, `y1sample = -min * 0.25f`, the two limit flags,
the clamps, and `y0`, `y1` as `cy + (int)(sample * h / 2)`. -/
def columnSpan (slot : F32 × F32) : Option Span :=
  let y0sample := F32.mul (F32.neg slot.2) (F32.fin (1 / 4))
  let y1sample := F32.mul (F32.neg slot.1) (F32.fin (1 / 4))
  let y0limit := F32.lt y0sample (F32.fin (-1))
  let y1limit := F32.lt (F32.fin 1) y1sample
  let y0sample := if y0limit then F32.fin (-1) else y0sample
  let y1sample := if y1limit then F32.fin 1 else y1sample
  (rowOf (F32.div (F32.mul y0sample (F32.ofInt h)) (F32.ofInt 2))).bind fun y0 =>
    (rowOf (F32.div (F32.mul y1sample (F32.ofInt h)) (F32.ofInt 2))).map fun y1 =>
      { y0limit := y0limit, y1limit := y1limit, y0 := y0, y1 := y1 }

/-- The local `int x = (i - drawindex + 640) % 640;`, with the C remainder. -/
def columnOf (drawindex i : Int) : Int := Int.tmod (i - drawindex + 640) 640

/-- Lines 47-65: the stores of one column, given its span. -/
def paintColumn (pitch x : Int) (sp : Span) (pixels : Int → Nat) : Int → Nat :=
  let pixels := fillRows pitch x 0x18181818 (cy - h / 2) sp.y0 pixels
  let pixels := fillRows pitch x 0x44444444 sp.y0 (sp.y1 + 1) pixels
  let pixels := fillRows pitch x 0x18181818 (sp.y1 + 1) (480 - 10 + 1) pixels
  let pixels :=
    if sp.y0limit then Function.update pixels ((cy - h / 2) * pitch + x) 0xFFFF0000 else pixels
  let pixels :=
    if sp.y1limit then Function.update pixels ((cy + h / 2) * pitch + x) 0xFFFF0000 else pixels
  Function.update pixels (cy * pitch + x) 0x66666666

/-- One iteration of `for (i = 0; i < 640; i++)`. -/
def drawColumn (pitch drawindex : Int) (i : Int) (slot : F32 × F32) (pixels : Int → Nat) :
    Option (Int → Nat) :=
  (columnSpan slot).map fun sp => paintColumn pitch (columnOf drawindex i) sp pixels

/-- The iterations of `for (i = 0; i < 640; i++)` for the listed slots. -/
def waveLoop (pitch : Int) (g : Ring) : List (Fin 640) → (Int → Nat) → Option (Int → Nat)
  | [], pixels => some pixels
  | i :: rest, pixels =>
    (drawColumn pitch g.drawindex i.val (g.drawbuf i) pixels).bind (waveLoop pitch g rest)

/-- The waveform pass: the loop over all 640 slots. -/
def wavePass (pitch : Int) (g : Ring) (pixels : Int → Nat) : Option (Int → Nat) :=
  waveLoop pitch g (List.finRange 640) pixels

/-! ## `draw`: the text pass (lines 68-85) -/

/-- The string literal `font`: 96 glyphs of 8 characters. -/
def font : String :=
  "0000000044444040::000000::O:O::04N5>D?403C842IH02552E9F084200000" ++
  "84222480248884204E>4>E40044O440000000442000O00000000066000@84210" ++
  ">AIECA>0465444O0>A@@<3O0>A@<@A>0<:999O80O1?@@A>0>1?AAA>0OA@88440" ++
  ">AA>AA>0>AAAN@>000400400004004428421248000O0O000248@8420>AA84040" ++
  ">A@FEE>0>AAAOAA0?BB>BB?0>A111A>0?BBBBB?0O11O11O0O11O1110>A11IAN0" ++
  "AAAOAAA0>44444>0L8888960A95359A0111111O0AKKEEEA0ACCEIIA0>AAAAA>0" ++
  "?AAA?110>AAAE9F0?AAA?9A0>A1>@A>0O4444440AAAAAA>0AA:::440AAEEE::0" ++
  "AA:4:AA0AA:44440O@8421O0>22222>0001248@0>88888>04:A00000000000O0" ++
  "2480000000>@NA^011=CAA?000>A1A>0@@FIAAN000>AO1>0<22O222000^AAN@>" ++
  "11=CAAA04064444080<8888622B:6:B0644444<000?EEEE000?AAAA000>AAA>0" ++
  "00>AA?1100>AAN@@00=C111000N1>@?022O222<0009999F000AA::4000AEE::0" ++
  "00A:4:A000AA::4300O842O0H44244H04444444034484430002E800000000000"

/-- The bytes of the array `font` points to: the characters of the literal
and its terminating NUL. -/
def fontBytes : List Int := (font.toList.map fun ch => (ch.toNat : Int)) ++ [0]

/-- The read `font[k]`; `none` outside the array. -/
def fontAt (k : Int) : Option Int :=
  if 0 ≤ k then fontBytes[k.toNat]? else none

/-- The iterations of `for (sx = 0; sx < 16; sx++)` for the listed `sx`:
`if ((font[index + (sy >> 1)] - '0') & (1 << (sx >> 1)))
   pixels[(y + sy) * pitch + x + sx] = 0x88888888;` -/
def glyphRow (pitch x y index : Int) (sy : Nat) : List Nat → (Int → Nat) → Option (Int → Nat)
  | [], pixels => some pixels
  | sx :: rest, pixels =>
    (fontAt (index + ((sy >>> 1 : Nat) : Int))).bind fun ch =>
      glyphRow pitch x y index sy rest
        (if Int.land (ch - 48) ((2 : Int) ^ (sx >>> 1)) ≠ 0 then
          Function.update pixels ((y + sy) * pitch + x + sx) 0x88888888
        else pixels)

/-- The iterations of `for (sy = 0; sy < 16; sy++)` for the listed `sy`. -/
def glyphRows (pitch x y index : Int) : List Nat → (Int → Nat) → Option (Int → Nat)
  | [], pixels => some pixels
  | sy :: rest, pixels =>
    (glyphRow pitch x y index sy (List.range 16) pixels).bind (glyphRows pitch x y index rest)

/-- Lines 74-81 for the character `c` (with `c >= 32`) and the cell origin
`(x, y)`: `index = (c - 32) << 3` and the two nested loops. -/
def drawGlyph (pitch x y c : Int) (pixels : Int → Nat) : Option (Int → Nat) :=
  glyphRows pitch x y ((c - 32) * 2 ^ 3) (List.range 16) pixels

/-- The variables of the text block that change in the loop: the pen
position `x`, `y` and the pixel memory. -/
structure TextState where
  x : Int
  y : Int
  pixels : Int → Nat

/-- The body of `for (; *s; s++)` for the character `c = *s`; `ix` is the
variable `ix`, which the loop never assigns. -/
def textStep (pitch ix : Int) (st : TextState) (c : Int) : Option TextState :=
  if c = 10 then some { st with x := ix, y := st.y + 20 }
  else if 32 ≤ c then
    (drawGlyph pitch st.x st.y c st.pixels).map fun pixels =>
      { st with x := st.x + 16, pixels := pixels }
  else some st

/-- The loop `for (; *s; s++)` over the characters of `s` (the values of
`*s`); it stops at the first NUL or at the end of the list. -/
def textLoop (pitch ix : Int) : List Int → TextState → Option TextState
  | [], st => some st
  | c :: rest, st =>
    if c = 0 then some st else (textStep pitch ix st c).bind (textLoop pitch ix rest)

/-- The text pass: `int x = 8, y = 8, ix = x;` and the loop. -/
def textPass (pitch : Int) (s : List Int) (pixels : Int → Nat) : Option (Int → Nat) :=
  (textLoop pitch 8 s { x := 8, y := 8, pixels := pixels }).map fun st => st.pixels

/-! ## `draw` -/

/-- The function `void draw(SDL_Window *window, SDL_Surface *screen, const char *s)`:
the effect on the surface between `SDL_LockSurface` and `SDL_UnlockSurface`.
The ring buffer is only read. -/
def draw (g : Ring) (screen : Surface) (s : List Int) : Option Surface :=
  let pitch := screen.pitch >>> 2
  (wavePass pitch g screen.pixels).bind fun pixels =>
    (textPass pitch s pixels).map fun pixels => { screen with pixels := pixels }

/-! ## Derived descriptions used in the statements -/

/-- The value the stores of `paintColumn` leave at row `r` of the painted
column, `old` being the value the pixel had before: the last store to the
row decides (centre line, then the two clamp marks, then the three fills in
reverse order of execution). -/
def paintedRow (sp : Span) (r : Int) (old : Nat) : Nat :=
  if r = cy then 0x66666666
  else if sp.y1limit = true ∧ r = cy + h / 2 then 0xFFFF0000
  else if sp.y0limit = true ∧ r = cy - h / 2 then 0xFFFF0000
  else if sp.y1 + 1 ≤ r ∧ r < 480 - 10 + 1 then 0x18181818
  else if sp.y0 ≤ r ∧ r < sp.y1 + 1 then 0x44444444
  else if cy - h / 2 ≤ r ∧ r < sp.y0 then 0x18181818
  else old

/-- Number of newline characters in the part `pre` of the status string. -/
def newlinesIn (pre : List Int) : Nat := pre.count 10

/-- Number of characters with code at least 32 in `pre` after its last
newline (from its start when it has none). -/
def glyphsOnLastLine (pre : List Int) : Nat :=
  ((pre.reverse.takeWhile fun c => decide (c ≠ 10)).filter fun c => decide (32 ≤ c)).length

/-- A pixel transformer that only stores constants: there is a partial map
`m` from element indices to values such that the result holds `m a` where
`m` is defined and the old value elsewhere, whatever the old content. -/
def Overlays (f : (Int → Nat) → (Int → Nat)) : Prop :=
  ∃ m : Int → Option Nat, ∀ pixels a, f pixels a = (m a).getD (pixels a)

/-- The same for a transformer that can fail: it fails on every pixel memory
or succeeds on every one with a store-only effect. -/
def OverlaysOpt (f : (Int → Nat) → Option (Int → Nat)) : Prop :=
  (∀ pixels, f pixels = none) ∨ ∃ k, Overlays k ∧ ∀ pixels, f pixels = some (k pixels)

/-- The bit the glyph of character `c` has at cell position `(sx, sy)`:
bit `sx div 2` of `font[(c - 32) * 8 + sy div 2] - '0'`; false when the
read falls outside the font. -/
def glyphBit (c : Int) (sx sy : Nat) : Bool :=
  match fontAt ((c - 32) * 8 + ((sy / 2 : Nat) : Int)) with
  | some ch => Int.testBit (ch - 48) (sx / 2)
  | none => false

/-- The element index `a` is a pixel of the 16 x 16 cell with origin
`(x, y)` at which the glyph of `c` has its bit set. -/
def GlyphPixel (pitch x y c a : Int) : Prop :=
  ∃ sx sy : Nat, sx < 16 ∧ sy < 16 ∧ glyphBit c sx sy = true ∧ a = (y + sy) * pitch + x + sx

/-- The element index `a` is a set glyph bit of a drawn character of the
status string `s`: a character with code at least 32, its cell placed by the
newlines and the characters before it. -/
def TextPixel (pitch : Int) (s : List Int) (a : Int) : Prop :=
  ∃ pre c post, s = pre ++ c :: post ∧ 32 ≤ c ∧
    GlyphPixel pitch (8 + 16 * (glyphsOnLastLine pre : Int)) (8 + 20 * (newlinesIn pre : Int)) c a

/-- A pixel transformer that always succeeds, stores `v` at exactly the
element indices of `S` and leaves every other element as it was. -/
def Paints (S : Set Int) (v : Nat) (f : (Int → Nat) → Option (Int → Nat)) : Prop :=
  ∀ pixels, ∃ pixels', f pixels = some pixels' ∧
    ∀ a, (a ∈ S → pixels' a = v) ∧ (a ∉ S → pixels' a = pixels a)

/-- A call of one of the two functions of the file, with its arguments
(the surface `draw` paints is part of the state below). -/
inductive Call where
  | plot (min max : F32) : Call
  | draw (s : List Int) : Call

/-- The state the two functions act on: the statics `drawbuf`, `drawindex`
and the surface handed to `draw`. -/
structure Machine where
  ring : Ring
  screen : Surface

/-- One call: `plot` writes the statics and leaves the surface, `draw` reads
the statics and writes the surface.  `none` when the call is undefined. -/
def step (m : Machine) : Call → Option Machine
  | Call.plot min max => (plot m.ring min max).map fun g => { m with ring := g }
  | Call.draw s => (draw m.ring m.screen s).map fun screen => { m with screen := screen }

/-- A sequence of calls, in order. -/
def run : Machine → List Call → Option Machine
  | m, [] => some m
  | m, c :: rest => (step m c).bind fun m' => run m' rest

/-- The finite value `F32.round` produces before its overflow test: the
multiple of the unit in the last place nearest to `x`. -/
def F32.roundQ (x : ℚ) : ℚ := F32.roundHalfEven (x / 2 ^ F32.ulpExp x) * 2 ^ F32.ulpExp x

/-- Truncation toward zero, as in `F32.toInt`. -/
def F32.trunc (d : ℚ) : Int := Int.tdiv d.num d.den

/-- The single-precision value of `-v * 0.25f * h / 2` for a finite sample
value `v` that no clamp changes: three roundings. -/
def F32.scaled (v : ℚ) : ℚ :=
  F32.roundQ (F32.roundQ (F32.roundQ (-v * (1 / 4)) * 80) / 2)

/-- The part of `columnSpan` that computes `y0` from `max`: lines 37, 40, 42
and 44. -/
def y0Of (max : F32) : Option Int :=
  let y0sample := F32.mul (F32.neg max) (F32.fin (1 / 4))
  let y0limit := F32.lt y0sample (F32.fin (-1))
  let y0sample := if y0limit then F32.fin (-1) else y0sample
  rowOf (F32.div (F32.mul y0sample (F32.ofInt h)) (F32.ofInt 2))

/-- The part of `columnSpan` that computes `y1` from `min`: lines 38, 41, 43
and 45. -/
def y1Of (min : F32) : Option Int :=
  let y1sample := F32.mul (F32.neg min) (F32.fin (1 / 4))
  let y1limit := F32.lt (F32.fin 1) y1sample
  let y1sample := if y1limit then F32.fin 1 else y1sample
  rowOf (F32.div (F32.mul y1sample (F32.ofInt h)) (F32.ofInt 2))

/-- The row the sample-to-row claim states for a finite sample value `v`:
`center_y + round(clamp(-0.25 * v) * 40)`, rounding to the nearest integer. -/
def claimedRow (v : ℚ) : Int := cy + round (max (-1) (min 1 (-(1 / 4) * v)) * 40)

/-! ## Theorems: the ring buffer -/

theorem plot_some (g : Ring) (min max : F32) (h0 : 0 ≤ g.drawindex) (h1 : g.drawindex < 640) :
    plot g min max = some
      { drawbuf := Function.update g.drawbuf ⟨g.drawindex.toNat, by omega⟩ (min, max)
        drawindex := if g.drawindex + 1 = 640 then 0 else g.drawindex + 1 } := by
  unfold plot
  rw [dif_pos ⟨h0, h1⟩]

/-- State after a run of `plot` calls from any in-range cursor: the cursor
has advanced by the number of calls modulo 640, a slot that some call wrote
holds the sample of the last call that wrote it, and a slot no call wrote is
unchanged. -/
theorem plotAll_slots (l : List (F32 × F32)) :
    ∀ (g : Ring), 0 ≤ g.drawindex → g.drawindex < 640 →
    ∃ g', plotAll g l = some g' ∧
      g'.drawindex = (g.drawindex + l.length) % 640 ∧
      ∀ j : Fin 640,
        (∀ (k : ℕ) v, l[k]? = some v → (g.drawindex + k) % 640 = j.val →
          (∀ k' : ℕ, k < k' → k' < l.length → (g.drawindex + k') % 640 ≠ j.val) →
          g'.drawbuf j = v) ∧
        ((∀ k : ℕ, k < l.length → (g.drawindex + k) % 640 ≠ j.val) →
          g'.drawbuf j = g.drawbuf j) := by
  induction l with
  | nil =>
    intro g h0 h1
    refine ⟨g, rfl, ?_, ?_⟩
    · simp only [List.length_nil]; omega
    · intro j
      refine ⟨?_, fun _ => rfl⟩
      intro k v hk
      simp at hk
  | cons s rest ih =>
    intro g h0 h1
    have hp := plot_some g s.1 s.2 h0 h1
    obtain ⟨g', hg', hidx, hsl⟩ := ih
      { drawbuf := Function.update g.drawbuf ⟨g.drawindex.toNat, by omega⟩ (s.1, s.2)
        drawindex := if g.drawindex + 1 = 640 then 0 else g.drawindex + 1 }
      (by dsimp only; split <;> omega) (by dsimp only; split <;> omega)
    refine ⟨g', ?_, ?_, ?_⟩
    · simp only [plotAll, hp, Option.some_bind, hg']
    · rw [hidx]; dsimp only
      simp only [List.length_cons]
      split <;> · push_cast; omega
    · intro j
      obtain ⟨hA, hB⟩ := hsl j
      dsimp only at hA hB
      constructor
      · intro k v hk hj hmax
        cases k with
        | zero =>
          simp only [List.getElem?_cons_zero, Option.some.injEq] at hk
          have hne : ∀ k : ℕ, k < rest.length →
              ((if g.drawindex + 1 = 640 then 0 else g.drawindex + 1) + (k : Int)) % 640
                ≠ j.val := by
            intro k hk'
            have := hmax (k + 1) (by omega) (by simp only [List.length_cons]; omega)
            split <;> · push_cast at this; omega
          rw [hB hne]
          have hj' : j = ⟨g.drawindex.toNat, by omega⟩ := by
            apply Fin.ext
            simp only
            push_cast at hj
            omega
          rw [hj', Function.update_same, ← hk]
        | succ k0 =>
          simp only [List.getElem?_cons_succ] at hk
          apply hA k0 v hk
          · push_cast at hj
            split <;> omega
          · intro k' hk' hk'l
            have := hmax (k' + 1) (by omega) (by simp only [List.length_cons]; omega)
            split <;> · push_cast at this; omega
      · intro hno
        have hne : ∀ k : ℕ, k < rest.length →
            ((if g.drawindex + 1 = 640 then 0 else g.drawindex + 1) + (k : Int)) % 640
              ≠ j.val := by
          intro k hk'
          have := hno (k + 1) (by simp only [List.length_cons]; omega)
          split <;> · push_cast at this; omega
        rw [hB hne]
        have h0' := hno 0 (by simp only [List.length_cons]; omega)
        have hj' : j ≠ ⟨g.drawindex.toNat, by omega⟩ := by
          intro hj'
          apply h0'
          rw [hj']
          simp only
          push_cast
          omega
        rw [Function.update_noteq hj']

/-- C1. For a cursor `c` in `[0, 640)`, `plot min max` succeeds and yields
the state in which slot `c` holds `(min, max)`, every other slot is
unchanged, and the cursor is `(c + 1) mod 640` (so `0` when `c` was `639`). -/
theorem plot_writes_cursor_slot_and_advances (g : Ring) (min max : F32)
    (h0 : 0 ≤ g.drawindex) (h1 : g.drawindex < 640) :
    ∃ g', plot g min max = some g' ∧
      g'.drawbuf ⟨g.drawindex.toNat, by omega⟩ = (min, max) ∧
      (∀ j : Fin 640, (j.val : Int) ≠ g.drawindex → g'.drawbuf j = g.drawbuf j) ∧
      g'.drawindex = (g.drawindex + 1) % 640 ∧
      (g.drawindex = 639 → g'.drawindex = 0) := by
  refine ⟨_, plot_some g min max h0 h1, ?_, ?_, ?_, ?_⟩
  · simp only [Function.update_same]
  · intro j hj
    have hne : j ≠ ⟨g.drawindex.toNat, by omega⟩ := by
      intro hj'
      apply hj
      rw [hj']
      simp only
      omega
    simp only [Function.update_noteq hne]
  · dsimp only
    split <;> omega
  · intro h639
    dsimp only
    rw [if_pos (by omega)]

theorem plot_writes_cursor_slot_and_advances_witness :
    ∃ g', plot Ring.init (F32.fin 1) (F32.fin 2) = some g' ∧
      g'.drawbuf ⟨0, by omega⟩ = (F32.fin 1, F32.fin 2) ∧
      (∀ j : Fin 640, (j.val : Int) ≠ 0 → g'.drawbuf j = Ring.init.drawbuf j) ∧
      g'.drawindex = (0 + 1) % 640 ∧
      ((0 : Int) = 639 → g'.drawindex = 0) :=
  plot_writes_cursor_slot_and_advances Ring.init (F32.fin 1) (F32.fin 2)
    (by decide) (by decide)

/-- C2. From the zero-initialised statics, any sequence `l` of pushes
succeeds and leaves the buffer holding the most recent `min (n, 640)` samples
(`n = l.length`, samples numbered from 0 here, so sample `k` is the claim's
`s_(k+1)`): the cursor is `n mod 640`; slot `j` holds sample `k` for the
largest `k < n` with `k mod 640 = j`, or `(0, 0)` when there is none; each
of the last `min (n, 640)` samples is in its slot; and once `n ≥ 640` the
slot at the cursor holds the oldest retained sample, number `n - 640`. -/
theorem plotAll_init_holds_most_recent (l : List (F32 × F32)) :
    ∃ g, plotAll Ring.init l = some g ∧
      g.drawindex = ((l.length % 640 : ℕ) : Int) ∧
      (∀ j : Fin 640,
        (∀ (k : ℕ) v, l[k]? = some v → k % 640 = j.val →
          (∀ k' : ℕ, k < k' → k' < l.length → k' % 640 ≠ j.val) → g.drawbuf j = v) ∧
        ((∀ k : ℕ, k < l.length → k % 640 ≠ j.val) →
          g.drawbuf j = (F32.fin 0, F32.fin 0))) ∧
      (∀ (k : ℕ) v, l[k]? = some v → l.length ≤ k + 640 →
        g.drawbuf ⟨k % 640, Nat.mod_lt k (by decide)⟩ = v) ∧
      (∀ v, 640 ≤ l.length → l[l.length - 640]? = some v →
        g.drawbuf ⟨l.length % 640, Nat.mod_lt l.length (by decide)⟩ = v) := by
  obtain ⟨g, hg, hidx, hsl⟩ := plotAll_slots l Ring.init (by decide) (by decide)
  have hi0 : Ring.init.drawindex = 0 := rfl
  rw [hi0] at hidx hsl
  have hrecent : ∀ (k : ℕ) v, l[k]? = some v → l.length ≤ k + 640 →
      g.drawbuf ⟨k % 640, Nat.mod_lt k (by decide)⟩ = v := by
    intro k v hk hlen
    apply (hsl ⟨k % 640, Nat.mod_lt k (by decide)⟩).1 k v hk
    · simp only; omega
    · intro k' hk' hk'l
      simp only
      omega
  refine ⟨g, hg, ?_, ?_, hrecent, ?_⟩
  · rw [hidx]; omega
  · intro j
    constructor
    · intro k v hk hj hmax
      apply (hsl j).1 k v hk
      · omega
      · intro k' hk' hk'l
        have := hmax k' hk' hk'l
        omega
    · intro hno
      rw [(hsl j).2]
      · rfl
      · intro k hk
        have := hno k hk
        omega
  · intro v hlen hv
    have := hrecent (l.length - 640) v hv (by omega)
    have he : (l.length - 640) % 640 = l.length % 640 := by omega
    simp only [he] at this
    exact this

/-- C3 (counterexample). From the zero-initialised statics, 641 pushes of
`(1, 1)` and a single push of `(1, 1)` end in different states: slot `1`
holds `(1, 1)` after the former and `(0, 0)` after the latter. -/
theorem wraparound_identity_fails :
    plotAll Ring.init (List.replicate 641 (F32.fin 1, F32.fin 1)) ≠
      plotAll Ring.init (List.replicate 1 (F32.fin 1, F32.fin 1)) := by
  obtain ⟨g, hg, -, hsl⟩ :=
    plotAll_slots (List.replicate 641 (F32.fin 1, F32.fin 1)) Ring.init (by decide) (by decide)
  obtain ⟨g1, hg1, -, hsl1⟩ :=
    plotAll_slots (List.replicate 1 (F32.fin 1, F32.fin 1)) Ring.init (by decide) (by decide)
  have hi0 : Ring.init.drawindex = 0 := rfl
  rw [hi0] at hsl hsl1
  rw [hg, hg1]
  intro heq
  have heq' : g = g1 := Option.some.inj heq
  have h641 : g.drawbuf ⟨1, by decide⟩ = (F32.fin 1, F32.fin 1) := by
    apply (hsl ⟨1, by decide⟩).1 1 _ (List.getElem?_replicate_of_lt (by decide))
    · simp
    · intro k' hk' hk'l
      simp only [List.length_replicate] at hk'l
      simp only
      omega
  have h1 : g1.drawbuf ⟨1, by decide⟩ = (F32.fin 0, F32.fin 0) := by
    rw [(hsl1 ⟨1, by decide⟩).2]
    · rfl
    · intro k hk
      simp only [List.length_replicate] at hk
      simp only
      omega
  rw [heq', h1] at h641
  exact absurd h641 (by decide)

/-- C3 (amended). For a cursor in `[0, 640)` and 641 pushes `l`, both runs
succeed, the cursor after the 641st push equals the cursor after the first
push alone, and every slot holds the sample of the last push that wrote it
(push `k + 1` for the slot `(c + k) mod 640`, `1 ≤ k ≤ 640`); hence the two
states are equal exactly when the 641st sample equals the first and pushes
2..640 rewrote the values their slots already held. -/
theorem wraparound_cursor_returns (g : Ring) (l : List (F32 × F32))
    (h0 : 0 ≤ g.drawindex) (h1 : g.drawindex < 640) (hl : l.length = 641) :
    ∃ g641 g1, plotAll g l = some g641 ∧ plotAll g (l.take 1) = some g1 ∧
      g641.drawindex = g1.drawindex ∧
      (∀ (j : Fin 640) (k : ℕ), 1 ≤ k → k ≤ 640 → (g.drawindex + k) % 640 = j.val →
        l[k]? = some (g641.drawbuf j)) ∧
      (g641 = g1 ↔
        (l[640]? = l[0]? ∧
          ∀ (j : Fin 640) (k : ℕ), 1 ≤ k → k < 640 → (g.drawindex + k) % 640 = j.val →
            l[k]? = some (g.drawbuf j))) := by
  have hcn : g.drawindex.toNat < 640 := by omega
  obtain ⟨g641, hg, hidx, hsl⟩ := plotAll_slots l g h0 h1
  obtain ⟨s, rest, rfl⟩ : ∃ s rest, l = s :: rest := by
    cases l with
    | nil => simp at hl
    | cons s rest => exact ⟨s, rest, rfl⟩
  have hslots : ∀ (j : Fin 640) (k : ℕ), 1 ≤ k → k ≤ 640 → (g.drawindex + k) % 640 = j.val →
      (s :: rest)[k]? = some (g641.drawbuf j) := by
    intro j k hk1 hk2 hj
    have hlt : k < (s :: rest).length := by omega
    rw [List.getElem?_eq_getElem hlt]
    congr 1
    symm
    apply (hsl j).1 k _ (List.getElem?_eq_getElem hlt) hj
    intro k' hk' hk'l
    omega
  obtain ⟨g1, hg1, hb1, hi1⟩ : ∃ g1, plotAll g (List.take 1 (s :: rest)) = some g1 ∧
      g1.drawbuf = Function.update g.drawbuf ⟨g.drawindex.toNat, hcn⟩ (s.1, s.2) ∧
      g1.drawindex = if g.drawindex + 1 = 640 then 0 else g.drawindex + 1 := by
    refine ⟨{ drawbuf := Function.update g.drawbuf ⟨g.drawindex.toNat, hcn⟩ (s.1, s.2)
              drawindex := if g.drawindex + 1 = 640 then 0 else g.drawindex + 1 }, ?_, rfl, rfl⟩
    simp only [List.take_succ_cons, List.take_zero, plotAll, plot_some g s.1 s.2 h0 h1,
      Option.some_bind]
  have hlen : ((s :: rest).length : Int) = 641 := by rw [hl]; rfl
  have hidx' : g641.drawindex = g1.drawindex := by
    rw [hi1, hidx, hlen]
    split <;> omega
  refine ⟨g641, g1, hg, hg1, hidx', hslots, ?_⟩
  have hc := hslots ⟨g.drawindex.toNat, hcn⟩ 640 (by omega) (by omega)
    (by simp only; push_cast; omega)
  constructor
  · intro heq
    have hb : g641.drawbuf =
        Function.update g.drawbuf ⟨g.drawindex.toNat, hcn⟩ (s.1, s.2) := by
      rw [heq, hb1]
    constructor
    · rw [hc, hb]
      simp only [Function.update_same, List.getElem?_cons_zero]
    · intro j k hk1 hk2 hj
      rw [hslots j k hk1 (by omega) hj, hb]
      have hne : j ≠ ⟨g.drawindex.toNat, hcn⟩ := by
        intro hj'
        rw [hj'] at hj
        simp only at hj
        omega
      simp only [Function.update_noteq hne]
  · rintro ⟨hlast, hmid⟩
    have hbuf : g641.drawbuf = g1.drawbuf := by
      rw [hb1]
      funext j
      by_cases hj : j = ⟨g.drawindex.toNat, hcn⟩
      · rw [hj, Function.update_same]
        rw [hc] at hlast
        simp only [List.getElem?_cons_zero, Option.some.injEq] at hlast
        exact hlast
      · rw [Function.update_noteq hj]
        have hjv : (j.val : Int) ≠ g.drawindex := by
          intro hjv
          apply hj
          apply Fin.ext
          simp only
          omega
        have hk : (g.drawindex + (((j.val + 640 - g.drawindex.toNat) % 640 : ℕ) : Int)) % 640
            = j.val := by
          have := j.isLt
          omega
        have e1 := hslots j ((j.val + 640 - g.drawindex.toNat) % 640)
          (by have := j.isLt; omega) (by omega) hk
        have e2 := hmid j ((j.val + 640 - g.drawindex.toNat) % 640)
          (by have := j.isLt; omega) (by omega) hk
        rw [e1] at e2
        exact Option.some.inj e2
    cases g641 with
    | mk buf idx =>
      cases g1 with
      | mk buf1 idx1 =>
        simp only at hbuf hidx'
        rw [hbuf, hidx']

theorem wraparound_cursor_returns_witness :
    ∃ g641 g1, plotAll Ring.init (List.replicate 641 (F32.fin 1, F32.fin 1)) = some g641 ∧
      plotAll Ring.init ((List.replicate 641 (F32.fin 1, F32.fin 1)).take 1) = some g1 ∧
      g641.drawindex = g1.drawindex ∧
      (∀ (j : Fin 640) (k : ℕ), 1 ≤ k → k ≤ 640 → (Ring.init.drawindex + k) % 640 = j.val →
        (List.replicate 641 (F32.fin 1, F32.fin 1))[k]? = some (g641.drawbuf j)) ∧
      (g641 = g1 ↔
        ((List.replicate 641 (F32.fin 1, F32.fin 1))[640]? =
            (List.replicate 641 (F32.fin 1, F32.fin 1))[0]? ∧
          ∀ (j : Fin 640) (k : ℕ), 1 ≤ k → k < 640 →
            (Ring.init.drawindex + k) % 640 = j.val →
            (List.replicate 641 (F32.fin 1, F32.fin 1))[k]? = some (Ring.init.drawbuf j))) :=
  wraparound_cursor_returns Ring.init (List.replicate 641 (F32.fin 1, F32.fin 1))
    (by decide) (by decide) (List.length_replicate _ _)

/-! ## Theorems: binary32 arithmetic -/

namespace F32

theorem roundHalfEven_intCast (n : ℤ) : roundHalfEven (n : ℚ) = n := by
  unfold roundHalfEven
  rw [Int.floor_intCast, sub_self, if_pos (by norm_num)]

/-- A value `m * 2 ^ e` whose exponent is not below the unit in the last
place of its binade is left untouched by rounding. -/
theorem ulpExp_le_of_repr (m e : ℤ) (hm : |m| < 2 ^ 24) (he : -149 ≤ e) (hm0 : m ≠ 0) :
    ulpExp ((m : ℚ) * 2 ^ e) ≤ e := by
  unfold ulpExp
  apply max_le _ he
  have hpos : (0 : ℚ) < |(m : ℚ) * 2 ^ e| := by
    apply abs_pos.mpr
    apply mul_ne_zero
    · exact_mod_cast hm0
    · exact zpow_ne_zero _ (by norm_num)
  have hlt : |(m : ℚ) * 2 ^ e| < ((2 : ℕ) : ℚ) ^ (24 + e) := by
    rw [abs_mul, abs_of_pos (zpow_pos (by norm_num : (0 : ℚ) < 2) e),
      zpow_add₀ (by norm_num : ((2 : ℕ) : ℚ) ≠ 0)]
    push_cast
    apply mul_lt_mul_of_pos_right _ (zpow_pos (by norm_num) e)
    have : ((|m| : ℤ) : ℚ) < ((2 ^ 24 : ℤ) : ℚ) := by exact_mod_cast hm
    rw [Int.cast_abs] at this
    calc |(m : ℚ)| < ((2 ^ 24 : ℤ) : ℚ) := this
      _ = 2 ^ (24 : ℤ) := by norm_num
  have := (Int.lt_zpow_iff_log_lt (by norm_num : 1 < 2) hpos).mp hlt
  omega

/-- Rounding is exact on `m * 2 ^ e` with a 24-bit `m`, `e ≥ -149` and no
overflow. -/
theorem round_repr (m e : ℤ) (hm : |m| < 2 ^ 24) (he : -149 ≤ e)
    (hov : |(m : ℚ) * 2 ^ e| < 2 ^ (128 : ℕ)) :
    round ((m : ℚ) * 2 ^ e) = fin ((m : ℚ) * 2 ^ e) := by
  have key : ((roundHalfEven ((m : ℚ) * 2 ^ e / 2 ^ ulpExp ((m : ℚ) * 2 ^ e)) : ℤ) : ℚ)
      * 2 ^ ulpExp ((m : ℚ) * 2 ^ e) = (m : ℚ) * 2 ^ e := by
    by_cases hm0 : m = 0
    · subst hm0
      simp [roundHalfEven]
    · have hle := ulpExp_le_of_repr m e hm he hm0
      generalize ulpExp ((m : ℚ) * 2 ^ e) = t at hle
      have h2 : (2 : ℚ) ≠ 0 := by norm_num
      have hdiv : (m : ℚ) * 2 ^ e / 2 ^ t = ((m * 2 ^ (e - t).toNat : ℤ) : ℚ) := by
        rw [mul_div_assoc, ← zpow_sub₀ h2]
        push_cast
        rw [← zpow_natCast, Int.toNat_of_nonneg (by omega)]
      rw [hdiv, roundHalfEven_intCast]
      push_cast
      rw [← zpow_natCast, Int.toNat_of_nonneg (by omega), mul_assoc, ← zpow_add₀ h2]
      congr 2
      omega
  unfold round
  simp only [key]
  rw [if_neg (not_le.mpr hov)]

theorem round_intCast (n : ℤ) (hn : |n| < 2 ^ 24) : round (n : ℚ) = fin n := by
  have := round_repr n 0 hn (by norm_num) (by
    rw [zpow_zero, mul_one]
    have : ((|n| : ℤ) : ℚ) < ((2 ^ 24 : ℤ) : ℚ) := by exact_mod_cast hn
    rw [Int.cast_abs] at this
    calc |(n : ℚ)| < ((2 ^ 24 : ℤ) : ℚ) := this
      _ < 2 ^ (128 : ℕ) := by norm_num)
  rwa [zpow_zero, mul_one] at this

theorem toInt_intCast (n : ℤ) (h0 : -2 ^ 31 ≤ n) (h1 : n < 2 ^ 31) :
    toInt (fin (n : ℚ)) = some n := by
  unfold toInt
  simp only [Rat.num_intCast, Rat.den_intCast, Nat.cast_one, Int.tdiv_one]
  rw [if_pos ⟨h0, h1⟩]

theorem mul_fin_eq_int (p q : ℚ) (n : ℤ) (hpq : p * q = n) (hn : |n| < 2 ^ 24) :
    mul (fin p) (fin q) = fin n := by
  show round (p * q) = fin n
  rw [hpq, round_intCast n hn]

theorem div_fin_eq_int (p q : ℚ) (n : ℤ) (hq : q ≠ 0) (hpq : p / q = n) (hn : |n| < 2 ^ 24) :
    div (fin p) (fin q) = fin n := by
  show (if q = 0 then (if p = 0 then nan else inf (decide (p < 0))) else round (p / q)) = fin n
  rw [if_neg hq, hpq, round_intCast n hn]

theorem ofInt_eq (n : ℤ) (hn : |n| < 2 ^ 24) : ofInt n = fin n := round_intCast n hn

theorem abs_roundHalfEven_le (x : ℚ) : |((roundHalfEven x : ℤ) : ℚ)| ≤ |x| + 1 := by
  have h1 := Int.floor_le x
  have h2 := Int.lt_floor_add_one x
  have hcases : roundHalfEven x = ⌊x⌋ ∨ roundHalfEven x = ⌊x⌋ + 1 := by
    unfold roundHalfEven
    split
    · exact Or.inl rfl
    · split
      · exact Or.inr rfl
      · split
        · exact Or.inl rfl
        · exact Or.inr rfl
  rw [abs_le]
  rcases hcases with hc | hc <;> rw [hc] <;> push_cast <;>
    rcases abs_cases x with ⟨ha, _⟩ | ⟨ha, _⟩ <;> rw [ha] <;> constructor <;> linarith

/-- Rounding a value below `1/2` in magnitude gives a finite value below `1`
in magnitude. -/
theorem round_small (x : ℚ) (hx : |x| < 1 / 2) : ∃ y, round x = fin y ∧ |y| < 1 := by
  have ht : ulpExp x ≤ -23 := by
    unfold ulpExp
    apply max_le _ (by norm_num)
    have hlog := Int.log_of_right_le_one 2 (le_of_lt (lt_trans hx (by norm_num)) : |x| ≤ 1)
    omega
  have hpos : (0 : ℚ) < 2 ^ ulpExp x := zpow_pos (by norm_num) _
  have hle : (2 : ℚ) ^ ulpExp x ≤ 1 / 4 :=
    le_trans (zpow_le_zpow_right₀ (by norm_num) ht) (by norm_num)
  have hy : |((roundHalfEven (x / 2 ^ ulpExp x) : ℤ) : ℚ) * 2 ^ ulpExp x| < 1 := by
    rw [abs_mul, abs_of_pos hpos]
    have hb := abs_roundHalfEven_le (x / 2 ^ ulpExp x)
    rw [abs_div, abs_of_pos hpos] at hb
    calc |((roundHalfEven (x / 2 ^ ulpExp x) : ℤ) : ℚ)| * 2 ^ ulpExp x
        ≤ (|x| / 2 ^ ulpExp x + 1) * 2 ^ ulpExp x :=
          mul_le_mul_of_nonneg_right hb (le_of_lt hpos)
      _ = |x| + 2 ^ ulpExp x := by field_simp
      _ < 1 := by linarith
  refine ⟨_, ?_, hy⟩
  unfold round
  simp only
  rw [if_neg (not_le.mpr (lt_trans hy (by norm_num)))]

/-- The product `-v * 0.25f` of a finite binary32 value `v`: a finite value
that is below `-1` exactly when `v > 4` and above `1` exactly when `v < -4`. -/
theorem neg_mul_quarter (q : ℚ) (hq : IsFinite32 q) :
    ∃ y, mul (neg (fin q)) (fin (1 / 4)) = fin y ∧ (y < -1 ↔ 4 < q) ∧ (1 < y ↔ q < -4) := by
  obtain ⟨m, e, hm, he0, he1, rfl⟩ := hq
  show ∃ y, round (-((m : ℚ) * 2 ^ e) * (1 / 4)) = fin y ∧ _
  have h2 : (2 : ℚ) ≠ 0 := by norm_num
  have hmq : |(m : ℚ)| < 2 ^ (24 : ℤ) := by
    have : ((|m| : ℤ) : ℚ) < ((2 ^ 24 : ℤ) : ℚ) := by exact_mod_cast hm
    rw [Int.cast_abs] at this
    calc |(m : ℚ)| < ((2 ^ 24 : ℤ) : ℚ) := this
      _ = 2 ^ (24 : ℤ) := by norm_num
  by_cases he : -147 ≤ e
  · have hx : -((m : ℚ) * 2 ^ e) * (1 / 4) = ((-m : ℤ) : ℚ) * 2 ^ (e - 2) := by
      rw [zpow_sub₀ h2]
      push_cast
      norm_num
      ring
    have hov : |((-m : ℤ) : ℚ) * 2 ^ (e - 2)| < 2 ^ (128 : ℕ) := by
      rw [abs_mul, abs_of_pos (zpow_pos (by norm_num : (0 : ℚ) < 2) (e - 2))]
      push_cast
      rw [abs_neg]
      have hz : (2 : ℚ) ^ (e - 2) ≤ 2 ^ (102 : ℤ) :=
        zpow_le_zpow_right₀ (by norm_num) (by omega)
      calc |(m : ℚ)| * 2 ^ (e - 2) ≤ 2 ^ (24 : ℤ) * 2 ^ (102 : ℤ) :=
            mul_le_mul (le_of_lt hmq) hz (le_of_lt (zpow_pos (by norm_num) _)) (by norm_num)
        _ < 2 ^ (128 : ℕ) := by norm_num
    refine ⟨_, by rw [hx]; exact round_repr (-m) (e - 2) (by rwa [abs_neg]) (by omega) hov, ?_, ?_⟩
    · rw [← hx]
      constructor <;> intro hh <;> linarith
    · rw [← hx]
      constructor <;> intro hh <;> linarith
  · have hz : (2 : ℚ) ^ e ≤ 2 ^ (-148 : ℤ) := zpow_le_zpow_right₀ (by norm_num) (by omega)
    have hsmall : |(m : ℚ) * 2 ^ e| < 1 / 2 := by
      rw [abs_mul, abs_of_pos (zpow_pos (by norm_num : (0 : ℚ) < 2) e)]
      calc |(m : ℚ)| * 2 ^ e ≤ 2 ^ (24 : ℤ) * 2 ^ (-148 : ℤ) :=
            mul_le_mul (le_of_lt hmq) hz (le_of_lt (zpow_pos (by norm_num) _)) (by norm_num)
        _ < 1 / 2 := by norm_num
    have hx : |-((m : ℚ) * 2 ^ e) * (1 / 4)| < 1 / 2 := by
      rw [abs_mul, abs_neg, abs_of_pos (by norm_num : (0 : ℚ) < 1 / 4)]
      linarith [abs_nonneg ((m : ℚ) * 2 ^ e)]
    obtain ⟨y, hy, hy1⟩ := round_small _ hx
    rw [abs_lt] at hy1 hsmall
    refine ⟨y, hy, ?_, ?_⟩
    · constructor <;> intro hh <;> linarith
    · constructor <;> intro hh <;> linarith

/-- The clamp flag `y0limit` for a slot whose `max` is any binary32 value:
`-max * 0.25f < -1.0f` holds exactly when `max > 4`. -/
theorem y0limit_iff (v : F32) (hv : IsBinary32 v) :
    lt (mul (neg v) (fin (1 / 4))) (fin (-1)) = true ↔ lt (fin 4) v = true := by
  cases v with
  | nan => simp [neg, mul, lt]
  | inf b => cases b <;> simp [neg, mul, lt]
  | fin q =>
    obtain ⟨y, hy, h0, -⟩ := neg_mul_quarter q hv
    rw [hy]
    simp only [lt, decide_eq_true_eq]
    exact h0

/-- The clamp flag `y1limit` for a slot whose `min` is any binary32 value:
`-min * 0.25f > 1.0f` holds exactly when `min < -4`. -/
theorem y1limit_iff (v : F32) (hv : IsBinary32 v) :
    lt (fin 1) (mul (neg v) (fin (1 / 4))) = true ↔ lt v (fin (-4)) = true := by
  cases v with
  | nan => simp [neg, mul, lt]
  | inf b => cases b <;> simp [neg, mul, lt]
  | fin q =>
    obtain ⟨y, hy, -, h1⟩ := neg_mul_quarter q hv
    rw [hy]
    simp only [lt, decide_eq_true_eq]
    exact h1

end F32

theorem rowOf_intCast (n : ℤ) (h0 : -2 ^ 31 ≤ n) (h1 : n < 2 ^ 31 - 430) :
    rowOf (F32.fin (n : ℚ)) = some (430 + n) := by
  unfold rowOf
  rw [F32.toInt_intCast n h0 (by omega)]
  simp only [Option.some_bind, cy, h]
  rw [if_pos (by omega)]
  rfl

/-- The span of an all-zero slot: a flat line on the axis, no clamp. -/
theorem columnSpan_zero :
    columnSpan (F32.fin 0, F32.fin 0) =
      some { y0limit := false, y1limit := false, y0 := 430, y1 := 430 } := by
  have e1 : F32.mul (F32.neg (F32.fin 0)) (F32.fin (1 / 4)) = F32.fin ((0 : ℤ) : ℚ) :=
    F32.mul_fin_eq_int _ _ 0 (by norm_num) (by norm_num)
  have e2 : F32.mul (F32.fin ((0 : ℤ) : ℚ)) (F32.fin ((80 : ℤ) : ℚ)) = F32.fin ((0 : ℤ) : ℚ) :=
    F32.mul_fin_eq_int _ _ 0 (by norm_num) (by norm_num)
  have e3 : F32.div (F32.fin ((0 : ℤ) : ℚ)) (F32.fin ((2 : ℤ) : ℚ)) = F32.fin ((0 : ℤ) : ℚ) :=
    F32.div_fin_eq_int _ _ 0 (by norm_num) (by norm_num) (by norm_num)
  have l0 : F32.lt (F32.fin ((0 : ℤ) : ℚ)) (F32.fin (-1)) = false := by
    norm_num [F32.lt]
  have l1 : F32.lt (F32.fin 1) (F32.fin ((0 : ℤ) : ℚ)) = false := by
    norm_num [F32.lt]
  unfold columnSpan
  simp only [e1, l0, l1, h, F32.ofInt_eq 80 (by norm_num), F32.ofInt_eq 2 (by norm_num), e2, e3,
    rowOf_intCast 0 (by norm_num) (by norm_num), Bool.false_eq_true, if_false, Option.some_bind,
    Option.map_some', add_zero]

/-- The span of the slot `(-8, -8)`: the lower bound is clamped, the upper
bound is not and lands on row 510. -/
theorem columnSpan_neg_eight :
    columnSpan (F32.fin (-8), F32.fin (-8)) =
      some { y0limit := false, y1limit := true, y0 := 510, y1 := 470 } := by
  have e1 : F32.mul (F32.neg (F32.fin (-8))) (F32.fin (1 / 4)) = F32.fin ((2 : ℤ) : ℚ) :=
    F32.mul_fin_eq_int _ _ 2 (by norm_num) (by norm_num)
  have e2 : F32.mul (F32.fin ((2 : ℤ) : ℚ)) (F32.fin ((80 : ℤ) : ℚ)) = F32.fin ((160 : ℤ) : ℚ) :=
    F32.mul_fin_eq_int _ _ 160 (by norm_num) (by norm_num)
  have e3 : F32.div (F32.fin ((160 : ℤ) : ℚ)) (F32.fin ((2 : ℤ) : ℚ)) = F32.fin ((80 : ℤ) : ℚ) :=
    F32.div_fin_eq_int _ _ 80 (by norm_num) (by norm_num) (by norm_num)
  have e4 : F32.mul (F32.fin 1) (F32.fin ((80 : ℤ) : ℚ)) = F32.fin ((80 : ℤ) : ℚ) :=
    F32.mul_fin_eq_int _ _ 80 (by norm_num) (by norm_num)
  have e5 : F32.div (F32.fin ((80 : ℤ) : ℚ)) (F32.fin ((2 : ℤ) : ℚ)) = F32.fin ((40 : ℤ) : ℚ) :=
    F32.div_fin_eq_int _ _ 40 (by norm_num) (by norm_num) (by norm_num)
  have l0 : F32.lt (F32.fin ((2 : ℤ) : ℚ)) (F32.fin (-1)) = false := by
    norm_num [F32.lt]
  have l1 : F32.lt (F32.fin 1) (F32.fin ((2 : ℤ) : ℚ)) = true := by
    norm_num [F32.lt]
  unfold columnSpan
  simp only [e1, l0, l1, h, F32.ofInt_eq 80 (by norm_num), F32.ofInt_eq 2 (by norm_num), e2, e3,
    e4, e5, rowOf_intCast 80 (by norm_num) (by norm_num),
    rowOf_intCast 40 (by norm_num) (by norm_num), Bool.false_eq_true, if_false, if_true,
    Option.some_bind, Option.map_some']
  norm_num

/-! ## Theorems: the waveform pass -/

theorem cy_eq : cy = 430 := by decide

theorem half_h_eq : h / 2 = 40 := by decide

/-- Two element indices `r * pitch + k` with `0 ≤ k < pitch` agree only when
row and column agree. -/
theorem index_eq_iff (pitch r r' k x : Int) (hk0 : 0 ≤ k) (hk : k < pitch)
    (hx0 : 0 ≤ x) (hx : x < pitch) :
    r * pitch + k = r' * pitch + x ↔ r = r' ∧ k = x := by
  constructor
  · intro heq
    have hrr : r = r' := by
      rcases lt_trichotomy r r' with hlt | heq' | hgt
      · exfalso
        have h1 : (r' - r) * pitch ≥ 1 * pitch :=
          mul_le_mul_of_nonneg_right (by omega) (by omega)
        nlinarith
      · exact heq'
      · exfalso
        have h1 : (r - r') * pitch ≥ 1 * pitch :=
          mul_le_mul_of_nonneg_right (by omega) (by omega)
        nlinarith
    subst hrr
    exact ⟨rfl, by omega⟩
  · rintro ⟨rfl, rfl⟩
    rfl

theorem fillFrom_apply (pitch x : Int) (v : Nat) (r k : Int) (hk0 : 0 ≤ k) (hk : k < pitch)
    (hx0 : 0 ≤ x) (hx : x < pitch) :
    ∀ (n : Nat) (y : Int) (pixels : Int → Nat),
      fillFrom pitch x v n y pixels (r * pitch + k) =
        if k = x ∧ y ≤ r ∧ r < y + n then v else pixels (r * pitch + k) := by
  intro n
  induction n with
  | zero =>
    intro y pixels
    rw [if_neg (by push_cast; omega)]
    rfl
  | succ n ih =>
    intro y pixels
    show fillFrom pitch x v n (y + 1) (Function.update pixels (y * pitch + x) v) (r * pitch + k) = _
    rw [ih]
    by_cases hc : k = x ∧ y + 1 ≤ r ∧ r < y + 1 + n
    · rw [if_pos hc, if_pos (by push_cast; omega)]
    · rw [if_neg hc]
      by_cases he : r * pitch + k = y * pitch + x
      · rw [he, Function.update_same]
        have := (index_eq_iff pitch r y k x hk0 hk hx0 hx).mp he
        rw [if_pos (by push_cast; omega)]
      · rw [Function.update_noteq he]
        have hne : ¬ (r = y ∧ k = x) := fun hh =>
          he ((index_eq_iff pitch r y k x hk0 hk hx0 hx).mpr hh)
        rw [if_neg (by push_cast; omega)]

theorem fillRows_apply (pitch x : Int) (v : Nat) (lo hi : Int) (pixels : Int → Nat)
    (r k : Int) (hk0 : 0 ≤ k) (hk : k < pitch) (hx0 : 0 ≤ x) (hx : x < pitch) :
    fillRows pitch x v lo hi pixels (r * pitch + k) =
      if k = x ∧ lo ≤ r ∧ r < hi then v else pixels (r * pitch + k) := by
  unfold fillRows
  rw [fillFrom_apply pitch x v r k hk0 hk hx0 hx]
  by_cases hc : k = x ∧ lo ≤ r ∧ r < hi
  · rw [if_pos hc, if_pos (by omega)]
  · rw [if_neg hc, if_neg (by omega)]

theorem update_index_apply (pitch x : Int) (v : Nat) (y : Int) (pixels : Int → Nat)
    (r k : Int) (hk0 : 0 ≤ k) (hk : k < pitch) (hx0 : 0 ≤ x) (hx : x < pitch) :
    Function.update pixels (y * pitch + x) v (r * pitch + k) =
      if k = x ∧ r = y then v else pixels (r * pitch + k) := by
  by_cases he : r * pitch + k = y * pitch + x
  · have := (index_eq_iff pitch r y k x hk0 hk hx0 hx).mp he
    rw [he, Function.update_same, if_pos ⟨this.2, this.1⟩]
  · rw [Function.update_noteq he]
    have hne : ¬ (r = y ∧ k = x) := fun hh =>
      he ((index_eq_iff pitch r y k x hk0 hk hx0 hx).mpr hh)
    rw [if_neg (fun hh => hne ⟨hh.2, hh.1⟩)]

/-- What `paintColumn` leaves at row `r`, column `k`: `paintedRow` in the
painted column `x`, the old value in every other column. -/
theorem paintColumn_apply (pitch x : Int) (sp : Span) (pixels : Int → Nat)
    (r k : Int) (hk0 : 0 ≤ k) (hk : k < pitch) (hx0 : 0 ≤ x) (hx : x < pitch) :
    paintColumn pitch x sp pixels (r * pitch + k) =
      if k = x then paintedRow sp r (pixels (r * pitch + k)) else pixels (r * pitch + k) := by
  simp only [paintColumn, paintedRow, cy_eq, half_h_eq]
  rw [update_index_apply pitch x _ _ _ r k hk0 hk hx0 hx]
  by_cases hkx : k = x
  · simp only [hkx, true_and, if_true]
    by_cases h430 : r = 430
    · simp only [h430, if_true]
    · simp only [h430, if_false]
      cases h1 : sp.y1limit <;> cases h0 : sp.y0limit <;>
        simp only [Bool.false_eq_true, if_false, if_true, false_and, true_and] <;>
        (try rw [update_index_apply pitch x _ _ _ r x hx0 hx hx0 hx]) <;>
        (try rw [update_index_apply pitch x _ _ _ r x hx0 hx hx0 hx]) <;>
        simp only [fillRows_apply pitch x _ _ _ _ r x hx0 hx hx0 hx, true_and]
  · simp only [hkx, false_and, if_false]
    cases h1 : sp.y1limit <;> cases h0 : sp.y0limit <;>
      simp only [Bool.false_eq_true, if_false, if_true] <;>
      (try rw [update_index_apply pitch x _ _ _ r k hk0 hk hx0 hx]) <;>
      (try rw [update_index_apply pitch x _ _ _ r k hk0 hk hx0 hx]) <;>
      simp only [fillRows_apply pitch x _ _ _ _ r k hk0 hk hx0 hx, hkx, false_and, if_false]

theorem columnOf_eq (c i : Int) (hc : c ≤ 640) (hi : 0 ≤ i) :
    columnOf c i = (i - c + 640) % 640 := by
  unfold columnOf
  exact Int.tmod_eq_emod (by omega) (by norm_num)

theorem columnOf_range (c i : Int) (hc : c ≤ 640) (hi : 0 ≤ i) :
    0 ≤ columnOf c i ∧ columnOf c i < 640 := by
  rw [columnOf_eq c i hc hi]
  omega

theorem columnOf_injOn (c i j : Int) (_hc0 : 0 ≤ c) (hc : c ≤ 640) (hi0 : 0 ≤ i) (hi : i < 640)
    (hj0 : 0 ≤ j) (hj : j < 640) (heq : columnOf c i = columnOf c j) : i = j := by
  rw [columnOf_eq c i hc hi0, columnOf_eq c j hc hj0] at heq
  omega

/-- A pixel of a column that none of the listed slots maps to is left alone. -/
theorem waveLoop_other_column (pitch : Int) (g : Ring) (hc : g.drawindex ≤ 640)
    (hp : 640 ≤ pitch) (r k : Int) (hk0 : 0 ≤ k) (hk : k < pitch) :
    ∀ (l : List (Fin 640)) (pixels pixels' : Int → Nat),
      waveLoop pitch g l pixels = some pixels' →
      (∀ i ∈ l, columnOf g.drawindex i.val ≠ k) →
      pixels' (r * pitch + k) = pixels (r * pitch + k) := by
  intro l
  induction l with
  | nil =>
    intro pixels pixels' hw _
    simp only [waveLoop, Option.some.injEq] at hw
    rw [← hw]
  | cons i rest ih =>
    intro pixels pixels' hw hne
    simp only [waveLoop, drawColumn] at hw
    cases hsp : columnSpan (g.drawbuf i) with
    | none => simp [hsp] at hw
    | some sp =>
      simp only [hsp, Option.map_some', Option.some_bind] at hw
      rw [ih _ _ hw (fun j hj => hne j (List.mem_cons_of_mem _ hj))]
      have hr := columnOf_range g.drawindex i.val hc (by omega)
      rw [paintColumn_apply pitch _ sp pixels r k hk0 hk hr.1 (by omega),
        if_neg (fun hh => hne i (List.mem_cons_self _ _) hh.symm)]

/-- A pixel of the column that a listed slot maps to holds what the stores
for that slot leave there (`paintedRow`), when no two listed slots share a
column. -/
theorem waveLoop_own_column (pitch : Int) (g : Ring) (hc0 : 0 ≤ g.drawindex)
    (hc : g.drawindex ≤ 640) (hp : 640 ≤ pitch) (r : Int) :
    ∀ (l : List (Fin 640)) (pixels pixels' : Int → Nat),
      waveLoop pitch g l pixels = some pixels' → l.Nodup →
      ∀ i ∈ l, ∃ sp, columnSpan (g.drawbuf i) = some sp ∧
        pixels' (r * pitch + columnOf g.drawindex i.val) =
          paintedRow sp r (pixels (r * pitch + columnOf g.drawindex i.val)) := by
  intro l
  induction l with
  | nil =>
    intro pixels pixels' _ _ i hi
    simp at hi
  | cons i0 rest ih =>
    intro pixels pixels' hw hnd i hi
    simp only [waveLoop, drawColumn] at hw
    cases hsp : columnSpan (g.drawbuf i0) with
    | none => simp [hsp] at hw
    | some sp0 =>
      simp only [hsp, Option.map_some', Option.some_bind] at hw
      have hr0 := columnOf_range g.drawindex i0.val hc (by omega)
      have hr := columnOf_range g.drawindex i.val hc (by omega)
      rw [List.nodup_cons] at hnd
      rcases List.mem_cons.mp hi with rfl | hmem
      · refine ⟨sp0, hsp, ?_⟩
        rw [waveLoop_other_column pitch g hc hp r _ hr.1 (by omega) rest _ _ hw]
        · rw [paintColumn_apply pitch _ sp0 pixels r _ hr.1 (by omega) hr.1 (by omega),
            if_pos rfl]
        · intro j hj heq
          have := columnOf_injOn g.drawindex j.val i.val hc0 hc (by omega)
            (by have := j.isLt; omega) (by omega) (by have := i.isLt; omega) heq
          have hji : j = i := Fin.ext (by omega)
          rw [hji] at hj
          exact hnd.1 hj
      · obtain ⟨sp, hspi, hpx⟩ := ih _ _ hw hnd.2 i hmem
        refine ⟨sp, hspi, ?_⟩
        rw [hpx, paintColumn_apply pitch _ sp0 pixels r _ hr.1 (by omega) hr0.1 (by omega)]
        have hne : columnOf g.drawindex i.val ≠ columnOf g.drawindex i0.val := by
          intro heq
          have := columnOf_injOn g.drawindex i.val i0.val hc0 hc (by omega)
            (by have := i.isLt; omega) (by omega) (by have := i0.isLt; omega) heq
          have hji : i = i0 := Fin.ext (by omega)
          rw [hji] at hmem
          exact hnd.1 hmem
        rw [if_neg hne]

/-- The loop succeeds exactly when every listed slot has a defined span; the
pixel memory plays no part in that. -/
theorem waveLoop_isSome_iff (pitch : Int) (g : Ring) :
    ∀ (l : List (Fin 640)) (pixels : Int → Nat),
      (∃ pixels', waveLoop pitch g l pixels = some pixels') ↔
        ∀ i ∈ l, ∃ sp, columnSpan (g.drawbuf i) = some sp := by
  intro l
  induction l with
  | nil =>
    intro pixels
    simp [waveLoop]
  | cons i rest ih =>
    intro pixels
    simp only [waveLoop, drawColumn]
    cases hsp : columnSpan (g.drawbuf i) with
    | none =>
      simp only [Option.map_none', Option.none_bind, List.mem_cons, forall_eq_or_imp, hsp]
      simp
    | some sp =>
      simp only [Option.map_some', Option.some_bind, List.mem_cons, forall_eq_or_imp, hsp]
      rw [ih]
      simp

/-- The waveform pass, pixel by pixel, for an in-range cursor `c` and a row
of at least 640 pixels: column `k < 640` shows slot `(c + k) mod 640`. -/
theorem wavePass_apply (pitch : Int) (g : Ring) (pixels pixels' : Int → Nat)
    (hc0 : 0 ≤ g.drawindex) (hc : g.drawindex < 640) (hp : 640 ≤ pitch)
    (hw : wavePass pitch g pixels = some pixels') (k : Nat) (hk : k < 640) (r : Int) :
    ∃ sp, columnSpan (g.drawbuf ⟨(g.drawindex.toNat + k) % 640, Nat.mod_lt _ (by decide)⟩) =
        some sp ∧
      pixels' (r * pitch + k) = paintedRow sp r (pixels (r * pitch + k)) := by
  obtain ⟨sp, hsp, hpx⟩ := waveLoop_own_column pitch g hc0 (by omega) hp r _ _ _ hw
    (List.nodup_finRange 640) ⟨(g.drawindex.toNat + k) % 640, Nat.mod_lt _ (by decide)⟩
    (List.mem_finRange _)
  have hcol : columnOf g.drawindex (((g.drawindex.toNat + k) % 640 : ℕ) : Int) = k := by
    rw [columnOf_eq _ _ (by omega) (by omega)]
    omega
  simp only [hcol] at hpx
  exact ⟨sp, hsp, hpx⟩

/-- C4. For a cursor `c` in `[0, 640)` the column mapping
`i ↦ (i - c + 640) % 640` of `draw` is a bijection of `[0, 640)` onto itself:
every column is the image of exactly one slot. -/
theorem columnOf_bijective_on_slots (c : Int) (h0 : 0 ≤ c) (h1 : c < 640) :
    Set.BijOn (columnOf c) (Set.Ico 0 640) (Set.Ico 0 640) ∧
      ∀ x : Int, 0 ≤ x → x < 640 → ∃! i : Int, (0 ≤ i ∧ i < 640) ∧ columnOf c i = x := by
  have hsurj : ∀ x : Int, 0 ≤ x → x < 640 →
      (0 ≤ (x + c) % 640 ∧ (x + c) % 640 < 640) ∧ columnOf c ((x + c) % 640) = x := by
    intro x hx0 hx
    refine ⟨by omega, ?_⟩
    rw [columnOf_eq c _ (by omega) (by omega)]
    omega
  refine ⟨⟨?_, ?_, ?_⟩, ?_⟩
  · intro i hi
    have := columnOf_range c i (by omega) hi.1
    exact ⟨this.1, this.2⟩
  · intro i hi j hj heq
    exact columnOf_injOn c i j h0 (by omega) hi.1 hi.2 hj.1 hj.2 heq
  · intro x hx
    exact ⟨(x + c) % 640, ⟨(hsurj x hx.1 hx.2).1.1, (hsurj x hx.1 hx.2).1.2⟩,
      (hsurj x hx.1 hx.2).2⟩
  · intro x hx0 hx
    refine ⟨(x + c) % 640, hsurj x hx0 hx, ?_⟩
    rintro j ⟨⟨hj0, hj⟩, hjx⟩
    apply columnOf_injOn c j _ h0 (by omega) hj0 hj (hsurj x hx0 hx).1.1 (hsurj x hx0 hx).1.2
    rw [hjx, (hsurj x hx0 hx).2]

theorem columnOf_bijective_on_slots_witness :
    Set.BijOn (columnOf 17) (Set.Ico 0 640) (Set.Ico 0 640) ∧
      ∀ x : Int, 0 ≤ x → x < 640 → ∃! i : Int, (0 ≤ i ∧ i < 640) ∧ columnOf 17 i = x :=
  columnOf_bijective_on_slots 17 (by decide) (by decide)

/-- C5. The waveform is displayed in time order.  For a cursor `c` in
`[0, 640)`: the slot `(c + k) mod 640` maps to column `k`, the slot written
by the most recent `plot`, `(c - 1 + 640) mod 640`, to column 639, and the
slot at the cursor to column 0; and on a surface with rows of at least 640
pixels every pixel of column `k` holds, after the waveform pass, what the
stores for slot `(c + k) mod 640` leave there. -/
theorem waveform_in_time_order (pitch : Int) (g : Ring) (pixels : Int → Nat)
    (hc0 : 0 ≤ g.drawindex) (hc : g.drawindex < 640) (hp : 640 ≤ pitch) :
    (∀ k : Int, 0 ≤ k → k < 640 → columnOf g.drawindex ((g.drawindex + k) % 640) = k) ∧
      columnOf g.drawindex ((g.drawindex - 1 + 640) % 640) = 639 ∧
      columnOf g.drawindex g.drawindex = 0 ∧
      ∀ pixels', wavePass pitch g pixels = some pixels' →
        ∀ (k : Nat) (r : Int), k < 640 →
          ∃ sp,
            columnSpan (g.drawbuf ⟨(g.drawindex.toNat + k) % 640, Nat.mod_lt _ (by decide)⟩)
              = some sp ∧
            pixels' (r * pitch + k) = paintedRow sp r (pixels (r * pitch + k)) := by
  refine ⟨?_, ?_, ?_, ?_⟩
  · intro k hk0 hk
    rw [columnOf_eq _ _ (by omega) (by omega)]
    omega
  · rw [columnOf_eq _ _ (by omega) (by omega)]
    omega
  · rw [columnOf_eq _ _ (by omega) (by omega)]
    omega
  · intro pixels' hw k r hk
    exact wavePass_apply pitch g pixels pixels' hc0 hc hp hw k hk r

/-- The waveform pass succeeds on the zero-initialised ring buffer. -/
theorem wavePass_init (pitch : Int) (pixels : Int → Nat) :
    ∃ pixels', wavePass pitch Ring.init pixels = some pixels' := by
  apply (waveLoop_isSome_iff pitch Ring.init _ pixels).mpr
  intro i _
  exact ⟨_, columnSpan_zero⟩

theorem plot_init (min max : F32) :
    plot Ring.init min max = some
      { drawbuf := Function.update Ring.init.drawbuf ⟨0, by omega⟩ (min, max)
        drawindex := 1 } := by
  rw [plot_some Ring.init min max (by decide) (by decide)]
  rfl

theorem draw_nil (g : Ring) (screen : Surface) :
    draw g screen [] =
      (wavePass (screen.pitch >>> 2) g screen.pixels).map fun pixels =>
        { screen with pixels := pixels } := by
  simp only [draw, textPass, textLoop, Option.map_some']
  cases hw : wavePass (screen.pitch >>> 2) g screen.pixels with
  | none => simp only [Option.none_bind, Option.map_none']
  | some pixels => simp only [Option.some_bind, Option.map_some']

/-- The statics after `plot(-8, -8)` on the zero-initialised state. -/
theorem ring_neg_eight_slot (i : Fin 640) :
    Function.update Ring.init.drawbuf ⟨0, by omega⟩ (F32.fin (-8), F32.fin (-8)) i =
      if i = ⟨0, by omega⟩ then (F32.fin (-8), F32.fin (-8)) else (F32.fin 0, F32.fin 0) := by
  by_cases hi : i = ⟨0, by omega⟩
  · rw [hi, Function.update_same, if_pos rfl]
  · rw [Function.update_noteq hi, if_neg hi]
    rfl

/-- The waveform pass succeeds on the statics left by `plot(-8, -8)`. -/
theorem wavePass_ring_neg_eight (pitch : Int) (pixels : Int → Nat) :
    ∃ pixels', wavePass pitch
      { drawbuf := Function.update Ring.init.drawbuf ⟨0, by omega⟩ (F32.fin (-8), F32.fin (-8))
        drawindex := 1 } pixels = some pixels' := by
  apply (waveLoop_isSome_iff pitch _ _ _).mpr
  intro i _
  simp only [ring_neg_eight_slot]
  by_cases hi : i = ⟨0, by omega⟩
  · rw [if_pos hi]
    exact ⟨_, columnSpan_neg_eight⟩
  · rw [if_neg hi]
    exact ⟨_, columnSpan_zero⟩

/-- C6 (the failing input). After `plot(-8, -8)` on the zero-initialised
statics, `draw` with the empty string on a zeroed surface of 640 x 490
pixels (pitch 2560 bytes) succeeds and has stored the background tone at row
509 of column 639: below the strip `[390, 470]`, and at element 326399 of a
surface that has 313600 elements. -/
theorem draw_stores_below_the_strip :
    ∃ g screen, plot Ring.init (F32.fin (-8)) (F32.fin (-8)) = some g ∧
      draw g { pitch := 2560, pixels := fun _ => 0 } [] = some screen ∧
      screen.pixels (509 * 640 + 639) = 0x18181818 ∧
      (490 : Int) * 640 ≤ 509 * 640 + 639 := by
  obtain ⟨pixels', hw⟩ := wavePass_ring_neg_eight 640 (fun _ => 0)
  obtain ⟨sp, hsp, hpx⟩ := wavePass_apply 640 _ _ _ (by decide) (by decide) (by decide) hw
    639 (by decide) 509
  dsimp only at hsp
  rw [ring_neg_eight_slot, if_pos (Fin.ext (by rfl)), columnSpan_neg_eight] at hsp
  have hsp' := Option.some.inj hsp
  refine ⟨_, { pitch := 2560, pixels := pixels' }, plot_init _ _, ?_, ?_, by decide⟩
  · rw [draw_nil]
    have hpitch : (2560 : Int) >>> 2 = 640 := by decide
    simp only [hpitch, hw, Option.map_some']
  · show pixels' (509 * 640 + ((639 : ℕ) : Int)) = 0x18181818
    rw [hpx, ← hsp']
    decide

/-- The flags of a defined span are the two comparisons of lines 40-41. -/
theorem columnSpan_flags (slot : F32 × F32) (sp : Span) (hsp : columnSpan slot = some sp) :
    sp.y0limit = F32.lt (F32.mul (F32.neg slot.2) (F32.fin (1 / 4))) (F32.fin (-1)) ∧
      sp.y1limit = F32.lt (F32.fin 1) (F32.mul (F32.neg slot.1) (F32.fin (1 / 4))) := by
  simp only [columnSpan, Option.bind_eq_some, Option.map_eq_some'] at hsp
  obtain ⟨y0, -, y1, -, rfl⟩ := hsp
  exact ⟨rfl, rfl⟩

theorem paintedRow_top (sp : Span) (old : Nat) :
    paintedRow sp 390 old = 0xFFFF0000 ↔ sp.y0limit = true := by
  simp only [paintedRow, cy_eq, half_h_eq]
  cases sp.y0limit <;> cases sp.y1limit <;>
    simp only [Bool.false_eq_true, false_and, true_and, if_false] <;>
    norm_num <;> split_ifs <;> omega

theorem paintedRow_bottom (sp : Span) (old : Nat) :
    paintedRow sp 470 old = 0xFFFF0000 ↔ sp.y1limit = true := by
  simp only [paintedRow, cy_eq, half_h_eq]
  cases sp.y0limit <;> cases sp.y1limit <;>
    simp only [Bool.false_eq_true, false_and, true_and, if_false] <;>
    norm_num <;> split_ifs <;> omega

/-- C8. After the waveform pass (cursor in `[0, 640)`, rows of at least 640
pixels), for every column `k` whose sample `(min, max)` consists of binary32
values: the pixel at row 390 is the clamp mark `0xFFFF0000` if and only if
`max > 4`, and the pixel at row 470 is `0xFFFF0000` if and only if
`min < -4` (both comparisons as the `float` comparison, so that infinities
are covered and a NaN compares false). -/
theorem clamp_marks_iff_out_of_range (pitch : Int) (g : Ring) (pixels pixels' : Int → Nat)
    (hc0 : 0 ≤ g.drawindex) (hc : g.drawindex < 640) (hp : 640 ≤ pitch)
    (hw : wavePass pitch g pixels = some pixels') (k : Nat) (hk : k < 640)
    (hmin : F32.IsBinary32
      (g.drawbuf ⟨(g.drawindex.toNat + k) % 640, Nat.mod_lt _ (by decide)⟩).1)
    (hmax : F32.IsBinary32
      (g.drawbuf ⟨(g.drawindex.toNat + k) % 640, Nat.mod_lt _ (by decide)⟩).2) :
    (pixels' (390 * pitch + k) = 0xFFFF0000 ↔
        F32.lt (F32.fin 4)
          (g.drawbuf ⟨(g.drawindex.toNat + k) % 640, Nat.mod_lt _ (by decide)⟩).2 = true) ∧
      (pixels' (470 * pitch + k) = 0xFFFF0000 ↔
        F32.lt (g.drawbuf ⟨(g.drawindex.toNat + k) % 640, Nat.mod_lt _ (by decide)⟩).1
          (F32.fin (-4)) = true) := by
  obtain ⟨sp, hsp, htop⟩ := wavePass_apply pitch g pixels pixels' hc0 hc hp hw k hk 390
  obtain ⟨sp', hsp', hbot⟩ := wavePass_apply pitch g pixels pixels' hc0 hc hp hw k hk 470
  rw [hsp] at hsp'
  obtain rfl := Option.some.inj hsp'
  obtain ⟨hf0, hf1⟩ := columnSpan_flags _ sp hsp
  constructor
  · rw [htop, paintedRow_top, hf0]
    exact F32.y0limit_iff _ hmax
  · rw [hbot, paintedRow_bottom, hf1]
    exact F32.y1limit_iff _ hmin

theorem isBinary32_neg_eight : F32.IsBinary32 (F32.fin (-8)) :=
  ⟨-8, 0, by norm_num, by norm_num, by norm_num, by norm_num⟩

theorem clamp_marks_iff_out_of_range_witness :
    ∃ pixels', wavePass 640
        { drawbuf := Function.update Ring.init.drawbuf ⟨0, by omega⟩
            (F32.fin (-8), F32.fin (-8))
          drawindex := 1 } (fun _ => 0) = some pixels' ∧
      ((pixels' (390 * 640 + (639 : ℕ)) = 0xFFFF0000 ↔
          F32.lt (F32.fin 4) (F32.fin (-8)) = true) ∧
        (pixels' (470 * 640 + (639 : ℕ)) = 0xFFFF0000 ↔
          F32.lt (F32.fin (-8)) (F32.fin (-4)) = true)) := by
  obtain ⟨pixels', hw⟩ := wavePass_ring_neg_eight 640 (fun _ => 0)
  exact ⟨pixels', hw,
    clamp_marks_iff_out_of_range 640 _ (fun _ => 0) pixels' (by decide) (by decide)
      (by decide) hw 639 (by decide) isBinary32_neg_eight isBinary32_neg_eight⟩

theorem paintedRow_flat (r : Int) (old : Nat) (h0 : 390 ≤ r) (h1 : r ≤ 470) :
    paintedRow { y0limit := false, y1limit := false, y0 := 430, y1 := 430 } r old =
      if r = 430 then 0x66666666 else 0x18181818 := by
  simp only [paintedRow, cy_eq, half_h_eq, Bool.false_eq_true, false_and, if_false]
  split_ifs <;> first | rfl | omega

/-- C9. A column whose sample is `(0, 0)`: `draw` computes `y0 = y1 = 430`
with neither clamp flag set, and after the waveform pass row 430 of the
column is `0x66666666` and every other row in `[390, 470]` is the background
`0x18181818`, so no `0xFFFF0000` pixel is painted in the column. -/
theorem zero_sample_paints_axis_only (pitch : Int) (g : Ring) (pixels pixels' : Int → Nat)
    (hc0 : 0 ≤ g.drawindex) (hc : g.drawindex < 640) (hp : 640 ≤ pitch)
    (hw : wavePass pitch g pixels = some pixels') (k : Nat) (hk : k < 640)
    (hz : g.drawbuf ⟨(g.drawindex.toNat + k) % 640, Nat.mod_lt _ (by decide)⟩ =
      (F32.fin 0, F32.fin 0)) :
    columnSpan (g.drawbuf ⟨(g.drawindex.toNat + k) % 640, Nat.mod_lt _ (by decide)⟩) =
        some { y0limit := false, y1limit := false, y0 := cy, y1 := cy } ∧
      cy = 430 ∧
      pixels' (430 * pitch + k) = 0x66666666 ∧
      (∀ r : Int, 390 ≤ r → r ≤ 470 → r ≠ 430 → pixels' (r * pitch + k) = 0x18181818) ∧
      (∀ r : Int, 390 ≤ r → r ≤ 470 → pixels' (r * pitch + k) ≠ 0xFFFF0000) := by
  have hrow : ∀ r : Int, 390 ≤ r → r ≤ 470 →
      pixels' (r * pitch + k) = if r = 430 then 0x66666666 else 0x18181818 := by
    intro r h0 h1
    obtain ⟨sp, hsp, hpx⟩ := wavePass_apply pitch g pixels pixels' hc0 hc hp hw k hk r
    rw [hz, columnSpan_zero] at hsp
    rw [hpx, ← Option.some.inj hsp, paintedRow_flat r _ h0 h1]
  refine ⟨?_, cy_eq, ?_, ?_, ?_⟩
  · rw [hz, columnSpan_zero, cy_eq]
  · rw [hrow 430 (by norm_num) (by norm_num), if_pos rfl]
  · intro r h0 h1 hne
    rw [hrow r h0 h1, if_neg hne]
  · intro r h0 h1
    rw [hrow r h0 h1]
    split_ifs <;> decide

theorem zero_sample_paints_axis_only_witness :
    ∃ pixels', wavePass 640 Ring.init (fun _ => 0) = some pixels' ∧
      (columnSpan (Ring.init.drawbuf
          ⟨(Ring.init.drawindex.toNat + 7) % 640, Nat.mod_lt _ (by decide)⟩) =
          some { y0limit := false, y1limit := false, y0 := cy, y1 := cy } ∧
        cy = 430 ∧
        pixels' (430 * 640 + (7 : ℕ)) = 0x66666666 ∧
        (∀ r : Int, 390 ≤ r → r ≤ 470 → r ≠ 430 →
          pixels' (r * 640 + (7 : ℕ)) = 0x18181818) ∧
        (∀ r : Int, 390 ≤ r → r ≤ 470 → pixels' (r * 640 + (7 : ℕ)) ≠ 0xFFFF0000)) := by
  obtain ⟨pixels', hw⟩ := wavePass_init 640 (fun _ => 0)
  exact ⟨pixels', hw,
    zero_sample_paints_axis_only 640 Ring.init (fun _ => 0) pixels' (by decide) (by decide)
      (by decide) hw 7 (by decide) rfl⟩

/-! ## Theorems: the text pass -/

set_option maxRecDepth 20000 in
theorem fontBytes_length : fontBytes.length = 769 := by decide

theorem fontAt_isSome (k : Int) (h0 : 0 ≤ k) (h1 : k < 769) : ∃ ch, fontAt k = some ch := by
  unfold fontAt
  rw [if_pos h0]
  have hlt : k.toNat < fontBytes.length := by rw [fontBytes_length]; omega
  exact ⟨_, List.getElem?_eq_getElem hlt⟩

theorem glyphRow_isSome (pitch x y index : Int) (sy : Nat) (h0 : 0 ≤ index)
    (h1 : index + ((sy >>> 1 : Nat) : Int) < 769) :
    ∀ (l : List Nat) (pixels : Int → Nat),
      ∃ pixels', glyphRow pitch x y index sy l pixels = some pixels' := by
  intro l
  induction l with
  | nil => exact fun pixels => ⟨pixels, rfl⟩
  | cons sx rest ih =>
    intro pixels
    obtain ⟨ch, hch⟩ := fontAt_isSome (index + ((sy >>> 1 : Nat) : Int)) (by omega) h1
    simp only [glyphRow, hch, Option.some_bind]
    exact ih _

theorem glyphRows_isSome (pitch x y index : Int) (h0 : 0 ≤ index) (h1 : index + 7 < 769) :
    ∀ (l : List Nat) (pixels : Int → Nat), (∀ sy ∈ l, sy < 16) →
      ∃ pixels', glyphRows pitch x y index l pixels = some pixels' := by
  intro l
  induction l with
  | nil => exact fun pixels _ => ⟨pixels, rfl⟩
  | cons sy rest ih =>
    intro pixels hl
    have hsy : sy < 16 := hl sy (List.mem_cons_self _ _)
    have hshift : sy >>> 1 ≤ 7 := by
      rw [Nat.shiftRight_eq_div_pow]
      omega
    obtain ⟨p1, hp1⟩ := glyphRow_isSome pitch x y index sy h0 (by omega) (List.range 16) pixels
    simp only [glyphRows, hp1, Option.some_bind]
    exact ih _ (fun s hs => hl s (List.mem_cons_of_mem _ hs))

/-- The glyph of a character with code in `32..127` is read inside the font. -/
theorem drawGlyph_isSome (pitch x y c : Int) (pixels : Int → Nat) (h0 : 32 ≤ c)
    (h1 : c ≤ 127) : ∃ pixels', drawGlyph pitch x y c pixels = some pixels' := by
  unfold drawGlyph
  apply glyphRows_isSome pitch x y _ (by omega) (by omega)
  intro sy hsy
  exact List.mem_range.mp hsy

theorem textLoop_append (pitch ix : Int) (l2 : List Int) :
    ∀ (l1 : List Int) (st : TextState), (∀ ch ∈ l1, ch ≠ 0) →
      textLoop pitch ix (l1 ++ l2) st = (textLoop pitch ix l1 st).bind (textLoop pitch ix l2) := by
  intro l1
  induction l1 with
  | nil => intro st _; rfl
  | cons c rest ih =>
    intro st hnz
    have hc : c ≠ 0 := hnz c (List.mem_cons_self _ _)
    simp only [List.cons_append, textLoop, if_neg hc]
    cases hs : textStep pitch ix st c with
    | none => rfl
    | some st1 =>
      simp only [Option.some_bind]
      exact ih st1 (fun ch hch => hnz ch (List.mem_cons_of_mem _ hch))

/-- The pen position after the part `pre` of the string. -/
theorem textLoop_pen (pitch : Int) (pixels : Int → Nat) (pre : List Int) :
    (∀ ch ∈ pre, ch ≠ 0) → (∀ ch ∈ pre, ch ≤ 127) →
    ∃ st, textLoop pitch 8 pre { x := 8, y := 8, pixels := pixels } = some st ∧
      st.x = 8 + 16 * (glyphsOnLastLine pre : Int) ∧
      st.y = 8 + 20 * (newlinesIn pre : Int) := by
  induction pre using List.reverseRecOn with
  | nil =>
    intro _ _
    exact ⟨_, rfl, by simp [glyphsOnLastLine], by simp [newlinesIn]⟩
  | append_singleton pre ch ih =>
    intro hnz h127
    obtain ⟨st, hst, hx, hy⟩ := ih (fun c hc => hnz c (List.mem_append_left _ hc))
      (fun c hc => h127 c (List.mem_append_left _ hc))
    have hch0 : ch ≠ 0 := hnz ch (List.mem_append_right _ (List.mem_singleton_self _))
    have hch127 : ch ≤ 127 := h127 ch (List.mem_append_right _ (List.mem_singleton_self _))
    rw [textLoop_append pitch 8 [ch] pre _ (fun c hc => hnz c (List.mem_append_left _ hc)), hst]
    simp only [Option.some_bind, textLoop, if_neg hch0, textStep]
    by_cases h10 : ch = 10
    · subst h10
      refine ⟨{ st with x := 8, y := st.y + 20 }, by simp only [if_true, Option.some_bind], ?_, ?_⟩
      · simp [glyphsOnLastLine]
      · simp only [newlinesIn, List.count_append, List.count_singleton_self, hy]
        push_cast
        ring
    · simp only [if_neg h10]
      by_cases h32 : 32 ≤ ch
      · obtain ⟨p1, hp1⟩ := drawGlyph_isSome pitch st.x st.y ch st.pixels h32 hch127
        refine ⟨{ st with x := st.x + 16, pixels := p1 },
          by simp only [if_pos h32, hp1, Option.map_some', Option.some_bind], ?_, ?_⟩
        · simp only [hx, glyphsOnLastLine, List.reverse_append, List.reverse_singleton,
            List.singleton_append, List.takeWhile_cons, ne_eq, h10, not_false_eq_true,
            decide_True, if_true, List.filter_cons, h32, List.length_cons]
          push_cast
          ring
        · simp only [hy, newlinesIn, List.count_append, List.count_singleton, beq_iff_eq, h10,
            if_false, add_zero]
      · refine ⟨st, by simp only [if_neg h32, Option.some_bind], ?_, ?_⟩
        · simp only [hx, glyphsOnLastLine, List.reverse_append, List.reverse_singleton,
            List.singleton_append, List.takeWhile_cons, ne_eq, h10, not_false_eq_true,
            decide_True, if_true, List.filter_cons, h32, decide_False, Bool.false_eq_true,
            if_false]
        · simp only [hy, newlinesIn, List.count_append, List.count_singleton, beq_iff_eq, h10,
            if_false, add_zero]

theorem map_bind_eq {α β γ : Type} (o : Option α) (f : α → β) (k : β → Option γ) :
    (o.map f).bind k = o.bind (fun a => k (f a)) := by
  cases o <;> rfl

theorem bind_map_eq {α β γ : Type} (o : Option α) (k : α → Option β) (f : β → γ) :
    (o.bind k).map f = o.bind (fun a => (k a).map f) := by
  cases o <;> rfl

/-- C10. Text layout.  Let `pre` be the part of the status string before a
position (no NUL in it, character values at most 127, as for a signed `char`
or ASCII text), `L = newlinesIn pre` and `K = glyphsOnLastLine pre`.  The
loop reaches the position with the pen at column `8 + 16 K`, row `8 + 20 L`;
a character `c` with code at least 32 there is drawn by `drawGlyph` with
that cell origin and moves the pen 16 to the right; a newline there paints
nothing, resets the column to 8 and advances the row by 20.  For the string
`"A\nB"`, `A` is drawn at `(8, 8)` and `B` at `(8, 28)`. -/
theorem glyph_cell_origin (pitch : Int) (pixels : Int → Nat) (pre post : List Int) (c : Int)
    (hnz : ∀ ch ∈ pre, ch ≠ 0) (h127 : ∀ ch ∈ pre, ch ≤ 127) (hc : 32 ≤ c) :
    (∃ st, textLoop pitch 8 pre { x := 8, y := 8, pixels := pixels } = some st ∧
      st.x = 8 + 16 * (glyphsOnLastLine pre : Int) ∧
      st.y = 8 + 20 * (newlinesIn pre : Int) ∧
      textLoop pitch 8 (pre ++ c :: post) { x := 8, y := 8, pixels := pixels } =
        (drawGlyph pitch (8 + 16 * (glyphsOnLastLine pre : Int))
            (8 + 20 * (newlinesIn pre : Int)) c st.pixels).bind
          (fun p => textLoop pitch 8 post
            { x := 8 + 16 * (glyphsOnLastLine pre : Int) + 16,
              y := 8 + 20 * (newlinesIn pre : Int), pixels := p }) ∧
      textLoop pitch 8 (pre ++ 10 :: post) { x := 8, y := 8, pixels := pixels } =
        textLoop pitch 8 post
          { x := 8, y := 8 + 20 * (newlinesIn pre : Int) + 20, pixels := st.pixels }) ∧
      textPass pitch [65, 10, 66] pixels =
        (drawGlyph pitch 8 8 65 pixels).bind (drawGlyph pitch 8 28 66) := by
  constructor
  · obtain ⟨st, hst, hx, hy⟩ := textLoop_pen pitch pixels pre hnz h127
    refine ⟨st, hst, hx, hy, ?_, ?_⟩
    · rw [textLoop_append pitch 8 (c :: post) pre _ hnz, hst]
      simp only [Option.some_bind, textLoop, if_neg (by omega : ¬ c = 0), textStep,
        if_neg (by omega : ¬ c = 10), if_pos hc, hx, hy, map_bind_eq]
    · rw [textLoop_append pitch 8 (10 :: post) pre _ hnz, hst]
      simp only [Option.some_bind, textLoop, if_neg (by decide : ¬ (10 : Int) = 0), textStep,
        if_true, hy]
  · simp only [textPass, textLoop, textStep, if_neg (by decide : ¬ (65 : Int) = 0),
      if_neg (by decide : ¬ (65 : Int) = 10), if_pos (by decide : (32 : Int) ≤ 65),
      if_neg (by decide : ¬ (10 : Int) = 0), if_true,
      if_neg (by decide : ¬ (66 : Int) = 0), if_neg (by decide : ¬ (66 : Int) = 10),
      if_pos (by decide : (32 : Int) ≤ 66), map_bind_eq, bind_map_eq, Option.some_bind,
      Option.map_map]
    norm_num

theorem glyph_cell_origin_witness :
    (∃ st, textLoop 640 8 [65, 10] { x := 8, y := 8, pixels := fun _ => 0 } = some st ∧
      st.x = 8 + 16 * (glyphsOnLastLine [65, 10] : Int) ∧
      st.y = 8 + 20 * (newlinesIn [65, 10] : Int) ∧
      textLoop 640 8 ([65, 10] ++ 66 :: []) { x := 8, y := 8, pixels := fun _ => 0 } =
        (drawGlyph 640 (8 + 16 * (glyphsOnLastLine [65, 10] : Int))
            (8 + 20 * (newlinesIn [65, 10] : Int)) 66 st.pixels).bind
          (fun p => textLoop 640 8 []
            { x := 8 + 16 * (glyphsOnLastLine [65, 10] : Int) + 16,
              y := 8 + 20 * (newlinesIn [65, 10] : Int), pixels := p }) ∧
      textLoop 640 8 ([65, 10] ++ 10 :: []) { x := 8, y := 8, pixels := fun _ => 0 } =
        textLoop 640 8 []
          { x := 8, y := 8 + 20 * (newlinesIn [65, 10] : Int) + 20, pixels := st.pixels }) ∧
      textPass 640 [65, 10, 66] (fun _ => 0) =
        (drawGlyph 640 8 8 65 (fun _ => 0)).bind (drawGlyph 640 8 28 66) :=
  glyph_cell_origin 640 (fun _ => 0) [65, 10] [] 66 (by decide) (by decide) (by decide)

/-! ## Theorems: `draw` only stores constants -/

theorem overlays_id : Overlays (fun pixels => pixels) :=
  ⟨fun _ => none, fun _ _ => rfl⟩

theorem overlays_update (a : Int) (v : Nat) :
    Overlays (fun pixels => Function.update pixels a v) := by
  refine ⟨fun b => if b = a then some v else none, ?_⟩
  intro pixels b
  by_cases hb : b = a
  · subst hb
    simp only [Function.update_same, if_true, Option.getD_some]
  · simp only [Function.update_noteq hb, if_neg hb, Option.getD_none]

theorem overlays_comp (f k : (Int → Nat) → (Int → Nat)) (hf : Overlays f) (hk : Overlays k) :
    Overlays (fun pixels => k (f pixels)) := by
  obtain ⟨mf, hmf⟩ := hf
  obtain ⟨mk, hmk⟩ := hk
  refine ⟨fun a => match mk a with
    | some v => some v
    | none => mf a, ?_⟩
  intro pixels a
  show k (f pixels) a = (match mk a with
    | some v => some v
    | none => mf a).getD (pixels a)
  rw [hmk, hmf]
  cases mk a <;> rfl

theorem overlays_ite (b : Prop) [Decidable b] (f : (Int → Nat) → (Int → Nat))
    (hf : Overlays f) : Overlays (fun pixels => if b then f pixels else pixels) := by
  by_cases hb : b
  · simp only [if_pos hb]; exact hf
  · simp only [if_neg hb]; exact overlays_id

theorem overlays_idem (f : (Int → Nat) → (Int → Nat)) (hf : Overlays f)
    (pixels : Int → Nat) : f (f pixels) = f pixels := by
  obtain ⟨m, hm⟩ := hf
  funext a
  rw [hm (f pixels) a, hm pixels a]
  cases m a <;> rfl

theorem overlaysOpt_some (k : (Int → Nat) → (Int → Nat)) (hk : Overlays k) :
    OverlaysOpt (fun pixels => some (k pixels)) :=
  Or.inr ⟨k, hk, fun _ => rfl⟩

theorem overlaysOpt_bind (f k : (Int → Nat) → Option (Int → Nat)) (hf : OverlaysOpt f)
    (hk : OverlaysOpt k) : OverlaysOpt (fun pixels => (f pixels).bind k) := by
  rcases hf with hf | ⟨f', hf', hfe⟩
  · exact Or.inl (fun pixels => by show (f pixels).bind k = none; rw [hf]; rfl)
  · rcases hk with hk | ⟨k', hk', hke⟩
    · exact Or.inl (fun pixels => by
        show (f pixels).bind k = none
        rw [hfe, Option.some_bind, hk])
    · exact Or.inr ⟨fun pixels => k' (f' pixels), overlays_comp f' k' hf' hk',
        fun pixels => by
          show (f pixels).bind k = some (k' (f' pixels))
          rw [hfe, Option.some_bind, hke]⟩

theorem overlaysOpt_after (f : (Int → Nat) → (Int → Nat))
    (k : (Int → Nat) → Option (Int → Nat)) (hf : Overlays f) (hk : OverlaysOpt k) :
    OverlaysOpt (fun pixels => k (f pixels)) :=
  overlaysOpt_bind (fun pixels => some (f pixels)) k (overlaysOpt_some f hf) hk

theorem overlaysOpt_idem (f : (Int → Nat) → Option (Int → Nat)) (hf : OverlaysOpt f)
    (pixels : Int → Nat) : (f pixels).bind f = f pixels := by
  rcases hf with hf | ⟨k, hk, hfe⟩
  · rw [hf]; rfl
  · rw [hfe, Option.some_bind, hfe, overlays_idem k hk]

theorem fillFrom_overlays (pitch x : Int) (v : Nat) :
    ∀ (n : Nat) (y : Int), Overlays (fillFrom pitch x v n y) := by
  intro n
  induction n with
  | zero => exact fun _ => overlays_id
  | succ n ih =>
    intro y
    exact overlays_comp (fun pixels => Function.update pixels (y * pitch + x) v)
      (fillFrom pitch x v n (y + 1)) (overlays_update _ _) (ih (y + 1))

theorem fillRows_overlays (pitch x : Int) (v : Nat) (lo hi : Int) :
    Overlays (fillRows pitch x v lo hi) :=
  fillFrom_overlays pitch x v _ lo

theorem paintColumn_overlays (pitch x : Int) (sp : Span) :
    Overlays (paintColumn pitch x sp) := by
  have h1 := fillRows_overlays pitch x 0x18181818 (cy - h / 2) sp.y0
  have h2 := overlays_comp _ _ h1 (fillRows_overlays pitch x 0x44444444 sp.y0 (sp.y1 + 1))
  have h3 := overlays_comp _ _ h2
    (fillRows_overlays pitch x 0x18181818 (sp.y1 + 1) (480 - 10 + 1))
  have h4 := overlays_comp _ _ h3 (overlays_ite (sp.y0limit = true) _
    (overlays_update ((cy - h / 2) * pitch + x) 0xFFFF0000))
  have h5 := overlays_comp _ _ h4 (overlays_ite (sp.y1limit = true) _
    (overlays_update ((cy + h / 2) * pitch + x) 0xFFFF0000))
  have h6 := overlays_comp _ _ h5 (overlays_update (cy * pitch + x) 0x66666666)
  exact h6

theorem drawColumn_overlays (pitch drawindex i : Int) (slot : F32 × F32) :
    OverlaysOpt (drawColumn pitch drawindex i slot) := by
  unfold drawColumn
  cases columnSpan slot with
  | none => exact Or.inl (fun _ => rfl)
  | some sp => exact overlaysOpt_some _ (paintColumn_overlays _ _ sp)

theorem waveLoop_overlays (pitch : Int) (g : Ring) :
    ∀ l : List (Fin 640), OverlaysOpt (waveLoop pitch g l) := by
  intro l
  induction l with
  | nil => exact overlaysOpt_some _ overlays_id
  | cons i rest ih =>
    exact overlaysOpt_bind _ _ (drawColumn_overlays pitch g.drawindex i.val (g.drawbuf i)) ih

theorem glyphRow_overlays (pitch x y index : Int) (sy : Nat) :
    ∀ l : List Nat, OverlaysOpt (glyphRow pitch x y index sy l) := by
  intro l
  induction l with
  | nil => exact overlaysOpt_some _ overlays_id
  | cons sx rest ih =>
    show OverlaysOpt (fun pixels =>
      (fontAt (index + ((sy >>> 1 : Nat) : Int))).bind fun ch =>
        glyphRow pitch x y index sy rest
          (if Int.land (ch - 48) ((2 : Int) ^ (sx >>> 1)) ≠ 0 then
            Function.update pixels ((y + sy) * pitch + x + sx) 0x88888888
          else pixels))
    cases fontAt (index + ((sy >>> 1 : Nat) : Int)) with
    | none => exact Or.inl (fun _ => rfl)
    | some ch =>
      simp only [Option.some_bind]
      exact overlaysOpt_after _ _
        (overlays_ite (Int.land (ch - 48) ((2 : Int) ^ (sx >>> 1)) ≠ 0) _
          (overlays_update ((y + sy) * pitch + x + sx) 0x88888888)) ih

theorem glyphRows_overlays (pitch x y index : Int) :
    ∀ l : List Nat, OverlaysOpt (glyphRows pitch x y index l) := by
  intro l
  induction l with
  | nil => exact overlaysOpt_some _ overlays_id
  | cons sy rest ih =>
    exact overlaysOpt_bind _ _ (glyphRow_overlays pitch x y index sy (List.range 16)) ih

theorem drawGlyph_overlays (pitch x y c : Int) : OverlaysOpt (drawGlyph pitch x y c) :=
  glyphRows_overlays _ _ _ _ _

/-- The text loop from a given pen position: it fails whatever the pixel
memory, or ends at a pen position that does not depend on the pixel memory
with a store-only effect on it. -/
theorem textLoop_overlays (pitch ix : Int) :
    ∀ (l : List Int) (x y : Int),
      (∀ pixels, textLoop pitch ix l { x := x, y := y, pixels := pixels } = none) ∨
      ∃ x' y' k, Overlays k ∧ ∀ pixels,
        textLoop pitch ix l { x := x, y := y, pixels := pixels } =
          some { x := x', y := y', pixels := k pixels } := by
  intro l
  induction l with
  | nil => exact fun x y => Or.inr ⟨x, y, _, overlays_id, fun _ => rfl⟩
  | cons c rest ih =>
    intro x y
    by_cases h0 : c = 0
    · exact Or.inr ⟨x, y, _, overlays_id, fun _ => by simp only [textLoop, if_pos h0]⟩
    · by_cases h10 : c = 10
      · rcases ih ix (y + 20) with hn | ⟨x', y', k, hk, hke⟩
        · exact Or.inl (fun pixels => by
            simp only [textLoop, if_neg h0, textStep, if_pos h10, Option.some_bind, hn])
        · exact Or.inr ⟨x', y', k, hk, fun pixels => by
            simp only [textLoop, if_neg h0, textStep, if_pos h10, Option.some_bind, hke]⟩
      · by_cases h32 : 32 ≤ c
        · rcases drawGlyph_overlays pitch x y c with hg | ⟨kg, hkg, hge⟩
          · exact Or.inl (fun pixels => by
              simp only [textLoop, if_neg h0, textStep, if_neg h10, if_pos h32, hg,
                Option.map_none', Option.none_bind])
          · rcases ih (x + 16) y with hn | ⟨x', y', k, hk, hke⟩
            · exact Or.inl (fun pixels => by
                simp only [textLoop, if_neg h0, textStep, if_neg h10, if_pos h32, hge,
                  Option.map_some', Option.some_bind, hn])
            · exact Or.inr ⟨x', y', fun pixels => k (kg pixels), overlays_comp kg k hkg hk,
                fun pixels => by
                  simp only [textLoop, if_neg h0, textStep, if_neg h10, if_pos h32, hge,
                    Option.map_some', Option.some_bind, hke]⟩
        · rcases ih x y with hn | ⟨x', y', k, hk, hke⟩
          · exact Or.inl (fun pixels => by
              simp only [textLoop, if_neg h0, textStep, if_neg h10, if_neg h32,
                Option.some_bind, hn])
          · exact Or.inr ⟨x', y', k, hk, fun pixels => by
              simp only [textLoop, if_neg h0, textStep, if_neg h10, if_neg h32,
                Option.some_bind, hke]⟩

theorem textPass_overlays (pitch : Int) (s : List Int) : OverlaysOpt (textPass pitch s) := by
  rcases textLoop_overlays pitch 8 s 8 8 with hn | ⟨x', y', k, hk, hke⟩
  · exact Or.inl (fun pixels => by simp only [textPass, hn, Option.map_none'])
  · exact Or.inr ⟨k, hk, fun pixels => by simp only [textPass, hke, Option.map_some']⟩

/-- The two passes of `draw` together, on the pixel memory alone. -/
theorem drawPasses_overlays (pitch : Int) (g : Ring) (s : List Int) :
    OverlaysOpt (fun pixels => (wavePass pitch g pixels).bind (textPass pitch s)) :=
  overlaysOpt_bind _ _ (waveLoop_overlays pitch g _) (textPass_overlays pitch s)

theorem draw_eq (g : Ring) (screen : Surface) (s : List Int) :
    draw g screen s =
      ((wavePass (screen.pitch >>> 2) g screen.pixels).bind
        (textPass (screen.pitch >>> 2) s)).map fun pixels => { screen with pixels := pixels } := by
  simp only [draw, bind_map_eq]

/-- C7. `draw` is idempotent on the pixel surface: running it again on the
surface it produced (same ring buffer, same string) gives that surface
again, and a run that fails fails again.  The reason is that `draw` only
stores constants: for a given ring buffer, pitch and string it either fails
on every surface content, or there is a partial map `m` from element indices
to values, independent of the surface content, such that every pixel ends as
`m a` where `m` is defined and keeps its value elsewhere. -/
theorem draw_idempotent (g : Ring) (screen : Surface) (s : List Int) :
    (draw g screen s).bind (fun screen' => draw g screen' s) = draw g screen s ∧
      ((∀ pixels, draw g { screen with pixels := pixels } s = none) ∨
        ∃ m : Int → Option Nat, ∀ pixels,
          draw g { screen with pixels := pixels } s =
            some { screen with pixels := fun a => (m a).getD (pixels a) }) := by
  rcases drawPasses_overlays (screen.pitch >>> 2) g s with hn | ⟨k, hk, hke⟩
  · have hnone : ∀ pixels, draw g { screen with pixels := pixels } s = none := by
      intro pixels
      rw [draw_eq]
      exact congrArg _ (hn pixels)
    exact ⟨by rw [hnone screen.pixels]; rfl, Or.inl hnone⟩
  · have hsome : ∀ pixels, draw g { screen with pixels := pixels } s =
        some { screen with pixels := k pixels } := by
      intro pixels
      rw [draw_eq]
      exact congrArg _ (hke pixels)
    constructor
    · rw [hsome screen.pixels, Option.some_bind, hsome (k screen.pixels),
        overlays_idem k hk]
    · obtain ⟨m, hm⟩ := hk
      refine Or.inr ⟨m, fun pixels => ?_⟩
      rw [hsome pixels]
      congr 2
      funext a
      exact hm pixels a

/-- The text pass succeeds on a string of character values at most 127. -/
theorem textPass_isSome (pitch : Int) (s : List Int) (pixels : Int → Nat)
    (h127 : ∀ ch ∈ s, ch ≤ 127) : ∃ pixels', textPass pitch s pixels = some pixels' := by
  rcases textLoop_overlays pitch 8 (s.takeWhile fun ch => decide (ch ≠ 0)) 8 8 with hn | hs
  · exfalso
    obtain ⟨st, hst, -⟩ := textLoop_pen pitch pixels (s.takeWhile fun ch => decide (ch ≠ 0))
      (fun ch hch => by simpa using (List.mem_takeWhile_imp hch))
      (fun ch hch => h127 ch ((List.takeWhile_sublist _).subset hch))
    rw [hn pixels] at hst
    exact Option.noConfusion hst
  · obtain ⟨x', y', k, -, hke⟩ := hs
    have hcut : ∀ (l : List Int) (st : TextState),
        textLoop pitch 8 l st = textLoop pitch 8 (l.takeWhile fun ch => decide (ch ≠ 0)) st := by
      intro l
      induction l with
      | nil => intro st; rfl
      | cons c rest ih =>
        intro st
        by_cases hc : c = 0
        · subst hc
          simp [textLoop]
        · simp only [textLoop, if_neg hc, List.takeWhile_cons, hc, ne_eq, not_false_eq_true,
            decide_True, if_true]
          cases textStep pitch 8 st c with
          | none => rfl
          | some st1 => exact ih st1
    exact ⟨k pixels, by simp only [textPass, hcut s, hke, Option.map_some']⟩

theorem draw_idempotent_witness :
    ∃ screen', draw Ring.init { pitch := 2560, pixels := fun _ => 0 } [72, 105, 10, 33] =
        some screen' ∧
      draw Ring.init screen' [72, 105, 10, 33] = some screen' := by
  obtain ⟨p1, hp1⟩ := wavePass_init ((2560 : Int) >>> 2) (fun _ => 0)
  obtain ⟨p2, hp2⟩ := textPass_isSome ((2560 : Int) >>> 2) [72, 105, 10, 33] p1 (by decide)
  have hd : draw Ring.init { pitch := 2560, pixels := fun _ => 0 } [72, 105, 10, 33] =
      some { pitch := 2560, pixels := p2 } := by
    rw [draw_eq]
    simp only [hp1, Option.some_bind, hp2, Option.map_some']
  have hi := (draw_idempotent Ring.init { pitch := 2560, pixels := fun _ => 0 }
    [72, 105, 10, 33]).1
  rw [hd, Option.some_bind] at hi
  exact ⟨_, hd, hi⟩

/-! ## Theorems: the strip is repainted -/

/-- Inside the strip a painted column does not depend on what was there:
rows 390..470 are all covered by the three fills. -/
theorem paintedRow_in_strip (sp : Span) (r : Int) (old : Nat) (h0 : 390 ≤ r) (h1 : r ≤ 470) :
    paintedRow sp r old =
      if r = 430 then 0x66666666
      else if sp.y1limit = true ∧ r = 470 then 0xFFFF0000
      else if sp.y0limit = true ∧ r = 390 then 0xFFFF0000
      else if sp.y0 ≤ r ∧ r ≤ sp.y1 then 0x44444444
      else 0x18181818 := by
  have e1 : (430 : Int) + 40 = 470 := by norm_num
  have e2 : (430 : Int) - 40 = 390 := by norm_num
  have e3 : (480 : Int) - 10 + 1 = 471 := by norm_num
  simp only [paintedRow, cy_eq, half_h_eq, e1, e2, e3]
  split_ifs <;> first | rfl | omega

/-- Whether the waveform pass succeeds does not depend on the pixel memory. -/
theorem wavePass_isSome_of (pitch : Int) (g : Ring) (pixels pixels' q : Int → Nat)
    (hw : wavePass pitch g pixels = some pixels') : ∃ q', wavePass pitch g q = some q' :=
  (waveLoop_isSome_iff pitch g _ q).mpr ((waveLoop_isSome_iff pitch g _ pixels).mp ⟨pixels', hw⟩)

/-! ## Theorems: glyphs -/

theorem land_two_pow_ne_zero_iff (v : Int) (k : Nat) :
    Int.land v ((2 : Int) ^ k) ≠ 0 ↔ Int.testBit v k = true := by
  have h2 : ((2 : Int) ^ k) = ((2 ^ k : Nat) : Int) := by push_cast; rfl
  have hpow : ∀ i, Int.testBit ((2 : Int) ^ k) i = decide (k = i) := by
    intro i
    rw [h2]
    exact Nat.testBit_two_pow
  obtain ⟨n, hn⟩ : ∃ n : Nat, Int.land v ((2 : Int) ^ k) = (n : Int) := by
    rw [h2]
    cases v with
    | ofNat m => exact ⟨_, rfl⟩
    | negSucc m => exact ⟨_, rfl⟩
  constructor
  · intro hne
    have hn0 : n ≠ 0 := by
      intro h0
      apply hne
      rw [hn, h0]
      rfl
    obtain ⟨i, hi⟩ := Nat.ne_zero_implies_bit_true hn0
    have hb : Int.testBit (Int.land v ((2 : Int) ^ k)) i = true := by
      rw [hn]
      exact hi
    rw [Int.testBit_land, hpow, Bool.and_eq_true, decide_eq_true_eq] at hb
    rw [hb.2]
    exact hb.1
  · intro hb hz
    have hb' : Int.testBit (Int.land v ((2 : Int) ^ k)) k = true := by
      rw [Int.testBit_land, hpow, hb]
      simp
    rw [hz] at hb'
    simp [Int.testBit] at hb'

theorem paints_id (v : Nat) : Paints ∅ v (fun pixels => some pixels) :=
  fun pixels => ⟨pixels, rfl, fun _ => ⟨fun ha => absurd ha (Set.not_mem_empty _), fun _ => rfl⟩⟩

theorem paints_bind (S T : Set Int) (v : Nat) (f k : (Int → Nat) → Option (Int → Nat))
    (hf : Paints S v f) (hk : Paints T v k) :
    Paints (S ∪ T) v (fun pixels => (f pixels).bind k) := by
  intro pixels
  obtain ⟨p1, hp1, h1⟩ := hf pixels
  obtain ⟨p2, hp2, h2⟩ := hk p1
  refine ⟨p2, by show (f pixels).bind k = some p2; rw [hp1, Option.some_bind, hp2], ?_⟩
  intro a
  constructor
  · intro ha
    by_cases haT : a ∈ T
    · exact (h2 a).1 haT
    · rw [(h2 a).2 haT]
      rcases ha with haS | haT'
      · exact (h1 a).1 haS
      · exact absurd haT' haT
  · intro ha
    have haS : a ∉ S := fun hh => ha (Or.inl hh)
    have haT : a ∉ T := fun hh => ha (Or.inr hh)
    rw [(h2 a).2 haT, (h1 a).2 haS]

theorem paints_congr (S T : Set Int) (v : Nat) (f : (Int → Nat) → Option (Int → Nat))
    (hST : ∀ a, a ∈ S ↔ a ∈ T) (hf : Paints S v f) : Paints T v f := by
  have : S = T := Set.ext hST
  rw [← this]
  exact hf

theorem paints_cond_update (b : Prop) [Decidable b] (a0 : Int) (v : Nat) :
    Paints {a | b ∧ a = a0} v
      (fun pixels => some (if b then Function.update pixels a0 v else pixels)) := by
  intro pixels
  refine ⟨_, rfl, ?_⟩
  intro a
  by_cases hb : b
  · simp only [if_pos hb, Set.mem_setOf_eq, hb, true_and]
    constructor
    · rintro rfl
      exact Function.update_same _ _ _
    · intro hne
      exact Function.update_noteq hne _ _
  · simp only [if_neg hb, Set.mem_setOf_eq, hb, false_and]
    exact ⟨fun hh => absurd hh id, fun _ => rfl⟩

/-- One row of a glyph: the loop over `sx` stores `0x88888888` at the pixels
of the listed `sx` whose bit is set in the font byte `ch` of the row. -/
theorem glyphRow_paints (pitch x y index : Int) (sy : Nat) (ch : Int)
    (hch : fontAt (index + ((sy >>> 1 : Nat) : Int)) = some ch) :
    ∀ l : List Nat,
      Paints {a | ∃ sx ∈ l, Int.land (ch - 48) ((2 : Int) ^ (sx >>> 1)) ≠ 0 ∧
          a = (y + sy) * pitch + x + sx} 0x88888888 (glyphRow pitch x y index sy l) := by
  intro l
  induction l with
  | nil =>
    apply paints_congr ∅ _ _ _ _ (paints_id _)
    intro a
    simp
  | cons sx rest ih =>
    have hstep := paints_bind _ _ 0x88888888 _ _
      (paints_cond_update (Int.land (ch - 48) ((2 : Int) ^ (sx >>> 1)) ≠ 0)
        ((y + sy) * pitch + x + sx) 0x88888888) ih
    have hfun : glyphRow pitch x y index sy (sx :: rest) = fun pixels =>
        (some (if Int.land (ch - 48) ((2 : Int) ^ (sx >>> 1)) ≠ 0 then
          Function.update pixels ((y + sy) * pitch + x + sx) 0x88888888 else pixels)).bind
          (glyphRow pitch x y index sy rest) := by
      funext pixels
      simp only [glyphRow, hch, Option.some_bind]
    rw [hfun]
    apply paints_congr _ _ _ _ _ hstep
    intro a
    simp only [Set.mem_union, Set.mem_setOf_eq, List.mem_cons, exists_eq_or_imp]

theorem shiftRight_one (n : Nat) : n >>> 1 = n / 2 := by
  rw [Nat.shiftRight_eq_div_pow, pow_one]

/-- The two nested loops of a glyph store `0x88888888` at exactly the pixels
of the listed rows whose glyph bit is set. -/
theorem glyphRows_paints (pitch x y c : Int) (h0 : 32 ≤ c) (h1 : c ≤ 127) :
    ∀ l : List Nat, (∀ sy ∈ l, sy < 16) →
      Paints {a | ∃ sy ∈ l, ∃ sx : Nat, sx < 16 ∧ glyphBit c sx sy = true ∧
          a = (y + sy) * pitch + x + sx} 0x88888888
        (glyphRows pitch x y ((c - 32) * 2 ^ 3) l) := by
  intro l
  induction l with
  | nil =>
    intro _
    apply paints_congr ∅ _ _ _ _ (paints_id _)
    intro a
    simp
  | cons sy rest ih =>
    intro hl
    have hsy : sy < 16 := hl sy (List.mem_cons_self _ _)
    have hidx : (c - 32) * 2 ^ 3 + ((sy >>> 1 : Nat) : Int) =
        (c - 32) * 8 + ((sy / 2 : Nat) : Int) := by
      rw [shiftRight_one]
      norm_num
    obtain ⟨ch, hch⟩ := fontAt_isSome ((c - 32) * 2 ^ 3 + ((sy >>> 1 : Nat) : Int))
      (by rw [hidx]; omega) (by rw [hidx]; omega)
    have hrow := glyphRow_paints pitch x y ((c - 32) * 2 ^ 3) sy ch hch (List.range 16)
    have hstep := paints_bind _ _ 0x88888888 _ _ hrow
      (ih (fun s hs => hl s (List.mem_cons_of_mem _ hs)))
    have hfun : glyphRows pitch x y ((c - 32) * 2 ^ 3) (sy :: rest) = fun pixels =>
        (glyphRow pitch x y ((c - 32) * 2 ^ 3) sy (List.range 16) pixels).bind
          (glyphRows pitch x y ((c - 32) * 2 ^ 3) rest) := by
      funext pixels
      rfl
    rw [hfun]
    apply paints_congr _ _ _ _ _ hstep
    intro a
    have hbit : ∀ sx : Nat, (Int.land (ch - 48) ((2 : Int) ^ (sx >>> 1)) ≠ 0) ↔
        glyphBit c sx sy = true := by
      intro sx
      rw [land_two_pow_ne_zero_iff, shiftRight_one]
      unfold glyphBit
      rw [← hidx, hch]
    simp only [Set.mem_union, Set.mem_setOf_eq, List.mem_cons, exists_eq_or_imp,
      List.mem_range, hbit]

/-- The glyph of a character `c` in `32..127` drawn at cell origin `(x, y)`:
`drawGlyph` succeeds, stores `0x88888888` at the pixels of the cell whose
glyph bit is set, and changes nothing else. -/
theorem drawGlyph_paints (pitch x y c : Int) (h0 : 32 ≤ c) (h1 : c ≤ 127) :
    Paints {a | GlyphPixel pitch x y c a} 0x88888888 (drawGlyph pitch x y c) := by
  have hrows := glyphRows_paints pitch x y c h0 h1 (List.range 16)
    (fun sy hsy => List.mem_range.mp hsy)
  apply paints_congr _ _ _ _ _ hrows
  intro a
  simp only [Set.mem_setOf_eq, List.mem_range, GlyphPixel]
  constructor
  · rintro ⟨sy, hsy, sx, hsx, hb, ha⟩
    exact ⟨sx, sy, hsx, hsy, hb, ha⟩
  · rintro ⟨sx, sy, hsx, hsy, hb, ha⟩
    exact ⟨sy, hsy, sx, hsx, hb, ha⟩

set_option maxRecDepth 20000 in
theorem font_length : font.length = 768 := by decide

set_option maxRecDepth 100000 in
theorem font_chars_range :
    (font.toList.all fun ch => decide (48 ≤ ch.toNat ∧ ch.toNat < 112)) = true := by decide

/-- A read inside the 768 characters of the literal yields that character. -/
theorem fontAt_char (k : Int) (h0 : 0 ≤ k) (h1 : k < 768) :
    ∃ ch : Char, font.toList[k.toNat]? = some ch ∧ fontAt k = some (ch.toNat : Int) := by
  have hlen : font.toList.length = 768 := font_length
  have hlt : k.toNat < font.toList.length := by omega
  refine ⟨font.toList[k.toNat], List.getElem?_eq_getElem hlt, ?_⟩
  unfold fontAt fontBytes
  rw [if_pos h0, List.getElem?_append_left (by rw [List.length_map]; exact hlt),
    List.getElem?_map, List.getElem?_eq_getElem hlt]
  rfl

/-- Every character of the font is in `'0'..'o'`, so `font[k] - '0'` is a
6-bit value. -/
theorem fontAt_range (k ch : Int) (h0 : 0 ≤ k) (h1 : k < 768) (hch : fontAt k = some ch) :
    48 ≤ ch ∧ ch < 112 := by
  obtain ⟨c, hc, hf⟩ := fontAt_char k h0 h1
  rw [hf] at hch
  have hmem : c ∈ font.toList := by
    obtain ⟨hlt, he⟩ := List.getElem?_eq_some.mp hc
    rw [← he]
    exact List.getElem_mem hlt
  have := List.all_eq_true.mp font_chars_range c hmem
  simp only [decide_eq_true_eq] at this
  rw [← Option.some.inj hch]
  omega

/-- C20. The font literal has exactly 768 characters, 96 glyphs of 8 rows,
and for every character value `c` with `32 ≤ c ≤ 127` and every `sy < 16`
the index `((c - 32) << 3) + (sy >> 1)` that the text pass reads is in
`[0, 768)`: the read returns a character of the literal and `drawGlyph`
never reads outside the table. -/
theorem font_index_in_bounds :
    font.length = 768 ∧ 768 = 96 * 8 ∧
      (∀ (c : Int) (sy : Nat), 32 ≤ c → c ≤ 127 → sy < 16 →
        0 ≤ (c - 32) * 2 ^ 3 + ((sy >>> 1 : Nat) : Int) ∧
        (c - 32) * 2 ^ 3 + ((sy >>> 1 : Nat) : Int) < 768 ∧
        ∃ ch : Char,
          font.toList[((c - 32) * 2 ^ 3 + ((sy >>> 1 : Nat) : Int)).toNat]? = some ch ∧
          fontAt ((c - 32) * 2 ^ 3 + ((sy >>> 1 : Nat) : Int)) = some (ch.toNat : Int)) ∧
      ∀ (pitch x y c : Int) (pixels : Int → Nat), 32 ≤ c → c ≤ 127 →
        ∃ pixels', drawGlyph pitch x y c pixels = some pixels' := by
  refine ⟨font_length, by norm_num, ?_, ?_⟩
  · intro c sy h0 h1 hsy
    have hidx : (0 : Int) ≤ (c - 32) * 2 ^ 3 + ((sy >>> 1 : Nat) : Int) ∧
        (c - 32) * 2 ^ 3 + ((sy >>> 1 : Nat) : Int) < 768 := by
      rw [shiftRight_one]
      omega
    exact ⟨hidx.1, hidx.2, fontAt_char _ hidx.1 hidx.2⟩
  · intro pitch x y c pixels h0 h1
    obtain ⟨p', hp', -⟩ := drawGlyph_paints pitch x y c h0 h1 pixels
    exact ⟨p', hp'⟩

theorem glyphBit_iff (c : Int) (sx sy : Nat) :
    glyphBit c sx sy = true ↔
      ∃ ch, fontAt ((c - 32) * 8 + ((sy / 2 : Nat) : Int)) = some ch ∧
        Int.testBit (ch - 48) (sx / 2) = true := by
  unfold glyphBit
  cases fontAt ((c - 32) * 8 + ((sy / 2 : Nat) : Int)) with
  | none => simp
  | some ch => simp

/-- C17. Glyph decoding at 2x scale.  For a character `c` in `32..127` drawn
with cell origin `(x, y)`, the cell lying inside one row of the surface
(`0 ≤ x`, `x + 16 ≤ pitch`): `drawGlyph` succeeds and, for all
`sx, sy < 16`, the pixel at column `x + sx`, row `y + sy` is stored as
`0x88888888` if bit `sx div 2` of `font[(c - 32) * 8 + sy div 2] - '0'` is
set and keeps its value otherwise.  The bit depends on `sx div 2` and
`sy div 2` only, so the four pixels of a 2 x 2 block are stored together or
not at all. -/
theorem glyph_decoded_at_double_scale (pitch x y c : Int) (pixels : Int → Nat)
    (h0 : 32 ≤ c) (h1 : c ≤ 127) (hx0 : 0 ≤ x) (hx : x + 16 ≤ pitch) :
    ∃ pixels', drawGlyph pitch x y c pixels = some pixels' ∧
      (∀ sx sy : Nat, sx < 16 → sy < 16 →
        pixels' ((y + sy) * pitch + (x + sx)) =
          if glyphBit c sx sy = true then 0x88888888
          else pixels ((y + sy) * pitch + (x + sx))) ∧
      (∀ sx sy : Nat, glyphBit c sx sy = true ↔
        ∃ ch, fontAt ((c - 32) * 8 + ((sy / 2 : Nat) : Int)) = some ch ∧
          Int.testBit (ch - 48) (sx / 2) = true) ∧
      (∀ bx by' i j : Nat, i < 2 → j < 2 →
        glyphBit c (2 * bx + i) (2 * by' + j) = glyphBit c (2 * bx) (2 * by')) := by
  obtain ⟨p', hp', hpx⟩ := drawGlyph_paints pitch x y c h0 h1 pixels
  refine ⟨p', hp', ?_, fun sx sy => glyphBit_iff c sx sy, ?_⟩
  · intro sx sy hsx hsy
    by_cases hb : glyphBit c sx sy = true
    · rw [if_pos hb]
      apply (hpx _).1
      exact ⟨sx, sy, hsx, hsy, hb, by ring⟩
    · rw [if_neg hb]
      apply (hpx _).2
      rintro ⟨sx', sy', hsx', hsy', hb', ha⟩
      have ha' : (y + sy) * pitch + (x + sx) = (y + sy') * pitch + (x + sx') := by
        rw [ha]; ring
      have := (index_eq_iff pitch (y + sy) (y + sy') (x + sx) (x + sx') (by omega) (by omega)
        (by omega) (by omega)).mp ha'
      have e1 : sy = sy' := by omega
      have e2 : sx = sx' := by omega
      subst e1 e2
      exact hb hb'
  · intro bx by' i j hi hj
    unfold glyphBit
    have e1 : (2 * by' + j) / 2 = (2 * by') / 2 := by omega
    have e2 : (2 * bx + i) / 2 = (2 * bx) / 2 := by omega
    rw [e1, e2]

theorem glyph_decoded_at_double_scale_witness :
    ∃ pixels', drawGlyph 640 8 8 65 (fun _ => 0) = some pixels' ∧
      (∀ sx sy : Nat, sx < 16 → sy < 16 →
        pixels' ((8 + sy) * 640 + (8 + sx)) =
          if glyphBit 65 sx sy = true then 0x88888888
          else (fun _ => 0) (((8 : Int) + sy) * 640 + (8 + sx))) ∧
      (∀ sx sy : Nat, glyphBit 65 sx sy = true ↔
        ∃ ch, fontAt ((65 - 32) * 8 + ((sy / 2 : Nat) : Int)) = some ch ∧
          Int.testBit (ch - 48) (sx / 2) = true) ∧
      (∀ bx by' i j : Nat, i < 2 → j < 2 →
        glyphBit 65 (2 * bx + i) (2 * by' + j) = glyphBit 65 (2 * bx) (2 * by')) :=
  glyph_decoded_at_double_scale 640 8 8 65 (fun _ => 0) (by decide) (by decide) (by decide)
    (by decide)

set_option maxRecDepth 100000 in
theorem glyphBit_A : glyphBit 65 8 2 = true := by decide

/-- C18 (counterexample). The glyph of `'A'` drawn with cell origin `(8, 8)`
on a zeroed surface with rows of 640 pixels stores `0x88888888` at column
`16 = x + 8`, row `10`: a column outside `[x, x + 8)`. -/
theorem glyph_wider_than_eight :
    ∃ pixels', drawGlyph 640 8 8 65 (fun _ => 0) = some pixels' ∧
      pixels' (10 * 640 + 16) = 0x88888888 ∧ ¬ ((16 : Int) < 8 + 8) := by
  obtain ⟨p', hp', hpx⟩ := drawGlyph_paints 640 8 8 65 (by decide) (by decide) (fun _ => 0)
  refine ⟨p', hp', ?_, by decide⟩
  apply (hpx _).1
  exact ⟨8, 2, by decide, by decide, glyphBit_A, by norm_num⟩

/-- A set glyph bit of a character in `32..127` lies in the first six bit
columns, that is in the first twelve pixel columns of the cell. -/
theorem glyphBit_lt_twelve (c : Int) (sx sy : Nat) (h0 : 32 ≤ c) (h1 : c ≤ 127)
    (hsy : sy < 16) (hb : glyphBit c sx sy = true) : sx < 12 := by
  obtain ⟨ch, hch, hbit⟩ := (glyphBit_iff c sx sy).mp hb
  obtain ⟨hlo, hhi⟩ := fontAt_range _ ch (by omega) (by omega) hch
  obtain ⟨n, hn⟩ : ∃ n : Nat, ch - 48 = (n : Int) := ⟨(ch - 48).toNat, by omega⟩
  rw [hn] at hbit
  have hge : n ≥ 2 ^ (sx / 2) := Nat.testBit_implies_ge hbit
  have hn64 : n < 2 ^ 6 := by omega
  have hlt : sx / 2 < 6 := by
    by_contra hcon
    have : 2 ^ 6 ≤ 2 ^ (sx / 2) := Nat.pow_le_pow_right (by norm_num) (by omega)
    omega
  omega

/-- C18 (amended). Every glyph is drawn inside the 16 x 16 pixel cell of its
origin, and with this font inside the first 12 columns of the cell: for a
character value in `32..127` drawn with cell origin `(x, y)`, `drawGlyph`
succeeds and every pixel it changes is at a column `x + sx` with `sx < 12`
and a row `y + sy` with `sy < 16`. -/
theorem glyph_within_cell (pitch x y c : Int) (pixels : Int → Nat)
    (h0 : 32 ≤ c) (h1 : c ≤ 127) :
    ∃ pixels', drawGlyph pitch x y c pixels = some pixels' ∧
      ∀ a, pixels' a ≠ pixels a →
        ∃ sx sy : Nat, sx < 12 ∧ sy < 16 ∧ a = (y + sy) * pitch + (x + sx) := by
  obtain ⟨p', hp', hpx⟩ := drawGlyph_paints pitch x y c h0 h1 pixels
  refine ⟨p', hp', ?_⟩
  intro a hne
  by_cases hg : GlyphPixel pitch x y c a
  · obtain ⟨sx, sy, -, hsy, hb, ha⟩ := hg
    exact ⟨sx, sy, glyphBit_lt_twelve c sx sy h0 h1 hsy hb, hsy, by rw [ha]; ring⟩
  · exact absurd ((hpx a).2 hg) hne

theorem glyph_within_cell_witness :
    ∃ pixels', drawGlyph 640 8 8 65 (fun _ => 0) = some pixels' ∧
      ∀ a, pixels' a ≠ (fun _ => 0) a →
        ∃ sx sy : Nat, sx < 12 ∧ sy < 16 ∧ a = (8 + sy) * 640 + (8 + sx) :=
  glyph_within_cell 640 8 8 65 (fun _ => 0) (by decide) (by decide)

/-! ## Theorems: the text pass is transparent -/

theorem textPixel_snoc (pitch : Int) (pre : List Int) (c a : Int) :
    TextPixel pitch (pre ++ [c]) a ↔
      TextPixel pitch pre a ∨
        (32 ≤ c ∧ GlyphPixel pitch (8 + 16 * (glyphsOnLastLine pre : Int))
          (8 + 20 * (newlinesIn pre : Int)) c a) := by
  constructor
  · rintro ⟨p, d, q, heq, hd, hg⟩
    rcases List.eq_nil_or_concat q with rfl | ⟨q', e, rfl⟩
    · have := List.append_inj' heq rfl
      obtain ⟨h1, h2⟩ := this
      subst h1
      simp only [List.cons.injEq, and_true] at h2
      subst h2
      exact Or.inr ⟨hd, hg⟩
    · have heq' : pre ++ [c] = (p ++ d :: q') ++ [e] := by
        rw [heq]; simp
      have := List.append_inj' heq' rfl
      exact Or.inl ⟨p, d, q', this.1, hd, hg⟩
  · rintro (⟨p, d, q, heq, hd, hg⟩ | ⟨hc, hg⟩)
    · exact ⟨p, d, q ++ [c], by rw [heq]; simp, hd, hg⟩
    · exact ⟨pre, c, [], rfl, hc, hg⟩

/-- The text loop on a string without NUL and with character values at most
127: it succeeds, ends with the pen where the layout puts it, has stored
`0x88888888` at the set glyph bits of the drawn characters, and has left
every other element alone. -/
theorem textLoop_paints (pitch : Int) (pixels : Int → Nat) (s : List Int) :
    (∀ ch ∈ s, ch ≠ 0) → (∀ ch ∈ s, ch ≤ 127) →
    ∃ st, textLoop pitch 8 s { x := 8, y := 8, pixels := pixels } = some st ∧
      st.x = 8 + 16 * (glyphsOnLastLine s : Int) ∧
      st.y = 8 + 20 * (newlinesIn s : Int) ∧
      ∀ a, (TextPixel pitch s a → st.pixels a = 0x88888888) ∧
        (¬ TextPixel pitch s a → st.pixels a = pixels a) := by
  induction s using List.reverseRecOn with
  | nil =>
    intro _ _
    refine ⟨_, rfl, by simp [glyphsOnLastLine], by simp [newlinesIn], ?_⟩
    intro a
    refine ⟨?_, fun _ => rfl⟩
    rintro ⟨p, d, q, heq, -⟩
    simp at heq
  | append_singleton pre c ih =>
    intro hnz h127
    have hnz' : ∀ ch ∈ pre, ch ≠ 0 := fun ch hch => hnz ch (List.mem_append_left _ hch)
    obtain ⟨st, hst, hx, hy, hpx⟩ := ih hnz'
      (fun ch hch => h127 ch (List.mem_append_left _ hch))
    obtain ⟨st', hst', hx', hy'⟩ := textLoop_pen pitch pixels (pre ++ [c]) hnz h127
    have hc0 : c ≠ 0 := hnz c (List.mem_append_right _ (List.mem_singleton_self _))
    have hc127 : c ≤ 127 := h127 c (List.mem_append_right _ (List.mem_singleton_self _))
    refine ⟨st', hst', hx', hy', ?_⟩
    rw [textLoop_append pitch 8 [c] pre _ hnz', hst] at hst'
    simp only [Option.some_bind, textLoop, if_neg hc0, textStep] at hst'
    intro a
    rw [textPixel_snoc]
    by_cases h32 : 32 ≤ c
    · have h10 : ¬ c = 10 := by omega
      obtain ⟨p2, hp2, hpaint⟩ := drawGlyph_paints pitch st.x st.y c h32 hc127 st.pixels
      simp only [if_neg h10, if_pos h32, hp2, Option.map_some', Option.some_bind,
        Option.some.injEq] at hst'
      have hpix : st'.pixels = p2 := by rw [← hst']
      rw [hpix]
      rw [hx, hy] at hpaint
      constructor
      · rintro (hold | ⟨-, hnew⟩)
        · by_cases hg : GlyphPixel pitch (8 + 16 * (glyphsOnLastLine pre : Int))
              (8 + 20 * (newlinesIn pre : Int)) c a
          · exact (hpaint a).1 hg
          · rw [(hpaint a).2 hg]
            exact (hpx a).1 hold
        · exact (hpaint a).1 hnew
      · intro hno
        have hg : ¬ GlyphPixel pitch (8 + 16 * (glyphsOnLastLine pre : Int))
            (8 + 20 * (newlinesIn pre : Int)) c a := fun hh => hno (Or.inr ⟨h32, hh⟩)
        rw [(hpaint a).2 hg]
        exact (hpx a).2 (fun hh => hno (Or.inl hh))
    · have hpix : st'.pixels = st.pixels := by
        by_cases h10 : c = 10
        · simp only [if_pos h10, Option.some_bind, Option.some.injEq] at hst'
          rw [← hst']
        · simp only [if_neg h10, if_neg h32, Option.some_bind, Option.some.injEq] at hst'
          rw [← hst']
      rw [hpix]
      constructor
      · rintro (hold | ⟨hc, -⟩)
        · exact (hpx a).1 hold
        · exact absurd hc h32
      · intro hno
        exact (hpx a).2 (fun hh => hno (Or.inl hh))

/-- C11. The text pass is transparent.  For a status string without NUL and
with character values at most 127, the text pass succeeds; every element at
a set glyph bit of a drawn character (a character with code at least 32, its
16 x 16 cell placed by the layout) becomes `0x88888888`, and every other
element keeps the value it had after the waveform pass.  For the empty
string the pass changes nothing. -/
theorem text_pass_transparent (pitch : Int) (s : List Int) (pixels : Int → Nat)
    (hnz : ∀ ch ∈ s, ch ≠ 0) (h127 : ∀ ch ∈ s, ch ≤ 127) :
    (∃ pixels', textPass pitch s pixels = some pixels' ∧
      ∀ a, (TextPixel pitch s a → pixels' a = 0x88888888) ∧
        (¬ TextPixel pitch s a → pixels' a = pixels a)) ∧
      textPass pitch [] pixels = some pixels := by
  obtain ⟨st, hst, -, -, hpx⟩ := textLoop_paints pitch pixels s hnz h127
  exact ⟨⟨st.pixels, by simp only [textPass, hst, Option.map_some'], hpx⟩, rfl⟩

theorem text_pass_transparent_witness :
    (∃ pixels', textPass 640 [72, 105, 10, 33] (fun _ => 7) = some pixels' ∧
      ∀ a, (TextPixel 640 [72, 105, 10, 33] a → pixels' a = 0x88888888) ∧
        (¬ TextPixel 640 [72, 105, 10, 33] a → pixels' a = (fun _ => 7) a)) ∧
      textPass 640 [] (fun _ => 7) = some (fun _ => 7) :=
  text_pass_transparent 640 [72, 105, 10, 33] (fun _ => 7) (by decide) (by decide)

/-! ## Theorems: the cursor invariant -/

theorem step_keeps_cursor_in_range (m m' : Machine) (c : Call)
    (h0 : 0 ≤ m.ring.drawindex) (h1 : m.ring.drawindex < 640) (hs : step m c = some m') :
    0 ≤ m'.ring.drawindex ∧ m'.ring.drawindex < 640 := by
  cases c with
  | plot min max =>
    simp only [step, plot_some m.ring min max h0 h1, Option.map_some', Option.some.injEq] at hs
    rw [← hs]
    dsimp only
    split <;> omega
  | draw s =>
    simp only [step, Option.map_eq_some'] at hs
    obtain ⟨screen, -, rfl⟩ := hs
    exact ⟨h0, h1⟩

theorem run_keeps_cursor_in_range (calls : List Call) :
    ∀ m m' : Machine, 0 ≤ m.ring.drawindex → m.ring.drawindex < 640 →
      run m calls = some m' → 0 ≤ m'.ring.drawindex ∧ m'.ring.drawindex < 640 := by
  induction calls with
  | nil =>
    intro m m' h0 h1 hr
    simp only [run, Option.some.injEq] at hr
    rw [← hr]
    exact ⟨h0, h1⟩
  | cons c rest ih =>
    intro m m' h0 h1 hr
    simp only [run] at hr
    cases hs : step m c with
    | none => simp [hs] at hr
    | some m1 =>
      rw [hs, Option.some_bind] at hr
      obtain ⟨h0', h1'⟩ := step_keeps_cursor_in_range m m1 c h0 h1 hs
      exact ih m1 m' h0' h1' hr

/-- C19. Cursor invariant.  In every state reached from the zero-initialised
statics by any sequence of `plot` and `draw` calls, `0 ≤ drawindex < 640`
(and `drawbuf` has its 640 slots, by its type); so a further `plot` is in
bounds, it succeeds, and a `draw` changes neither `drawbuf` nor
`drawindex`. -/
theorem cursor_invariant (screen : Surface) (calls : List Call) (m : Machine)
    (hrun : run { ring := Ring.init, screen := screen } calls = some m) :
    0 ≤ m.ring.drawindex ∧ m.ring.drawindex < 640 ∧
      (∀ min max, ∃ g, plot m.ring min max = some g ∧
        step m (Call.plot min max) = some { m with ring := g }) ∧
      (∀ s m', step m (Call.draw s) = some m' → m'.ring = m.ring) := by
  obtain ⟨h0, h1⟩ := run_keeps_cursor_in_range calls { ring := Ring.init, screen := screen } m
    (le_refl (0 : Int)) (by show (0 : Int) < 640; decide) hrun
  refine ⟨h0, h1, ?_, ?_⟩
  · intro min max
    exact ⟨_, plot_some m.ring min max h0 h1, by
      simp only [step, plot_some m.ring min max h0 h1, Option.map_some']⟩
  · intro s m' hs
    simp only [step, Option.map_eq_some'] at hs
    obtain ⟨sc, -, rfl⟩ := hs
    rfl

theorem draw_isSome (g : Ring) (screen : Surface) (s : List Int)
    (hw : ∃ p, wavePass (screen.pitch >>> 2) g screen.pixels = some p)
    (h127 : ∀ ch ∈ s, ch ≤ 127) :
    ∃ p, draw g screen s = some { screen with pixels := p } := by
  obtain ⟨p1, hp1⟩ := hw
  obtain ⟨p2, hp2⟩ := textPass_isSome (screen.pitch >>> 2) s p1 h127
  exact ⟨p2, by rw [draw_eq]; simp only [hp1, Option.some_bind, hp2, Option.map_some']⟩

theorem cursor_invariant_witness :
    ∃ m, run { ring := Ring.init, screen := { pitch := 2560, pixels := fun _ => 0 } }
        [Call.draw [72, 105], Call.plot (F32.fin (-8)) (F32.fin (-8)), Call.draw []] = some m ∧
      (0 ≤ m.ring.drawindex ∧ m.ring.drawindex < 640 ∧
        (∀ min max, ∃ g, plot m.ring min max = some g ∧
          step m (Call.plot min max) = some { m with ring := g }) ∧
        (∀ s m', step m (Call.draw s) = some m' → m'.ring = m.ring)) := by
  obtain ⟨p1, hd1⟩ := draw_isSome Ring.init { pitch := 2560, pixels := fun _ => 0 } [72, 105]
    (wavePass_init _ _) (by decide)
  obtain ⟨p2, hd2⟩ := draw_isSome
    { drawbuf := Function.update Ring.init.drawbuf ⟨0, by omega⟩ (F32.fin (-8), F32.fin (-8))
      drawindex := 1 } { pitch := 2560, pixels := p1 } []
    (wavePass_ring_neg_eight _ _) (by decide)
  have hrun : run { ring := Ring.init, screen := { pitch := 2560, pixels := fun _ => 0 } }
      [Call.draw [72, 105], Call.plot (F32.fin (-8)) (F32.fin (-8)), Call.draw []] =
      some { ring :=
              { drawbuf :=
                  (Function.update Ring.init.drawbuf ⟨0, by omega⟩ (F32.fin (-8), F32.fin (-8)))
                drawindex := 1 }
             screen := { pitch := 2560, pixels := p2 } } := by
    simp only [run, step, hd1, Option.map_some', Option.some_bind, plot_init, hd2]
  exact ⟨_, hrun, cursor_invariant _ _ _ hrun⟩

/-! ## Theorems: rounding is monotone and accurate -/

namespace F32

theorem round_eq_roundQ (x : ℚ) :
    round x = if (2 : ℚ) ^ (128 : ℕ) ≤ |roundQ x| then inf (decide (roundQ x < 0))
      else fin (roundQ x) := rfl

theorem roundHalfEven_near (x : ℚ) : |x - (roundHalfEven x : ℤ)| ≤ 1 / 2 := by
  have h1 := Int.floor_le x
  have h2 := Int.lt_floor_add_one x
  unfold roundHalfEven
  rw [abs_le]
  split
  · constructor <;> linarith
  · split
    · push_cast
      constructor <;> linarith
    · split
      · constructor <;> linarith
      · push_cast
        constructor <;> linarith

theorem roundHalfEven_mono {a b : ℚ} (hab : a ≤ b) : roundHalfEven a ≤ roundHalfEven b := by
  by_contra hcon
  have hlt : roundHalfEven b + 1 ≤ roundHalfEven a := by omega
  have hq : ((roundHalfEven b : ℤ) : ℚ) + 1 ≤ (roundHalfEven a : ℤ) := by exact_mod_cast hlt
  have ha := abs_le.mp (roundHalfEven_near a)
  have hb := abs_le.mp (roundHalfEven_near b)
  have hba : b ≤ a := by linarith
  have heq : a = b := le_antisymm hab hba
  rw [heq] at hcon
  exact hcon (le_refl _)

/-- A grid point `m * 2 ^ e` of an exponent not below the unit in the last
place at `x` is not crossed by rounding: from above. -/
theorem roundQ_le_of_le (x : ℚ) (m e : ℤ) (he : ulpExp x ≤ e) (hx : x ≤ (m : ℚ) * 2 ^ e) :
    roundQ x ≤ (m : ℚ) * 2 ^ e := by
  have h2 : (2 : ℚ) ≠ 0 := by norm_num
  have hpos : (0 : ℚ) < 2 ^ ulpExp x := zpow_pos (by norm_num) _
  have hgrid : (m : ℚ) * 2 ^ e = ((m * 2 ^ (e - ulpExp x).toNat : ℤ) : ℚ) * 2 ^ ulpExp x := by
    push_cast
    rw [← zpow_natCast, Int.toNat_of_nonneg (by omega), mul_assoc, ← zpow_add₀ h2]
    congr 2
    omega
  rw [hgrid] at hx ⊢
  unfold roundQ
  apply mul_le_mul_of_nonneg_right _ (le_of_lt hpos)
  have hdiv : x / 2 ^ ulpExp x ≤ ((m * 2 ^ (e - ulpExp x).toNat : ℤ) : ℚ) := by
    rw [div_le_iff₀ hpos]
    exact hx
  have := roundHalfEven_mono hdiv
  rw [roundHalfEven_intCast] at this
  exact_mod_cast this

/-- The same from below. -/
theorem le_roundQ_of_le (x : ℚ) (m e : ℤ) (he : ulpExp x ≤ e) (hx : (m : ℚ) * 2 ^ e ≤ x) :
    (m : ℚ) * 2 ^ e ≤ roundQ x := by
  have h2 : (2 : ℚ) ≠ 0 := by norm_num
  have hpos : (0 : ℚ) < 2 ^ ulpExp x := zpow_pos (by norm_num) _
  have hgrid : (m : ℚ) * 2 ^ e = ((m * 2 ^ (e - ulpExp x).toNat : ℤ) : ℚ) * 2 ^ ulpExp x := by
    push_cast
    rw [← zpow_natCast, Int.toNat_of_nonneg (by omega), mul_assoc, ← zpow_add₀ h2]
    congr 2
    omega
  rw [hgrid] at hx ⊢
  unfold roundQ
  apply mul_le_mul_of_nonneg_right _ (le_of_lt hpos)
  have hdiv : ((m * 2 ^ (e - ulpExp x).toNat : ℤ) : ℚ) ≤ x / 2 ^ ulpExp x := by
    rw [le_div_iff₀ hpos]
    exact hx
  have := roundHalfEven_mono hdiv
  rw [roundHalfEven_intCast] at this
  exact_mod_cast this

/-- The unit in the last place of a value below `2 ^ k` in magnitude. -/
theorem ulpExp_le_of_abs_lt (x : ℚ) (k : ℤ) (hk : 1 ≤ k) (hx : |x| < 2 ^ k) :
    ulpExp x ≤ k - 24 := by
  unfold ulpExp
  apply max_le _ (by omega)
  by_cases h0 : x = 0
  · rw [h0, abs_zero, Int.log_zero_right]
    omega
  · have hpos : (0 : ℚ) < |x| := abs_pos.mpr h0
    have hx' : |x| < ((2 : ℕ) : ℚ) ^ k := by exact_mod_cast hx
    have := (Int.lt_zpow_iff_log_lt (by norm_num : 1 < 2) hpos).mp hx'
    omega

/-- Rounding moves a value by at most half a unit in the last place. -/
theorem roundQ_error (x : ℚ) : |roundQ x - x| ≤ 2 ^ ulpExp x / 2 := by
  have hpos : (0 : ℚ) < 2 ^ ulpExp x := zpow_pos (by norm_num) _
  have hnear := roundHalfEven_near (x / 2 ^ ulpExp x)
  have heq : roundQ x - x =
      -((x / 2 ^ ulpExp x - (roundHalfEven (x / 2 ^ ulpExp x) : ℤ)) * 2 ^ ulpExp x) := by
    unfold roundQ
    field_simp
    ring
  rw [heq, abs_neg, abs_mul, abs_of_pos hpos]
  calc |x / 2 ^ ulpExp x - (roundHalfEven (x / 2 ^ ulpExp x) : ℤ)| * 2 ^ ulpExp x
      ≤ 1 / 2 * 2 ^ ulpExp x := mul_le_mul_of_nonneg_right hnear (le_of_lt hpos)
    _ = 2 ^ ulpExp x / 2 := by ring

/-- For a value below `2 ^ k` in magnitude, `k ≥ 1`: the rounding error is at
most `2 ^ (k - 25)`. -/
theorem roundQ_error_of_abs_lt (x : ℚ) (k : ℤ) (hk : 1 ≤ k) (hx : |x| < 2 ^ k) :
    |roundQ x - x| ≤ 2 ^ (k - 25) := by
  have ht := ulpExp_le_of_abs_lt x k hk hx
  have h2 : (2 : ℚ) ≠ 0 := by norm_num
  calc |roundQ x - x| ≤ 2 ^ ulpExp x / 2 := roundQ_error x
    _ ≤ 2 ^ (k - 24) / 2 := by
        apply div_le_div_of_nonneg_right (zpow_le_zpow_right₀ (by norm_num) ht) (by norm_num)
    _ = 2 ^ (k - 25) := by
        rw [show k - 24 = (k - 25) + 1 by ring, zpow_add₀ h2, zpow_one]
        ring

/-- An integer bound on a value below `2 ^ 24` in magnitude survives
rounding. -/
theorem roundQ_le_int (x : ℚ) (n : ℤ) (hx : |x| < 2 ^ (24 : ℤ)) (hn : x ≤ n) :
    roundQ x ≤ n := by
  have ht := ulpExp_le_of_abs_lt x 24 (by norm_num) hx
  have := roundQ_le_of_le x n 0 (by omega) (by rw [zpow_zero, mul_one]; exact hn)
  rwa [zpow_zero, mul_one] at this

theorem int_le_roundQ (x : ℚ) (n : ℤ) (hx : |x| < 2 ^ (24 : ℤ)) (hn : (n : ℚ) ≤ x) :
    (n : ℚ) ≤ roundQ x := by
  have ht := ulpExp_le_of_abs_lt x 24 (by norm_num) hx
  have := le_roundQ_of_le x n 0 (by omega) (by rw [zpow_zero, mul_one]; exact hn)
  rwa [zpow_zero, mul_one] at this


theorem roundQ_nonneg (x : ℚ) (hx : 0 ≤ x) : 0 ≤ roundQ x := by
  have := le_roundQ_of_le x 0 (ulpExp x) (le_refl _) (by rw [Int.cast_zero, zero_mul]; exact hx)
  rwa [Int.cast_zero, zero_mul] at this

theorem roundQ_nonpos (x : ℚ) (hx : x ≤ 0) : roundQ x ≤ 0 := by
  have := roundQ_le_of_le x 0 (ulpExp x) (le_refl _) (by rw [Int.cast_zero, zero_mul]; exact hx)
  rwa [Int.cast_zero, zero_mul] at this

theorem roundQ_mono_same (x y : ℚ) (ht : ulpExp x = ulpExp y) (hxy : x ≤ y) :
    roundQ x ≤ roundQ y := by
  unfold roundQ
  rw [ht]
  have hpos : (0 : ℚ) < 2 ^ ulpExp y := zpow_pos (by norm_num) _
  apply mul_le_mul_of_nonneg_right _ (le_of_lt hpos)
  have := roundHalfEven_mono (div_le_div_of_nonneg_right hxy (le_of_lt hpos))
  exact_mod_cast this

theorem zpow_log_le_abs (x : ℚ) (hx : x ≠ 0) : (2 : ℚ) ^ Int.log 2 |x| ≤ |x| := by
  have := Int.zpow_log_le_self (by norm_num : 1 < 2) (abs_pos.mpr hx)
  exact_mod_cast this

theorem abs_lt_zpow_log_succ (x : ℚ) : |x| < (2 : ℚ) ^ (Int.log 2 |x| + 1) := by
  have := Int.lt_zpow_succ_log_self (by norm_num : 1 < 2) |x|
  exact_mod_cast this

theorem roundQ_mono_pos (x y : ℚ) (hx : 0 < x) (hxy : x ≤ y) : roundQ x ≤ roundQ y := by
  have hy : 0 < y := lt_of_lt_of_le hx hxy
  have hlog : Int.log 2 |x| ≤ Int.log 2 |y| := by
    rw [abs_of_pos hx, abs_of_pos hy]
    exact Int.log_mono_right hx hxy
  by_cases ht : ulpExp x = ulpExp y
  · exact roundQ_mono_same x y ht hxy
  · have hux : ulpExp x = max (Int.log 2 |x| - 23) (-149) := rfl
    have huy : ulpExp y = max (Int.log 2 |y| - 23) (-149) := rfl
    have hxlt : x < 2 ^ (Int.log 2 |x| + 1) :=
      lt_of_le_of_lt (le_abs_self x) (abs_lt_zpow_log_succ x)
    have hyge : (2 : ℚ) ^ Int.log 2 |y| ≤ y :=
      le_trans (zpow_log_le_abs y (ne_of_gt hy)) (le_of_eq (abs_of_pos hy))
    have hstep : Int.log 2 |x| + 1 ≤ Int.log 2 |y| := by omega
    have hpow : (2 : ℚ) ^ (Int.log 2 |x| + 1) ≤ 2 ^ Int.log 2 |y| :=
      zpow_le_zpow_right₀ (by norm_num) hstep
    have h1 := roundQ_le_of_le x 1 (Int.log 2 |y|) (by omega)
      (by rw [Int.cast_one, one_mul]; linarith)
    have h2 := le_roundQ_of_le y 1 (Int.log 2 |y|) (by omega)
      (by rw [Int.cast_one, one_mul]; exact hyge)
    exact le_trans h1 h2

theorem roundQ_mono_neg (x y : ℚ) (hy : y < 0) (hxy : x ≤ y) : roundQ x ≤ roundQ y := by
  have hx : x < 0 := lt_of_le_of_lt hxy hy
  have hlog : Int.log 2 |y| ≤ Int.log 2 |x| := by
    rw [abs_of_neg hx, abs_of_neg hy]
    exact Int.log_mono_right (by linarith) (by linarith)
  by_cases ht : ulpExp x = ulpExp y
  · exact roundQ_mono_same x y ht hxy
  · have hux : ulpExp x = max (Int.log 2 |x| - 23) (-149) := rfl
    have huy : ulpExp y = max (Int.log 2 |y| - 23) (-149) := rfl
    have hylt : -y < 2 ^ (Int.log 2 |y| + 1) :=
      lt_of_le_of_lt (neg_le_abs y) (abs_lt_zpow_log_succ y)
    have hxge : (2 : ℚ) ^ Int.log 2 |x| ≤ -x :=
      le_trans (zpow_log_le_abs x (ne_of_lt hx)) (le_of_eq (abs_of_neg hx))
    have hstep : Int.log 2 |y| + 1 ≤ Int.log 2 |x| := by omega
    have hpow : (2 : ℚ) ^ (Int.log 2 |y| + 1) ≤ 2 ^ Int.log 2 |x| :=
      zpow_le_zpow_right₀ (by norm_num) hstep
    have h1 := roundQ_le_of_le x (-1) (Int.log 2 |x|) (by omega)
      (by push_cast; linarith)
    have h2 := le_roundQ_of_le y (-1) (Int.log 2 |x|) (by omega)
      (by push_cast; linarith)
    exact le_trans h1 h2

/-- Rounding to binary32 is monotone. -/
theorem roundQ_mono (x y : ℚ) (hxy : x ≤ y) : roundQ x ≤ roundQ y := by
  rcases lt_or_le 0 x with hx | hx
  · exact roundQ_mono_pos x y hx hxy
  · rcases lt_or_le y 0 with hy | hy
    · exact roundQ_mono_neg x y hy hxy
    · exact le_trans (roundQ_nonpos x hx) (roundQ_nonneg y hy)

end F32

/-! ## Theorems: from sample to row -/

namespace F32

theorem trunc_eq (d : ℚ) : trunc d = if 0 ≤ d then ⌊d⌋ else ⌈d⌉ := by
  unfold trunc
  split
  · rename_i hd
    rw [Int.tdiv_eq_ediv (Rat.num_nonneg.mpr hd) (by positivity), Rat.floor_def]
  · rename_i hd
    have hneg : ⌊-d⌋ = (-d.num) / (d.den : Int) := by
      rw [Rat.floor_def, Rat.neg_num, Rat.neg_den]
    have hn : 0 ≤ -d.num := by
      have := Rat.num_neg.mpr (not_le.mp hd)
      omega
    have h1 : Int.tdiv d.num d.den = -Int.tdiv (-d.num) d.den := by
      rw [Int.neg_tdiv, neg_neg]
    rw [h1, Int.tdiv_eq_ediv hn (by positivity), ← hneg, Int.floor_neg, neg_neg]

theorem trunc_mono {a b : ℚ} (hab : a ≤ b) : trunc a ≤ trunc b := by
  rw [trunc_eq, trunc_eq]
  split <;> split
  · exact Int.floor_mono hab
  · rename_i ha hb
    exact absurd (le_trans ha hab) hb
  · rename_i ha hb
    have h1 : ⌈a⌉ ≤ 0 := Int.ceil_le.mpr (by push_cast; linarith)
    have h2 : 0 ≤ ⌊b⌋ := Int.floor_nonneg.mpr hb
    omega
  · exact Int.ceil_mono hab

theorem trunc_intCast (n : ℤ) : trunc (n : ℚ) = n := by
  unfold trunc
  rw [Rat.num_intCast, Rat.den_intCast, Nat.cast_one, Int.tdiv_one]

theorem toInt_fin (d : ℚ) (h0 : -2 ^ 31 ≤ trunc d) (h1 : trunc d < 2 ^ 31) :
    toInt (fin d) = some (trunc d) := by
  show (if -2 ^ 31 ≤ trunc d ∧ trunc d < 2 ^ 31 then some (trunc d) else none) = some (trunc d)
  rw [if_pos ⟨h0, h1⟩]

theorem round_of_abs_le (x : ℚ) (b : ℤ) (hb : (b : ℚ) < 2 ^ (24 : ℤ)) (hx : |x| ≤ b) :
    round x = fin (roundQ x) ∧ |roundQ x| ≤ b := by
  have hlt : |x| < 2 ^ (24 : ℤ) := lt_of_le_of_lt hx hb
  have hx' := abs_le.mp hx
  have h1 : roundQ x ≤ b := roundQ_le_int x b hlt hx'.2
  have h2 : ((-b : ℤ) : ℚ) ≤ roundQ x := int_le_roundQ x (-b) hlt (by push_cast; exact hx'.1)
  have habs : |roundQ x| ≤ b := abs_le.mpr ⟨by push_cast at h2; exact h2, h1⟩
  refine ⟨?_, habs⟩
  rw [round_eq_roundQ, if_neg]
  rw [not_le]
  calc |roundQ x| ≤ b := habs
    _ < 2 ^ (24 : ℤ) := hb
    _ < 2 ^ (128 : ℕ) := by norm_num

end F32

/-- The row of a sample already in `[-1, 1]`: `cy + (int)(s * h / 2)` is
defined, with the product and the quotient rounded to single precision. -/
theorem rowOf_scaled (s : ℚ) (hs : |s| ≤ 1) :
    rowOf (F32.div (F32.mul (F32.fin s) (F32.ofInt h)) (F32.ofInt 2)) =
        some (430 + F32.trunc (F32.roundQ (F32.roundQ (s * 80) / 2))) ∧
      |F32.roundQ (s * 80)| ≤ 80 ∧ |F32.roundQ (F32.roundQ (s * 80) / 2)| ≤ 40 := by
  have hx2 : |s * 80| ≤ ((80 : ℤ) : ℚ) := by
    rw [abs_mul]
    norm_num
    linarith
  obtain ⟨hr2, hp⟩ := F32.round_of_abs_le (s * 80) 80 (by norm_num) hx2
  have hx3 : |F32.roundQ (s * 80) / 2| ≤ ((40 : ℤ) : ℚ) := by
    rw [abs_div]
    norm_num at hp ⊢
    linarith
  obtain ⟨hr3, hd⟩ := F32.round_of_abs_le (F32.roundQ (s * 80) / 2) 40 (by norm_num) hx3
  have hmul : F32.mul (F32.fin s) (F32.ofInt h) = F32.fin (F32.roundQ (s * 80)) := by
    rw [h, F32.ofInt_eq 80 (by norm_num)]
    show F32.round (s * ((80 : ℤ) : ℚ)) = _
    rw [← hr2]
    norm_num
  have hdiv : F32.div (F32.fin (F32.roundQ (s * 80))) (F32.ofInt 2) =
      F32.fin (F32.roundQ (F32.roundQ (s * 80) / 2)) := by
    rw [F32.ofInt_eq 2 (by norm_num)]
    show (if (((2 : ℤ) : ℚ)) = 0 then
        (if F32.roundQ (s * 80) = 0 then F32.nan else F32.inf (decide (F32.roundQ (s * 80) < 0)))
      else F32.round (F32.roundQ (s * 80) / ((2 : ℤ) : ℚ))) = _
    rw [if_neg (by norm_num), ← hr3]
    norm_num
  have hd' := abs_le.mp hd
  have ht1 : F32.trunc (F32.roundQ (F32.roundQ (s * 80) / 2)) ≤ 40 := by
    have := F32.trunc_mono hd'.2
    rwa [F32.trunc_intCast] at this
  have ht0 : -40 ≤ F32.trunc (F32.roundQ (F32.roundQ (s * 80) / 2)) := by
    have := F32.trunc_mono hd'.1
    rw [show (-((40 : ℤ) : ℚ)) = ((-40 : ℤ) : ℚ) by norm_num, F32.trunc_intCast] at this
    exact this
  refine ⟨?_, by exact_mod_cast hp, by exact_mod_cast hd⟩
  rw [hmul, hdiv]
  unfold rowOf
  rw [F32.toInt_fin _ (by omega) (by omega), Option.some_bind, cy_eq, if_pos (by omega)]

namespace F32

theorem roundQ_repr (m e : ℤ) (hm : |m| < 2 ^ 24) (he : -149 ≤ e) :
    roundQ ((m : ℚ) * 2 ^ e) = (m : ℚ) * 2 ^ e := by
  by_cases hm0 : m = 0
  · subst hm0
    have h0 : ((0 : ℤ) : ℚ) * 2 ^ e = 0 := by norm_num
    rw [h0]
    exact le_antisymm (roundQ_nonpos 0 le_rfl) (roundQ_nonneg 0 le_rfl)
  · have ht := ulpExp_le_of_repr m e hm he hm0
    exact le_antisymm (roundQ_le_of_le _ m e ht le_rfl) (le_roundQ_of_le _ m e ht le_rfl)

theorem roundQ_intCast (n : ℤ) (hn : |n| < 2 ^ 24) : roundQ (n : ℚ) = n := by
  have := roundQ_repr n 0 hn (by norm_num)
  rwa [zpow_zero, mul_one] at this

theorem roundHalfEven_eq_of_near (z : ℚ) (n : ℤ) (hz : |z - n| < 1 / 2) :
    roundHalfEven z = n := by
  have h1 := roundHalfEven_near z
  have h2 : |((roundHalfEven z : ℤ) : ℚ) - n| < 1 := by
    have e : ((roundHalfEven z : ℤ) : ℚ) - n = (z - n) - (z - (roundHalfEven z : ℤ)) := by ring
    rw [e]
    calc |(z - n) - (z - (roundHalfEven z : ℤ))| ≤ |z - n| + |z - (roundHalfEven z : ℤ)| :=
          abs_sub _ _
      _ < 1 / 2 + 1 / 2 := add_lt_add_of_lt_of_le hz h1
      _ = 1 := by norm_num
  have h3 : |roundHalfEven z - n| < 1 := by
    have : ((|roundHalfEven z - n| : ℤ) : ℚ) < ((1 : ℤ) : ℚ) := by
      rw [Int.cast_abs]
      push_cast
      exact h2
    exact_mod_cast this
  have := abs_lt.mp h3
  omega

theorem ulpExp_eq_of_binade (x : ℚ) (k : ℤ) (hk : -149 ≤ k - 23) (hlo : (2 : ℚ) ^ k ≤ |x|)
    (hhi : |x| < (2 : ℚ) ^ (k + 1)) : ulpExp x = k - 23 := by
  have hpos : 0 < |x| := lt_of_lt_of_le (zpow_pos (by norm_num) k) hlo
  have h1 : k ≤ Int.log 2 |x| :=
    (Int.zpow_le_iff_le_log (by norm_num) hpos).mp (by exact_mod_cast hlo)
  have h2 : Int.log 2 |x| < k + 1 :=
    (Int.lt_zpow_iff_log_lt (by norm_num) hpos).mp (by exact_mod_cast hhi)
  have h3 : Int.log 2 |x| = k := by omega
  unfold ulpExp
  rw [h3]
  exact max_eq_left hk

theorem roundQ_eq_of_near (x : ℚ) (k n : ℤ) (hk : -149 ≤ k - 23) (hlo : (2 : ℚ) ^ k ≤ |x|)
    (hhi : |x| < (2 : ℚ) ^ (k + 1)) (hn : |x / 2 ^ (k - 23) - n| < 1 / 2) :
    roundQ x = (n : ℚ) * 2 ^ (k - 23) := by
  unfold roundQ
  rw [ulpExp_eq_of_binade x k hk hlo hhi, roundHalfEven_eq_of_near _ n hn]

theorem scaled_error (q : ℚ) (h0 : -4 ≤ q) (h1 : q ≤ 4) :
    |scaled q - -(1 / 4) * q * 40| ≤ 2 ^ (-17 : ℤ) ∧ |scaled q| ≤ 40 := by
  have hx1 : |(-q * (1 / 4))| ≤ ((1 : ℤ) : ℚ) := by
    rw [abs_le]
    constructor <;> push_cast <;> linarith
  obtain ⟨-, hs⟩ := round_of_abs_le _ 1 (by norm_num) hx1
  have hx2 : |roundQ (-q * (1 / 4)) * 80| ≤ ((80 : ℤ) : ℚ) := by
    rw [abs_mul]
    norm_num at hs ⊢
    linarith
  obtain ⟨-, hp⟩ := round_of_abs_le _ 80 (by norm_num) hx2
  have hx3 : |roundQ (roundQ (-q * (1 / 4)) * 80) / 2| ≤ ((40 : ℤ) : ℚ) := by
    rw [abs_div]
    norm_num at hp ⊢
    linarith
  obtain ⟨-, hd⟩ := round_of_abs_le _ 40 (by norm_num) hx3
  have e1 := roundQ_error_of_abs_lt (-q * (1 / 4)) 1 le_rfl
    (lt_of_le_of_lt hx1 (by norm_num))
  have e2 := roundQ_error_of_abs_lt (roundQ (-q * (1 / 4)) * 80) 7 (by norm_num)
    (lt_of_le_of_lt hx2 (by norm_num))
  have e3 := roundQ_error_of_abs_lt (roundQ (roundQ (-q * (1 / 4)) * 80) / 2) 6 (by norm_num)
    (lt_of_le_of_lt hx3 (by norm_num))
  refine ⟨?_, by exact_mod_cast hd⟩
  unfold scaled
  norm_num at e1 e2 e3 ⊢
  rw [abs_le] at e1 e2 e3 ⊢
  constructor <;> linarith [e1.1, e1.2, e2.1, e2.2, e3.1, e3.2]

theorem scaled_anti {a b : ℚ} (hab : a ≤ b) : scaled b ≤ scaled a := by
  unfold scaled
  apply roundQ_mono
  apply div_le_div_of_nonneg_right _ (by norm_num)
  apply roundQ_mono
  apply mul_le_mul_of_nonneg_right _ (by norm_num)
  apply roundQ_mono
  linarith

end F32

theorem columnSpan_eq (slot : F32 × F32) :
    columnSpan slot = (y0Of slot.2).bind fun y0 => (y1Of slot.1).map fun y1 =>
      { y0limit := F32.lt (F32.mul (F32.neg slot.2) (F32.fin (1 / 4))) (F32.fin (-1))
        y1limit := F32.lt (F32.fin 1) (F32.mul (F32.neg slot.1) (F32.fin (1 / 4)))
        y0 := y0
        y1 := y1 } := rfl

/-- The scaled sample `-v * 0.25f` of a finite `v` in `[-4, 4]` is finite
and in `[-1, 1]`. -/
theorem sample_mid (q : ℚ) (h0 : -4 ≤ q) (h1 : q ≤ 4) :
    F32.mul (F32.neg (F32.fin q)) (F32.fin (1 / 4)) = F32.fin (F32.roundQ (-q * (1 / 4))) ∧
      |F32.roundQ (-q * (1 / 4))| ≤ 1 := by
  have hx : |(-q * (1 / 4))| ≤ ((1 : ℤ) : ℚ) := by
    rw [abs_le]
    constructor <;> push_cast <;> linarith
  obtain ⟨hr, hb⟩ := F32.round_of_abs_le _ 1 (by norm_num) hx
  exact ⟨hr, by exact_mod_cast hb⟩

theorem y0Of_mid (q : ℚ) (h0 : -4 ≤ q) (h1 : q ≤ 4) :
    y0Of (F32.fin q) = some (430 + F32.trunc (F32.scaled q)) ∧
      F32.lt (F32.mul (F32.neg (F32.fin q)) (F32.fin (1 / 4))) (F32.fin (-1)) = false := by
  obtain ⟨hs, hb⟩ := sample_mid q h0 h1
  have hlt : F32.lt (F32.fin (F32.roundQ (-q * (1 / 4)))) (F32.fin (-1)) = false := by
    show decide (_ < _) = false
    rw [decide_eq_false_iff_not, not_lt]
    exact (abs_le.mp hb).1
  refine ⟨?_, by rw [hs, hlt]⟩
  unfold y0Of
  simp only [hs, hlt, Bool.false_eq_true, if_false]
  exact (rowOf_scaled _ hb).1

theorem y1Of_mid (q : ℚ) (h0 : -4 ≤ q) (h1 : q ≤ 4) :
    y1Of (F32.fin q) = some (430 + F32.trunc (F32.scaled q)) ∧
      F32.lt (F32.fin 1) (F32.mul (F32.neg (F32.fin q)) (F32.fin (1 / 4))) = false := by
  obtain ⟨hs, hb⟩ := sample_mid q h0 h1
  have hlt : F32.lt (F32.fin 1) (F32.fin (F32.roundQ (-q * (1 / 4)))) = false := by
    show decide (_ < _) = false
    rw [decide_eq_false_iff_not, not_lt]
    exact (abs_le.mp hb).2
  refine ⟨?_, by rw [hs, hlt]⟩
  unfold y1Of
  simp only [hs, hlt, Bool.false_eq_true, if_false]
  exact (rowOf_scaled _ hb).1

theorem rowOf_neg_one :
    rowOf (F32.div (F32.mul (F32.fin (-1)) (F32.ofInt h)) (F32.ofInt 2)) = some 390 := by
  have e4 : F32.mul (F32.fin (-1)) (F32.fin ((80 : ℤ) : ℚ)) = F32.fin ((-80 : ℤ) : ℚ) :=
    F32.mul_fin_eq_int _ _ (-80) (by norm_num) (by norm_num)
  have e5 : F32.div (F32.fin ((-80 : ℤ) : ℚ)) (F32.fin ((2 : ℤ) : ℚ)) = F32.fin ((-40 : ℤ) : ℚ) :=
    F32.div_fin_eq_int _ _ (-40) (by norm_num) (by norm_num) (by norm_num)
  simp only [h, F32.ofInt_eq 80 (by norm_num), F32.ofInt_eq 2 (by norm_num), e4, e5,
    rowOf_intCast (-40) (by norm_num) (by norm_num)]
  norm_num

theorem rowOf_one :
    rowOf (F32.div (F32.mul (F32.fin 1) (F32.ofInt h)) (F32.ofInt 2)) = some 470 := by
  have e4 : F32.mul (F32.fin 1) (F32.fin ((80 : ℤ) : ℚ)) = F32.fin ((80 : ℤ) : ℚ) :=
    F32.mul_fin_eq_int _ _ 80 (by norm_num) (by norm_num)
  have e5 : F32.div (F32.fin ((80 : ℤ) : ℚ)) (F32.fin ((2 : ℤ) : ℚ)) = F32.fin ((40 : ℤ) : ℚ) :=
    F32.div_fin_eq_int _ _ 40 (by norm_num) (by norm_num) (by norm_num)
  simp only [h, F32.ofInt_eq 80 (by norm_num), F32.ofInt_eq 2 (by norm_num), e4, e5,
    rowOf_intCast 40 (by norm_num) (by norm_num)]
  norm_num

/-- A `max` above 4 (finite or `+∞`): `y0sample` ends as `-1`, whatever the
rounding of `-max * 0.25f`, so `y0` is the top row of the strip. -/
theorem y0Of_high (mx : F32) (hgt : F32.lt (F32.fin 4) mx = true) : y0Of mx = some 390 := by
  have key : (if F32.lt (F32.mul (F32.neg mx) (F32.fin (1 / 4))) (F32.fin (-1)) = true then
      F32.fin (-1) else F32.mul (F32.neg mx) (F32.fin (1 / 4))) = F32.fin (-1) := by
    cases mx with
    | nan => simp [F32.lt] at hgt
    | inf b =>
      cases b
      · simp [F32.neg, F32.mul, F32.lt]
      · simp [F32.lt] at hgt
    | fin q =>
      have hq : 4 < q := by simpa [F32.lt] using hgt
      have hy : F32.roundQ (-q * (1 / 4)) ≤ -1 := by
        have h1 := F32.roundQ_mono (-q * (1 / 4)) (((-1 : ℤ) : ℚ)) (by push_cast; linarith)
        rw [F32.roundQ_intCast (-1) (by norm_num)] at h1
        exact_mod_cast h1
      show (if F32.lt (F32.round (-q * (1 / 4))) (F32.fin (-1)) = true then F32.fin (-1)
        else F32.round (-q * (1 / 4))) = F32.fin (-1)
      rw [F32.round_eq_roundQ]
      generalize F32.roundQ (-q * (1 / 4)) = y at hy
      by_cases hov : (2 : ℚ) ^ (128 : ℕ) ≤ |y|
      · rw [if_pos hov]
        have hneg : y < 0 := by linarith
        simp [F32.lt, hneg]
      · rw [if_neg hov]
        by_cases hlt : y < -1
        · simp [F32.lt, hlt]
        · have heq : y = -1 := le_antisymm hy (not_lt.mp hlt)
          subst heq
          simp [F32.lt]
  unfold y0Of
  simp only [key]
  exact rowOf_neg_one

/-- A `min` below -4 (finite or `-∞`): `y1sample` ends as `1`, so `y1` is the
bottom row of the strip. -/
theorem y1Of_low (mn : F32) (hlt4 : F32.lt mn (F32.fin (-4)) = true) : y1Of mn = some 470 := by
  have key : (if F32.lt (F32.fin 1) (F32.mul (F32.neg mn) (F32.fin (1 / 4))) = true then
      F32.fin 1 else F32.mul (F32.neg mn) (F32.fin (1 / 4))) = F32.fin 1 := by
    cases mn with
    | nan => simp [F32.lt] at hlt4
    | inf b =>
      cases b
      · simp [F32.lt] at hlt4
      · simp [F32.neg, F32.mul, F32.lt]
    | fin q =>
      have hq : q < -4 := by simpa [F32.lt] using hlt4
      have hy : 1 ≤ F32.roundQ (-q * (1 / 4)) := by
        have h1 := F32.roundQ_mono (((1 : ℤ) : ℚ)) (-q * (1 / 4)) (by push_cast; linarith)
        rw [F32.roundQ_intCast 1 (by norm_num)] at h1
        exact_mod_cast h1
      show (if F32.lt (F32.fin 1) (F32.round (-q * (1 / 4))) = true then F32.fin 1
        else F32.round (-q * (1 / 4))) = F32.fin 1
      rw [F32.round_eq_roundQ]
      generalize F32.roundQ (-q * (1 / 4)) = y at hy
      by_cases hov : (2 : ℚ) ^ (128 : ℕ) ≤ |y|
      · rw [if_pos hov]
        have hneg : ¬ y < 0 := by linarith
        simp [F32.lt, hneg]
      · rw [if_neg hov]
        by_cases hlt : 1 < y
        · simp [F32.lt, hlt]
        · have heq : y = 1 := le_antisymm (not_lt.mp hlt) hy
          subst heq
          simp [F32.lt]
  unfold y1Of
  simp only [key]
  exact rowOf_one

/-- The span of a slot with both values finite and in `[-4, 4]`: no clamp,
both rows are the truncated scaled samples. -/
theorem columnSpan_mid (mn mx : ℚ) (h0 : -4 ≤ mn) (h1 : mn ≤ 4) (h2 : -4 ≤ mx) (h3 : mx ≤ 4) :
    columnSpan (F32.fin mn, F32.fin mx) =
      some { y0limit := false, y1limit := false, y0 := 430 + F32.trunc (F32.scaled mx),
             y1 := 430 + F32.trunc (F32.scaled mn) } := by
  rw [columnSpan_eq]
  simp only [(y0Of_mid mx h2 h3).1, (y0Of_mid mx h2 h3).2, (y1Of_mid mn h0 h1).1,
    (y1Of_mid mn h0 h1).2, Option.some_bind, Option.map_some']

theorem trunc_scaled_bounds (q : ℚ) (h0 : -4 ≤ q) (h1 : q ≤ 4) :
    -40 ≤ F32.trunc (F32.scaled q) ∧ F32.trunc (F32.scaled q) ≤ 40 := by
  have hd := abs_le.mp (F32.scaled_error q h0 h1).2
  constructor
  · have := F32.trunc_mono hd.1
    rw [show (-(40 : ℚ)) = ((-40 : ℤ) : ℚ) by norm_num, F32.trunc_intCast] at this
    exact this
  · have := F32.trunc_mono hd.2
    rw [show ((40 : ℚ)) = ((40 : ℤ) : ℚ) by norm_num, F32.trunc_intCast] at this
    exact this

/-- The statics after one `plot` on the zero-initialised state, slot by slot. -/
theorem ring_one_slot (slot : F32 × F32) (i : Fin 640) :
    Function.update Ring.init.drawbuf ⟨0, by omega⟩ slot i =
      if i = ⟨0, by omega⟩ then slot else (F32.fin 0, F32.fin 0) := by
  by_cases hi : i = ⟨0, by omega⟩
  · rw [hi, Function.update_same, if_pos rfl]
  · rw [Function.update_noteq hi, if_neg hi]
    rfl

/-- The waveform pass succeeds after one `plot` of a sample with a defined
span. -/
theorem wavePass_one_slot (pitch : Int) (slot : F32 × F32) (sp : Span)
    (hsp : columnSpan slot = some sp) (pixels : Int → Nat) :
    ∃ pixels', wavePass pitch
      { drawbuf := Function.update Ring.init.drawbuf ⟨0, by omega⟩ slot
        drawindex := 1 } pixels = some pixels' := by
  apply (waveLoop_isSome_iff pitch _ _ _).mpr
  intro i _
  simp only [ring_one_slot]
  by_cases hi : i = ⟨0, by omega⟩
  · rw [if_pos hi]
    exact ⟨_, hsp⟩
  · rw [if_neg hi]
    exact ⟨_, columnSpan_zero⟩

namespace F32

theorem roundQ_of_eq (x : ℚ) (m e : ℤ) (hm : |m| < 2 ^ 24) (he : -149 ≤ e)
    (hx : x = (m : ℚ) * 2 ^ e) : roundQ x = x := by
  rw [hx]
  exact roundQ_repr m e hm he

theorem trunc_of_floor (d : ℚ) (n : ℤ) (h0 : 0 ≤ d) (h1 : (n : ℚ) ≤ d) (h2 : d < n + 1) :
    trunc d = n := by
  rw [trunc_eq, if_pos h0]
  exact Int.floor_eq_iff.mpr ⟨h1, h2⟩

theorem scaled_neg_sixteenth : scaled (-1 / 16) = 5 / 8 := by
  have a1 : roundQ (-(-1 / 16 : ℚ) * (1 / 4)) = 1 / 64 := by
    rw [roundQ_of_eq _ 1 (-6) (by norm_num) (by norm_num) (by norm_num)]
    norm_num
  have a2 : roundQ ((1 / 64 : ℚ) * 80) = 5 / 4 := by
    rw [roundQ_of_eq _ 5 (-2) (by norm_num) (by norm_num) (by norm_num)]
    norm_num
  have a3 : roundQ ((5 / 4 : ℚ) / 2) = 5 / 8 := by
    rw [roundQ_of_eq _ 5 (-3) (by norm_num) (by norm_num) (by norm_num)]
    norm_num
  unfold scaled
  rw [a1, a2, a3]

theorem scaled_neg_one : scaled (-1) = 10 := by
  have a1 : roundQ (-(-1 : ℚ) * (1 / 4)) = 1 / 4 := by
    rw [roundQ_of_eq _ 1 (-2) (by norm_num) (by norm_num) (by norm_num)]
    norm_num
  have a2 : roundQ ((1 / 4 : ℚ) * 80) = 20 := by
    rw [roundQ_of_eq _ 20 0 (by norm_num) (by norm_num) (by norm_num)]
    norm_num
  have a3 : roundQ ((20 : ℚ) / 2) = 10 := by
    rw [roundQ_of_eq _ 10 0 (by norm_num) (by norm_num) (by norm_num)]
    norm_num
  unfold scaled
  rw [a1, a2, a3]

theorem scaled_one : scaled 1 = -10 := by
  have a1 : roundQ (-(1 : ℚ) * (1 / 4)) = -(1 / 4) := by
    rw [roundQ_of_eq _ (-1) (-2) (by norm_num) (by norm_num) (by norm_num)]
    norm_num
  have a2 : roundQ (-(1 / 4 : ℚ) * 80) = -20 := by
    rw [roundQ_of_eq _ (-20) 0 (by norm_num) (by norm_num) (by norm_num)]
    norm_num
  have a3 : roundQ ((-20 : ℚ) / 2) = -10 := by
    rw [roundQ_of_eq _ (-10) 0 (by norm_num) (by norm_num) (by norm_num)]
    norm_num
  unfold scaled
  rw [a1, a2, a3]

/-- The product `s * 80` is rounded up to 18 for the binary32 value
`s = 15099494 * 2 ^ (-26)`, although the exact product is below 18. -/
theorem scaled_just_below : scaled (-15099494 / 16777216) = 9 := by
  have a1 : roundQ (-(-15099494 / 16777216 : ℚ) * (1 / 4)) = 15099494 / 67108864 := by
    rw [roundQ_of_eq _ 15099494 (-26) (by norm_num) (by norm_num) (by norm_num)]
    norm_num
  have a2 : roundQ ((15099494 / 67108864 : ℚ) * 80) = 18 := by
    rw [roundQ_eq_of_near _ 4 9437184 (by norm_num)
      (by rw [abs_of_pos (by norm_num)]; norm_num)
      (by rw [abs_of_pos (by norm_num)]; norm_num)
      (by rw [abs_lt]; constructor <;> norm_num)]
    norm_num
  have a3 : roundQ ((18 : ℚ) / 2) = 9 := by
    rw [roundQ_of_eq _ 9 0 (by norm_num) (by norm_num) (by norm_num)]
    norm_num
  unfold scaled
  rw [a1, a2, a3]

end F32

/-- The span of the slot `(8, 8)`: the upper bound is clamped, the lower
bound is not and lands on row 350. -/
theorem columnSpan_eight :
    columnSpan (F32.fin 8, F32.fin 8) =
      some { y0limit := true, y1limit := false, y0 := 390, y1 := 350 } := by
  have e1 : F32.mul (F32.neg (F32.fin 8)) (F32.fin (1 / 4)) = F32.fin ((-2 : ℤ) : ℚ) :=
    F32.mul_fin_eq_int _ _ (-2) (by norm_num) (by norm_num)
  have e2 : F32.mul (F32.fin ((-2 : ℤ) : ℚ)) (F32.fin ((80 : ℤ) : ℚ)) =
      F32.fin ((-160 : ℤ) : ℚ) :=
    F32.mul_fin_eq_int _ _ (-160) (by norm_num) (by norm_num)
  have e3 : F32.div (F32.fin ((-160 : ℤ) : ℚ)) (F32.fin ((2 : ℤ) : ℚ)) =
      F32.fin ((-80 : ℤ) : ℚ) :=
    F32.div_fin_eq_int _ _ (-80) (by norm_num) (by norm_num) (by norm_num)
  have e4 : F32.mul (F32.fin (-1)) (F32.fin ((80 : ℤ) : ℚ)) = F32.fin ((-80 : ℤ) : ℚ) :=
    F32.mul_fin_eq_int _ _ (-80) (by norm_num) (by norm_num)
  have e5 : F32.div (F32.fin ((-80 : ℤ) : ℚ)) (F32.fin ((2 : ℤ) : ℚ)) =
      F32.fin ((-40 : ℤ) : ℚ) :=
    F32.div_fin_eq_int _ _ (-40) (by norm_num) (by norm_num) (by norm_num)
  have l0 : F32.lt (F32.fin ((-2 : ℤ) : ℚ)) (F32.fin (-1)) = true := by
    norm_num [F32.lt]
  have l1 : F32.lt (F32.fin 1) (F32.fin ((-2 : ℤ) : ℚ)) = false := by
    norm_num [F32.lt]
  unfold columnSpan
  simp only [e1, l0, l1, h, F32.ofInt_eq 80 (by norm_num), F32.ofInt_eq 2 (by norm_num), e2, e3,
    e4, e5, rowOf_intCast (-80) (by norm_num) (by norm_num),
    rowOf_intCast (-40) (by norm_num) (by norm_num), Bool.false_eq_true, if_false, if_true,
    Option.some_bind, Option.map_some']
  norm_num

/-- C12 (the failing inputs). Each of the two quantities is clamped on one
side only. After `plot(-8, -8)` the column span of the new slot has
`y0 = 510`, above 470 (`-max * 0.25 = 2` is compared with `-1` only); after
`plot(8, 8)` it has `y1 = 350`, below 390 (`-min * 0.25 = -2` is compared
with `1` only). -/
theorem clamp_is_one_sided :
    (∃ g sp, plot Ring.init (F32.fin (-8)) (F32.fin (-8)) = some g ∧
        columnSpan (g.drawbuf ⟨0, by decide⟩) = some sp ∧ sp.y0 = 510 ∧ ¬ sp.y0 ≤ 470) ∧
      (∃ g sp, plot Ring.init (F32.fin 8) (F32.fin 8) = some g ∧
        columnSpan (g.drawbuf ⟨0, by decide⟩) = some sp ∧ sp.y1 = 350 ∧ ¬ 390 ≤ sp.y1) := by
  constructor
  · refine ⟨_, { y0limit := false, y1limit := true, y0 := 510, y1 := 470 }, plot_init _ _, ?_,
      rfl, by decide⟩
    show columnSpan (Function.update Ring.init.drawbuf ⟨0, by omega⟩
      (F32.fin (-8), F32.fin (-8)) ⟨0, by decide⟩) = _
    rw [ring_one_slot, if_pos rfl]
    exact columnSpan_neg_eight
  · refine ⟨_, { y0limit := true, y1limit := false, y0 := 390, y1 := 350 }, plot_init _ _, ?_,
      rfl, by decide⟩
    show columnSpan (Function.update Ring.init.drawbuf ⟨0, by omega⟩
      (F32.fin 8, F32.fin 8) ⟨0, by decide⟩) = _
    rw [ring_one_slot, if_pos rfl]
    exact columnSpan_eight

/-- C13 (counterexample). The sample `min = -1`, `max = -15099494 / 2 ^ 24`
(both binary32 values, `-4 ≤ min ≤ max ≤ 4`): the stated formula gives
`y0 = 430 + trunc(-max * 10) = 438` and `y1 = 440`, so row 438 would be the
fill tone, while after `plot(min, max)` and the waveform pass row 438 of
column 639 holds the background `0x18181818`: the single-precision product
`(-max * 0.25f) * 80` rounds up to 18 and the code computes `y0 = 439`. -/
theorem band_formula_fails_by_rounding :
    F32.IsFinite32 (-1) ∧ F32.IsFinite32 (-15099494 / 16777216) ∧
      (-4 : ℚ) ≤ -1 ∧ (-1 : ℚ) ≤ -15099494 / 16777216 ∧ (-15099494 / 16777216 : ℚ) ≤ 4 ∧
      430 + F32.trunc (-(-15099494 / 16777216) * 10) = 438 ∧
      430 + F32.trunc (-(-1) * 10) = 440 ∧
      ∃ g pixels', plot Ring.init (F32.fin (-1)) (F32.fin (-15099494 / 16777216)) = some g ∧
        wavePass 640 g (fun _ => 0) = some pixels' ∧
        pixels' (438 * 640 + 639) = 0x18181818 := by
  have hspan := columnSpan_mid (-1) (-15099494 / 16777216) (by norm_num) (by norm_num)
    (by norm_num) (by norm_num)
  rw [F32.scaled_just_below, F32.scaled_neg_one,
    F32.trunc_of_floor 9 9 (by norm_num) (by norm_num) (by norm_num),
    F32.trunc_of_floor 10 10 (by norm_num) (by norm_num) (by norm_num)] at hspan
  obtain ⟨pixels', hw⟩ := wavePass_one_slot 640 _ _ hspan (fun _ => 0)
  obtain ⟨sp, hsp, hpx⟩ := wavePass_apply 640 _ _ _ (by decide) (by decide) (by decide) hw
    639 (by decide) 438
  dsimp only at hsp
  rw [ring_one_slot, if_pos (Fin.ext (by rfl)), hspan] at hsp
  have hsp' := Option.some.inj hsp
  refine ⟨⟨-1, 0, by norm_num, by norm_num, by norm_num, by norm_num⟩,
    ⟨-15099494, -24, by norm_num, by norm_num, by norm_num, by norm_num⟩,
    by norm_num, by norm_num, by norm_num, ?_, ?_, _, pixels', plot_init _ _, hw, ?_⟩
  · rw [F32.trunc_of_floor _ 8 (by norm_num) (by norm_num) (by norm_num)]
    norm_num
  · rw [F32.trunc_of_floor _ 10 (by norm_num) (by norm_num) (by norm_num)]
    norm_num
  · show pixels' (438 * 640 + ((639 : ℕ) : Int)) = 0x18181818
    rw [hpx, ← hsp']
    decide

/-- C13 (amended). For a column whose sample is finite with
`-4 ≤ min ≤ max ≤ 4`, the code computes, with neither clamp flag set,
`y0 = 430 + trunc(s(max))` and `y1 = 430 + trunc(s(min))`, where `s(v)` is the
single-precision value of `((-v * 0.25f) * 80) / 2` and differs from
`-v * 10` by at most `2 ^ (-17)`; `390 ≤ y0 ≤ y1 ≤ 470`; and after the waveform
pass each row `r` in `[390, 470]` of that column is `0x66666666` if `r = 430`,
otherwise `0x44444444` if `y0 ≤ r ≤ y1`, otherwise `0x18181818`. -/
theorem column_bands_in_range (pitch : Int) (g : Ring) (pixels pixels' : Int → Nat)
    (hc0 : 0 ≤ g.drawindex) (hc : g.drawindex < 640) (hp : 640 ≤ pitch)
    (hw : wavePass pitch g pixels = some pixels') (k : Nat) (hk : k < 640) (mn mx : ℚ)
    (hslot : g.drawbuf ⟨(g.drawindex.toNat + k) % 640, Nat.mod_lt _ (by decide)⟩ =
      (F32.fin mn, F32.fin mx))
    (h0 : -4 ≤ mn) (h1 : mn ≤ mx) (h2 : mx ≤ 4) :
    columnSpan (g.drawbuf ⟨(g.drawindex.toNat + k) % 640, Nat.mod_lt _ (by decide)⟩) =
        some { y0limit := false, y1limit := false, y0 := 430 + F32.trunc (F32.scaled mx),
               y1 := 430 + F32.trunc (F32.scaled mn) } ∧
      |F32.scaled mx - -mx * 10| ≤ 2 ^ (-17 : ℤ) ∧ |F32.scaled mn - -mn * 10| ≤ 2 ^ (-17 : ℤ) ∧
      390 ≤ 430 + F32.trunc (F32.scaled mx) ∧
      430 + F32.trunc (F32.scaled mx) ≤ 430 + F32.trunc (F32.scaled mn) ∧
      430 + F32.trunc (F32.scaled mn) ≤ 470 ∧
      ∀ r : Int, 390 ≤ r → r ≤ 470 →
        pixels' (r * pitch + k) =
          if r = 430 then 0x66666666
          else if 430 + F32.trunc (F32.scaled mx) ≤ r ∧ r ≤ 430 + F32.trunc (F32.scaled mn) then
            0x44444444
          else 0x18181818 := by
  have hspan := columnSpan_mid mn mx h0 (le_trans h1 h2) (le_trans h0 h1) h2
  have hmx := F32.scaled_error mx (le_trans h0 h1) h2
  have hmn := F32.scaled_error mn h0 (le_trans h1 h2)
  have bmx := trunc_scaled_bounds mx (le_trans h0 h1) h2
  have bmn := trunc_scaled_bounds mn h0 (le_trans h1 h2)
  have hord := F32.trunc_mono (F32.scaled_anti h1)
  have emx : -(1 / 4) * mx * 40 = -mx * 10 := by ring
  have emn : -(1 / 4) * mn * 40 = -mn * 10 := by ring
  rw [emx] at hmx
  rw [emn] at hmn
  refine ⟨by rw [hslot]; exact hspan, hmx.1, hmn.1, by omega, by omega, by omega, ?_⟩
  intro r hr0 hr1
  obtain ⟨sp, hsp, hpx⟩ := wavePass_apply pitch g pixels pixels' hc0 hc hp hw k hk r
  rw [hslot, hspan] at hsp
  obtain rfl := Option.some.inj hsp
  rw [hpx, paintedRow_in_strip _ r _ hr0 hr1]
  simp only [Bool.false_eq_true, false_and, if_false]

theorem column_bands_in_range_witness :
    ∃ pixels', wavePass 640
        { drawbuf := Function.update Ring.init.drawbuf ⟨0, by omega⟩ (F32.fin (-1), F32.fin 1)
          drawindex := 1 } (fun _ => 0) = some pixels' ∧
      |F32.scaled 1 - -1 * 10| ≤ 2 ^ (-17 : ℤ) ∧ |F32.scaled (-1) - -(-1) * 10| ≤ 2 ^ (-17 : ℤ) ∧
      390 ≤ 430 + F32.trunc (F32.scaled 1) ∧
      430 + F32.trunc (F32.scaled 1) ≤ 430 + F32.trunc (F32.scaled (-1)) ∧
      430 + F32.trunc (F32.scaled (-1)) ≤ 470 ∧
      ∀ r : Int, 390 ≤ r → r ≤ 470 →
        pixels' (r * 640 + (639 : ℕ)) =
          if r = 430 then 0x66666666
          else if 430 + F32.trunc (F32.scaled 1) ≤ r ∧ r ≤ 430 + F32.trunc (F32.scaled (-1)) then
            0x44444444
          else 0x18181818 := by
  have hspan := columnSpan_mid (-1) 1 (by norm_num) (by norm_num) (by norm_num) (by norm_num)
  obtain ⟨pixels', hw⟩ := wavePass_one_slot 640 _ _ hspan (fun _ => 0)
  have hslot : Function.update Ring.init.drawbuf ⟨0, by omega⟩ (F32.fin (-1), F32.fin 1)
      ⟨(((1 : Int).toNat) + 639) % 640, Nat.mod_lt _ (by decide)⟩ =
        (F32.fin (-1), F32.fin 1) := by
    rw [ring_one_slot, if_pos (Fin.ext (by rfl))]
  exact ⟨pixels', hw,
    (column_bands_in_range 640 _ (fun _ => 0) pixels' (by decide) (by decide) (by decide) hw
      639 (by decide) (-1) 1 hslot (by norm_num) (by norm_num) (by norm_num)).2⟩

/-- C15 (counterexample). For the sample value `v = -1/16` (as `max` and as
`min`) the code computes row 430: `-0.25 * v * 40 = 0.625` is truncated to 0,
while the stated formula rounds it to 1 and gives row 431. -/
theorem row_truncates_not_rounds :
    columnSpan (F32.fin (-1 / 16), F32.fin (-1 / 16)) =
        some { y0limit := false, y1limit := false, y0 := 430, y1 := 430 } ∧
      claimedRow (-1 / 16) = 431 := by
  constructor
  · rw [columnSpan_mid (-1 / 16) (-1 / 16) (by norm_num) (by norm_num) (by norm_num)
      (by norm_num), F32.scaled_neg_sixteenth,
      F32.trunc_of_floor _ 0 (by norm_num) (by norm_num) (by norm_num)]
    rfl
  · unfold claimedRow
    rw [cy_eq]
    have e : max (-1 : ℚ) (min 1 (-(1 / 4) * (-1 / 16))) * 40 = 5 / 8 := by
      rw [min_eq_right (by norm_num), max_eq_right (by norm_num)]
      norm_num
    rw [e, round_eq, Int.floor_eq_iff.mpr (⟨by norm_num, by norm_num⟩ :
      ((1 : ℤ) : ℚ) ≤ 5 / 8 + 1 / 2 ∧ (5 / 8 + 1 / 2 : ℚ) < (1 : ℤ) + 1)]
    rfl

/-- C15 (amended). The sample-to-row mapping truncates toward zero: for a
finite sample value `v` with `-4 ≤ v ≤ 4`, the row computed from it (`y0` when
`v` is the `max` of the slot, `y1` when it is the `min`) is
`430 + trunc(s(v))`, where `s(v)` is the single-precision value of
`((-v * 0.25f) * 80) / 2` and differs from `clamp(-0.25 * v) * 40` by at most
`2 ^ (-17)`; it lies in `[390, 470]`. A `max` above 4 gives `y0 = 390` and a
`min` below -4 gives `y1 = 470`. -/
theorem row_is_truncated_scaled_sample (v : ℚ) (h0 : -4 ≤ v) (h1 : v ≤ 4) :
    y0Of (F32.fin v) = some (430 + F32.trunc (F32.scaled v)) ∧
      y1Of (F32.fin v) = some (430 + F32.trunc (F32.scaled v)) ∧
      |F32.scaled v - max (-1) (min 1 (-(1 / 4) * v)) * 40| ≤ 2 ^ (-17 : ℤ) ∧
      390 ≤ 430 + F32.trunc (F32.scaled v) ∧ 430 + F32.trunc (F32.scaled v) ≤ 470 ∧
      (∀ w : F32, F32.lt (F32.fin 4) w = true → y0Of w = some 390) ∧
      (∀ w : F32, F32.lt w (F32.fin (-4)) = true → y1Of w = some 470) := by
  have hb := trunc_scaled_bounds v h0 h1
  have he := (F32.scaled_error v h0 h1).1
  have hclamp : max (-1) (min 1 (-(1 / 4) * v)) = -(1 / 4) * v := by
    rw [min_eq_right (by linarith), max_eq_right (by linarith)]
  rw [hclamp]
  exact ⟨(y0Of_mid v h0 h1).1, (y1Of_mid v h0 h1).1, he, by omega, by omega,
    y0Of_high, y1Of_low⟩

theorem row_is_truncated_scaled_sample_witness :
    y0Of (F32.fin (-1 / 16)) = some (430 + F32.trunc (F32.scaled (-1 / 16))) ∧
      y1Of (F32.fin (-1 / 16)) = some (430 + F32.trunc (F32.scaled (-1 / 16))) ∧
      |F32.scaled (-1 / 16) - max (-1) (min 1 (-(1 / 4) * (-1 / 16))) * 40| ≤ 2 ^ (-17 : ℤ) ∧
      390 ≤ 430 + F32.trunc (F32.scaled (-1 / 16)) ∧
      430 + F32.trunc (F32.scaled (-1 / 16)) ≤ 470 ∧
      (∀ w : F32, F32.lt (F32.fin 4) w = true → y0Of w = some 390) ∧
      (∀ w : F32, F32.lt w (F32.fin (-4)) = true → y1Of w = some 470) :=
  row_is_truncated_scaled_sample (-1 / 16) (by norm_num) (by norm_num)

/-! ## Theorems: when the waveform pass is defined -/

namespace F32

end F32

theorem columnSpan_neg_one_one :
    columnSpan (F32.fin (-1), F32.fin 1) =
      some { y0limit := false, y1limit := false, y0 := 420, y1 := 440 } := by
  have t0 : F32.trunc (-10) = -10 := by
    have := F32.trunc_intCast (-10)
    push_cast at this
    exact this
  have t1 : F32.trunc 10 = 10 := by
    have := F32.trunc_intCast 10
    push_cast at this
    exact this
  rw [columnSpan_mid (-1) 1 (by norm_num) (by norm_num) (by norm_num) (by norm_num),
    F32.scaled_one, F32.scaled_neg_one, t0, t1]
  rfl

theorem waveform_in_time_order_witness :
    ∃ pixels', wavePass 640
        { drawbuf := Function.update Ring.init.drawbuf ⟨0, by omega⟩ (F32.fin (-1), F32.fin 1)
          drawindex := 1 } (fun _ => 0) = some pixels' ∧
      (∀ k : Int, 0 ≤ k → k < 640 → columnOf 1 ((1 + k) % 640) = k) ∧
      columnOf 1 ((1 - 1 + 640) % 640) = 639 ∧
      columnOf 1 1 = 0 ∧
      (∀ (k : Nat) (r : Int), k < 640 →
        ∃ sp,
          columnSpan (Function.update Ring.init.drawbuf ⟨0, by omega⟩ (F32.fin (-1), F32.fin 1)
              ⟨((1 : Int).toNat + k) % 640, Nat.mod_lt _ (by decide)⟩) = some sp ∧
          pixels' (r * 640 + k) = paintedRow sp r ((fun _ => 0) (r * 640 + (k : Int)))) ∧
      pixels' (425 * 640 + 639) = 0x44444444 ∧ pixels' (425 * 640 + 0) = 0x18181818 := by
  obtain ⟨pixels', hw⟩ := wavePass_one_slot 640 _ _ columnSpan_neg_one_one (fun _ => 0)
  have H := waveform_in_time_order 640
    { drawbuf := Function.update Ring.init.drawbuf ⟨0, by omega⟩ (F32.fin (-1), F32.fin 1)
      drawindex := 1 } (fun _ => 0) (by decide) (by decide) (by decide)
  refine ⟨pixels', hw, H.1, H.2.1, H.2.2.1, H.2.2.2 pixels' hw, ?_, ?_⟩
  · obtain ⟨sp, hsp, hpx⟩ := H.2.2.2 pixels' hw 639 425 (by decide)
    dsimp only at hsp
    rw [ring_one_slot, if_pos (Fin.ext (by rfl)), columnSpan_neg_one_one] at hsp
    have hsp' := Option.some.inj hsp
    show pixels' (425 * 640 + ((639 : ℕ) : Int)) = 0x44444444
    rw [hpx, ← hsp']
    decide
  · obtain ⟨sp, hsp, hpx⟩ := H.2.2.2 pixels' hw 0 425 (by decide)
    dsimp only at hsp
    rw [ring_one_slot, if_neg (by intro hcon; exact absurd (congrArg Fin.val hcon) (by decide)),
      columnSpan_zero] at hsp
    have hsp' := Option.some.inj hsp
    show pixels' (425 * 640 + ((0 : ℕ) : Int)) = 0x18181818
    rw [hpx, ← hsp']
    decide

end Zang
